import Mathlib

/-!
# Reference-counted pointers of `shared_ptr.h`

The header defines `Counter` (the control block), `SharedPtr<T>` and `WeakPtr<T>`.
Every member function reads and writes three kinds of storage:

* the control blocks obtained with `new Counter(1, 0)`,
* the managed objects obtained by the caller with `new T`,
* the `SharedPtr` / `WeakPtr` instances themselves (two pointers each).

The embedding keeps the three in a `World`.  A member function is a function
`World → Except Err World` whose `this` and reference arguments are the indices of
instances, so that `this == &other` is index equality and a write through one
reference is seen through the other.

Cells stay readable after `delete`: a cell only counts how often `delete` ran on it.
Use after free and double free are therefore not excluded by the embedding; that they
do not happen is part of what is proved.

`delete ptr_` runs `~T()`.  The member functions are given twice: `SharedPtr.Reset`,
`exec`, `Reachable` for a `T` whose destructor ends no `SharedPtr` and no `WeakPtr`,
and `SharedPtr.ResetT`, `execT`, `runT` for a `T` with such sub-objects, whose
destructors then run in the middle of `SharedPtr::Reset`.  `execT_inert` shows that the
first is the second for a `T` without sub-objects.
-/

namespace Stl

/-- Number of values of `size_t`. -/
def SIZE_T_CARD : Nat := 2 ^ 64

/-- `++n` on a `size_t`. -/
def incr (n : Nat) : Nat := (n + 1) % SIZE_T_CARD

/-- `--n` on a `size_t`. -/
def decr (n : Nat) : Nat := (n + (SIZE_T_CARD - 1)) % SIZE_T_CARD

/-- `struct Counter`: the two fields of a control block. -/
structure Counter where
  shared_cnt_ : Nat
  weak_cnt_ : Nat
  deriving DecidableEq

/-- Heap cell made by `new Counter(...)`: the fields, and how many times
`delete cnt_` has been executed on the cell. -/
structure CounterCell where
  val : Counter
  deletes : Nat
  deriving DecidableEq

/-- Data members of `SharedPtr<T>`: a pointer is `none` for `nullptr` or the heap
address of the cell it points to. -/
structure SharedPtr where
  ptr_ : Option Nat
  cnt_ : Option Nat
  deriving DecidableEq

/-- Data members of `WeakPtr<T>`, pointers as in `SharedPtr`. -/
structure WeakPtr where
  ptr_ : Option Nat
  cnt_ : Option Nat
  deriving DecidableEq

/-- An instance of one of the two class templates. -/
inductive Inst
  | shared (p : SharedPtr)
  | weak (p : WeakPtr)
  deriving DecidableEq

/-- The `ptr_` member of an instance of either class. -/
def Inst.ptr_ : Inst → Option Nat
  | .shared p => p.ptr_
  | .weak p => p.ptr_

/-- The `cnt_` member of an instance of either class. -/
def Inst.cnt_ : Inst → Option Nat
  | .shared p => p.cnt_
  | .weak p => p.cnt_

/-- Program state.
* `cnts[b]` is the control block allocated at address `b`;
* `objs[a]` is the number of times `delete ptr_` ran on the managed object at `a`;
* `insts[i]` is the instance with identity `i`, `none` once its lifetime has ended. -/
structure World where
  cnts : List CounterCell
  objs : List Nat
  insts : List (Option Inst)
  deriving DecidableEq

/-- Ways a call can fail to return a new state. -/
inductive Err
  /-- a member access through `nullptr` -/
  | nullDeref
  /-- access to an address that was never allocated, or to an instance that is not a
  live instance of the expected class -/
  | wild
  /-- `throw BadWeakPtr()`, with the state at the throw -/
  | BadWeakPtr (w : World)
  deriving DecidableEq

/-- State before any allocation. -/
def World.init : World := ⟨[], [], []⟩

/-- Read the `SharedPtr` instance `i`. -/
def World.getShared (w : World) (i : Nat) : Except Err SharedPtr :=
  match w.insts[i]? with
  | some (some (.shared p)) => .ok p
  | _ => .error .wild

/-- Read the `WeakPtr` instance `i`. -/
def World.getWeak (w : World) (i : Nat) : Except Err WeakPtr :=
  match w.insts[i]? with
  | some (some (.weak p)) => .ok p
  | _ => .error .wild

/-- Overwrite the data members of instance `i`. -/
def World.setInst (w : World) (i : Nat) (v : Inst) : World :=
  { w with insts := w.insts.set i (some v) }

/-- Storage for a newly constructed instance; its identity is the old `insts.length`. -/
def World.pushInst (w : World) (v : Inst) : World :=
  { w with insts := w.insts ++ [some v] }

/-- End of the lifetime of instance `i`. -/
def World.endInst (w : World) (i : Nat) : World :=
  { w with insts := w.insts.set i none }

/-- Dereference a `Counter*`. -/
def World.cell (w : World) (c : Option Nat) : Except Err (Nat × CounterCell) :=
  match c with
  | none => .error .nullDeref
  | some b =>
    match w.cnts[b]? with
    | some k => .ok (b, k)
    | none => .error .wild

/-- Store to the fields of the control block at `b`. -/
def World.setCounter (w : World) (b : Nat) (k : CounterCell) (v : Counter) : World :=
  { w with cnts := w.cnts.set b { k with val := v } }

/-- The statement `delete cnt_` on the control block at `b`. -/
def World.deleteCnt (w : World) (b : Nat) (k : CounterCell) : World :=
  { w with cnts := w.cnts.set b { k with deletes := k.deletes + 1 } }

/-- The expression `new Counter(s, wk)`: the new state and the address. -/
def World.newCounter (w : World) (s wk : Nat) : World × Nat :=
  ({ w with cnts := w.cnts ++ [⟨⟨s, wk⟩, 0⟩] }, w.cnts.length)

/-- The statement `delete ptr_` on an object without `SharedPtr` and `WeakPtr`
sub-objects: the object is recorded as destroyed; `delete nullptr` does nothing.
`World.deleteObjT` is the statement for any object. -/
def World.deleteObj (w : World) (p : Option Nat) : Except Err World :=
  match p with
  | none => .ok w
  | some a =>
    match w.objs[a]? with
    | some n => .ok { w with objs := w.objs.set a (n + 1) }
    | none => .error .wild

/-- The caller's `new T`: the new state and the address of the object. -/
def World.newObj (w : World) : World × Nat :=
  ({ w with objs := w.objs ++ [0] }, w.objs.length)

/-! ## `SharedPtr<T>` -/

/-- `SharedPtr<T>::SharedPtr()`. -/
def SharedPtr.ctor (w : World) : Except Err World :=
  .ok (w.pushInst (.shared ⟨none, none⟩))

/-- `SharedPtr<T>::SharedPtr(T* object)`. -/
def SharedPtr.ctorRaw (object : Option Nat) (w : World) : Except Err World :=
  match object with
  | none => .ok (w.pushInst (.shared ⟨none, none⟩))
  | some a =>
    let r := w.newCounter 1 0
    .ok (r.1.pushInst (.shared ⟨some a, some r.2⟩))

/-- `SharedPtr<T>::SharedPtr(const SharedPtr& other)`. -/
def SharedPtr.ctorCopy (other : Nat) (w : World) : Except Err World := do
  let o ← w.getShared other
  let self : SharedPtr := ⟨o.ptr_, o.cnt_⟩
  let (b, k) ← w.cell self.cnt_
  let w1 := w.setCounter b k { k.val with shared_cnt_ := incr k.val.shared_cnt_ }
  pure (w1.pushInst (.shared self))

/-- `SharedPtr<T>::SharedPtr(SharedPtr&& other)`. -/
def SharedPtr.ctorMove (other : Nat) (w : World) : Except Err World := do
  let o ← w.getShared other
  let self : SharedPtr := ⟨o.ptr_, o.cnt_⟩
  let w1 := w.setInst other (.shared ⟨none, none⟩)
  pure (w1.pushInst (.shared self))

/-- `WeakPtr<T>::Expired() const`. -/
def WeakPtr.Expired (self : Nat) (w : World) : Except Err Bool := do
  let me ← w.getWeak self
  match me.cnt_ with
  | none => pure true
  | some b =>
    let (_, k) ← w.cell (some b)
    pure (k.val.shared_cnt_ == 0)

/-- `WeakPtr<T>::Get() const`. -/
def WeakPtr.Get (self : Nat) (w : World) : Except Err (Option Nat) := do
  let me ← w.getWeak self
  pure me.ptr_

/-- `SharedPtr<T>::SharedPtr(const WeakPtr<T>& other)`. -/
def SharedPtr.ctorWeak (other : Nat) (w : World) : Except Err World := do
  let o ← w.getWeak other
  let p ← WeakPtr.Get other w
  let self : SharedPtr := ⟨p, o.cnt_⟩
  let e ← WeakPtr.Expired other w
  if e then throw (.BadWeakPtr w)
  match self.cnt_, self.ptr_ with
  | some b, some _ =>
    let (_, k) ← w.cell (some b)
    let w1 := w.setCounter b k { k.val with shared_cnt_ := incr k.val.shared_cnt_ }
    pure (w1.pushInst (.shared self))
  | _, _ => pure (w.pushInst (.shared self))

/-- `SharedPtr<T>::Reset(T* ptr)`. -/
def SharedPtr.Reset (self : Nat) (ptr : Option Nat) (w : World) : Except Err World := do
  let me ← w.getShared self
  let w1 ←
    match me.cnt_ with
    | none => pure w
    | some c => do
      let (b, k) ← w.cell (some c)
      if k.val.shared_cnt_ = 1 ∧ k.val.weak_cnt_ = 0 then
        let w0 ← w.deleteObj me.ptr_
        pure (w0.deleteCnt b k)
      else if k.val.shared_cnt_ = 1 then
        let w0 ← w.deleteObj me.ptr_
        pure (w0.setCounter b k { k.val with shared_cnt_ := decr k.val.shared_cnt_ })
      else if k.val.shared_cnt_ ≠ 0 then
        pure (w.setCounter b k { k.val with shared_cnt_ := decr k.val.shared_cnt_ })
      else
        pure w
  match ptr with
  | none => pure (w1.setInst self (.shared ⟨none, none⟩))
  | some a =>
    let r := w1.newCounter 1 0
    pure (r.1.setInst self (.shared ⟨some a, some r.2⟩))

/-- `SharedPtr<T>::operator=(const SharedPtr& other)`. -/
def SharedPtr.assignCopy (self other : Nat) (w : World) : Except Err World := do
  let _ ← w.getShared self
  let _ ← w.getShared other
  if self = other then
    pure w
  else
    let w1 ← SharedPtr.Reset self none w
    let o ← w1.getShared other
    let w2 := w1.setInst self (.shared ⟨o.ptr_, o.cnt_⟩)
    let (b, k) ← w2.cell o.cnt_
    pure (w2.setCounter b k { k.val with shared_cnt_ := incr k.val.shared_cnt_ })

/-- `SharedPtr<T>::operator=(SharedPtr&& other)`. -/
def SharedPtr.assignMove (self other : Nat) (w : World) : Except Err World := do
  let _ ← w.getShared other
  let w1 ← SharedPtr.Reset self none w
  let o ← w1.getShared other
  let w2 := w1.setInst self (.shared ⟨o.ptr_, o.cnt_⟩)
  pure (w2.setInst other (.shared ⟨none, none⟩))

/-- `SharedPtr<T>::~SharedPtr()`, after which the instance is gone. -/
def SharedPtr.dtor (self : Nat) (w : World) : Except Err World := do
  let w1 ← SharedPtr.Reset self none w
  pure (w1.endInst self)

/-- `SharedPtr<T>::Get() const`. -/
def SharedPtr.Get (self : Nat) (w : World) : Except Err (Option Nat) := do
  let me ← w.getShared self
  pure me.ptr_

/-- `SharedPtr<T>::UseCount() const`. -/
def SharedPtr.UseCount (self : Nat) (w : World) : Except Err Nat := do
  let me ← w.getShared self
  match me.cnt_ with
  | none => pure 0
  | some b =>
    let (_, k) ← w.cell (some b)
    pure k.val.shared_cnt_

/-- `SharedPtr<T>::operator bool() const`. -/
def SharedPtr.toBool (self : Nat) (w : World) : Except Err Bool := do
  let p ← SharedPtr.Get self w
  pure (p != none)

/-- `SharedPtr<T>::Swap(SharedPtr<T>& other)`. -/
def SharedPtr.Swap (self other : Nat) (w : World) : Except Err World := do
  let me ← w.getShared self
  let o ← w.getShared other
  let w1 := w.setInst self (.shared ⟨o.ptr_, o.cnt_⟩)
  pure (w1.setInst other (.shared ⟨me.ptr_, me.cnt_⟩))

/-! ## `WeakPtr<T>` -/

/-- `WeakPtr<T>::WeakPtr()`. -/
def WeakPtr.ctor (w : World) : Except Err World :=
  .ok (w.pushInst (.weak ⟨none, none⟩))

/-- `WeakPtr<T>::WeakPtr(const WeakPtr& other)`. -/
def WeakPtr.ctorCopy (other : Nat) (w : World) : Except Err World := do
  let o ← w.getWeak other
  let self : WeakPtr := ⟨o.ptr_, o.cnt_⟩
  match self.cnt_, self.ptr_ with
  | some b, some _ =>
    let (_, k) ← w.cell (some b)
    let w1 := w.setCounter b k { k.val with weak_cnt_ := incr k.val.weak_cnt_ }
    pure (w1.pushInst (.weak self))
  | _, _ => pure (w.pushInst (.weak self))

/-- `WeakPtr<T>::WeakPtr(WeakPtr&& other)`. -/
def WeakPtr.ctorMove (other : Nat) (w : World) : Except Err World := do
  let o ← w.getWeak other
  let self : WeakPtr := ⟨o.ptr_, o.cnt_⟩
  let w1 := w.setInst other (.weak ⟨none, none⟩)
  pure (w1.pushInst (.weak self))

/-- `WeakPtr<T>::WeakPtr(const SharedPtr<T>& other)`. -/
def WeakPtr.ctorShared (other : Nat) (w : World) : Except Err World := do
  let o ← w.getShared other
  let p ← SharedPtr.Get other w
  let self : WeakPtr := ⟨p, o.cnt_⟩
  match self.ptr_, self.cnt_ with
  | some _, some b =>
    let (_, k) ← w.cell (some b)
    let w1 := w.setCounter b k { k.val with weak_cnt_ := incr k.val.weak_cnt_ }
    pure (w1.pushInst (.weak self))
  | _, _ => pure (w.pushInst (.weak self))

/-- `WeakPtr<T>::Reset()`. -/
def WeakPtr.Reset (self : Nat) (w : World) : Except Err World := do
  let me ← w.getWeak self
  let w1 ←
    match me.cnt_ with
    | none => pure w
    | some c => do
      let (b, k) ← w.cell (some c)
      if k.val.weak_cnt_ = 1 ∧ k.val.shared_cnt_ = 0 then
        pure (w.deleteCnt b k)
      else if k.val.weak_cnt_ ≠ 0 then
        pure (w.setCounter b k { k.val with weak_cnt_ := decr k.val.weak_cnt_ })
      else
        pure w
  pure (w1.setInst self (.weak ⟨none, none⟩))

/-- `WeakPtr<T>::operator=(const WeakPtr& other)`. -/
def WeakPtr.assignCopy (self other : Nat) (w : World) : Except Err World := do
  let _ ← w.getWeak self
  let _ ← w.getWeak other
  if self = other then
    pure w
  else
    let w1 ← WeakPtr.Reset self w
    let o ← w1.getWeak other
    let w2 := w1.setInst self (.weak ⟨o.ptr_, o.cnt_⟩)
    let (b, k) ← w2.cell o.cnt_
    pure (w2.setCounter b k { k.val with weak_cnt_ := incr k.val.weak_cnt_ })

/-- `WeakPtr<T>::operator=(WeakPtr&& other)`. -/
def WeakPtr.assignMove (self other : Nat) (w : World) : Except Err World := do
  let _ ← w.getWeak other
  let w1 ← WeakPtr.Reset self w
  let o ← w1.getWeak other
  let w2 := w1.setInst self (.weak ⟨o.ptr_, o.cnt_⟩)
  pure (w2.setInst other (.weak ⟨none, none⟩))

/-- `WeakPtr<T>::~WeakPtr()`, after which the instance is gone. -/
def WeakPtr.dtor (self : Nat) (w : World) : Except Err World := do
  let w1 ← WeakPtr.Reset self w
  pure (w1.endInst self)

/-- `WeakPtr<T>::UseCount() const`. -/
def WeakPtr.UseCount (self : Nat) (w : World) : Except Err Nat := do
  let me ← w.getWeak self
  match me.cnt_ with
  | none => pure 0
  | some b =>
    let (_, k) ← w.cell (some b)
    pure k.val.shared_cnt_

/-- `WeakPtr<T>::Swap(WeakPtr<T>& other)`. -/
def WeakPtr.Swap (self other : Nat) (w : World) : Except Err World := do
  let me ← w.getWeak self
  let o ← w.getWeak other
  let w1 := w.setInst self (.weak ⟨o.ptr_, o.cnt_⟩)
  pure (w1.setInst other (.weak ⟨me.ptr_, me.cnt_⟩))

/-- `WeakPtr<T>::Lock() const`; the returned `SharedPtr` is the new instance. -/
def WeakPtr.Lock (self : Nat) (w : World) : Except Err World := do
  let e ← WeakPtr.Expired self w
  if e then SharedPtr.ctor w else SharedPtr.ctorWeak self w

/-! ## Client programs and reachable states -/

/-- A call made by client code.  Arguments are identities of instances.  A raw pointer
handed to `SharedPtr(T*)` or `Reset(T*)` is `nullptr` (`fresh = false`) or the result of
a `new T` that nothing else owns (`fresh = true`), as the contract of the class requires. -/
inductive Op
  | sp_ctor
  | sp_ctorRaw (fresh : Bool)
  | sp_ctorCopy (other : Nat)
  | sp_ctorMove (other : Nat)
  | sp_ctorWeak (other : Nat)
  | sp_assignCopy (self other : Nat)
  | sp_assignMove (self other : Nat)
  | sp_dtor (self : Nat)
  | sp_Reset (self : Nat) (fresh : Bool)
  | sp_Swap (self other : Nat)
  | wp_ctor
  | wp_ctorCopy (other : Nat)
  | wp_ctorMove (other : Nat)
  | wp_ctorShared (other : Nat)
  | wp_assignCopy (self other : Nat)
  | wp_assignMove (self other : Nat)
  | wp_dtor (self : Nat)
  | wp_Reset (self : Nat)
  | wp_Swap (self other : Nat)
  | wp_Lock (self : Nat)
  deriving DecidableEq

/-- Run one call. -/
def exec : Op → World → Except Err World
  | .sp_ctor, w => SharedPtr.ctor w
  | .sp_ctorRaw false, w => SharedPtr.ctorRaw none w
  | .sp_ctorRaw true, w => SharedPtr.ctorRaw (some w.newObj.2) w.newObj.1
  | .sp_ctorCopy other, w => SharedPtr.ctorCopy other w
  | .sp_ctorMove other, w => SharedPtr.ctorMove other w
  | .sp_ctorWeak other, w => SharedPtr.ctorWeak other w
  | .sp_assignCopy self other, w => SharedPtr.assignCopy self other w
  | .sp_assignMove self other, w => SharedPtr.assignMove self other w
  | .sp_dtor self, w => SharedPtr.dtor self w
  | .sp_Reset self false, w => SharedPtr.Reset self none w
  | .sp_Reset self true, w => SharedPtr.Reset self (some w.newObj.2) w.newObj.1
  | .sp_Swap self other, w => SharedPtr.Swap self other w
  | .wp_ctor, w => WeakPtr.ctor w
  | .wp_ctorCopy other, w => WeakPtr.ctorCopy other w
  | .wp_ctorMove other, w => WeakPtr.ctorMove other w
  | .wp_ctorShared other, w => WeakPtr.ctorShared other w
  | .wp_assignCopy self other, w => WeakPtr.assignCopy self other w
  | .wp_assignMove self other, w => WeakPtr.assignMove self other w
  | .wp_dtor self, w => WeakPtr.dtor self w
  | .wp_Reset self, w => WeakPtr.Reset self w
  | .wp_Swap self other, w => WeakPtr.Swap self other w
  | .wp_Lock self, w => WeakPtr.Lock self w

/-- Calls that bring a new instance to life. -/
def Op.constructs : Op → Bool
  | .sp_ctor | .sp_ctorRaw _ | .sp_ctorCopy _ | .sp_ctorMove _ | .sp_ctorWeak _ => true
  | .wp_ctor | .wp_ctorCopy _ | .wp_ctorMove _ | .wp_ctorShared _ | .wp_Lock _ => true
  | _ => false

/-- Number of instances whose lifetime has not ended. -/
def World.live (w : World) : Nat := w.insts.countP Option.isSome

/-- Most instances that can be alive at once: an instance is two pointers, sixteen
bytes of an address space of `2 ^ 64` bytes. -/
def maxLive : Nat := 2 ^ 60

/-- States a client can reach from the empty state.  A constructor call needs
storage for the instance it constructs. -/
inductive Reachable : World → Prop
  | init : Reachable World.init
  | step (op : Op) (w w' : World) : Reachable w →
      (op.constructs = true → w.live < maxLive) → exec op w = .ok w' → Reachable w'

/-- Run a client program: each call must have its storage and must return. -/
def run : List Op → World → Option World
  | [], w => some w
  | op :: ops, w =>
    if op.constructs = true → w.live < maxLive then
      match exec op w with
      | .ok w' => run ops w'
      | .error _ => none
    else none

/-- Slot holds a live `SharedPtr` whose `cnt_` is `b`. -/
def holdsShared (b : Nat) : Option Inst → Bool
  | some (.shared p) => p.cnt_ == some b
  | _ => false

/-- Slot holds a live `WeakPtr` whose `cnt_` is `b`. -/
def holdsWeak (b : Nat) : Option Inst → Bool
  | some (.weak p) => p.cnt_ == some b
  | _ => false

/-- Slot holds a live `SharedPtr` whose `ptr_` is `a`. -/
def ownsObj (a : Nat) : Option Inst → Bool
  | some (.shared p) => p.ptr_ == some a
  | _ => false

/-- Number of live `SharedPtr` instances whose `cnt_` points to block `b`. -/
def World.strong (w : World) (b : Nat) : Nat := w.insts.countP (holdsShared b)

/-- Number of live `WeakPtr` instances whose `cnt_` points to block `b`. -/
def World.weak (w : World) (b : Nat) : Nat := w.insts.countP (holdsWeak b)

/-- Number of live `SharedPtr` instances whose `ptr_` points to object `a`. -/
def World.owners (w : World) (a : Nat) : Nat := w.insts.countP (ownsObj a)

/-- Invariant of the reachable states, while the caller holds the raw pointer `f`
(`none`: no pointer in flight; `some a`: a fresh object at `a` not yet handed over). -/
structure InvF (w : World) (f : Option Nat) : Prop where
  /-- storage bound -/
  room : w.live ≤ maxLive
  /-- both members are null together, and non-null members point to allocated cells -/
  wf : ∀ v : Inst, some v ∈ w.insts →
    (v.ptr_ = none ↔ v.cnt_ = none) ∧ (∀ a, v.ptr_ = some a → a < w.objs.length) ∧
      (∀ b, v.cnt_ = some b → b < w.cnts.length)
  /-- instances agree on the object exactly when they agree on the control block -/
  pair : ∀ u v : Inst, some u ∈ w.insts → some v ∈ w.insts → (u.ptr_ = v.ptr_ ↔ u.cnt_ = v.cnt_)
  /-- a block is either live with exact counts, or deleted once and unreferenced -/
  blk : ∀ b k, w.cnts[b]? = some k →
    (k.deletes = 0 ∧ k.val.shared_cnt_ = w.strong b ∧ k.val.weak_cnt_ = w.weak b ∧
        0 < w.strong b + w.weak b) ∨
      (k.deletes = 1 ∧ w.strong b = 0 ∧ w.weak b = 0)
  /-- the pointer in flight is allocated -/
  flight : ∀ a, f = some a → a < w.objs.length
  /-- an object is in flight, or alive and owned, or destroyed once and not owned -/
  obj : ∀ a n, w.objs[a]? = some n →
    (f = some a ∧ n = 0 ∧ ∀ v : Inst, some v ∈ w.insts → v.ptr_ ≠ some a) ∨
      (f ≠ some a ∧ ((n = 0 ∧ 0 < w.owners a) ∨ (n = 1 ∧ w.owners a = 0)))

/-- Invariant of the reachable states. -/
def Inv (w : World) : Prop := InvF w none

/-- What one call may do to the managed objects: the number of destructor runs of an
object never goes down, and an object loses at most one owner. -/
def Frame (w w' : World) : Prop :=
  (∀ a n : Nat, w.objs[a]? = some n → ∃ n' : Nat, w'.objs[a]? = some n' ∧ n ≤ n') ∧
    (∀ a, w.owners a ≤ w'.owners a + 1)

/-! ## Example states -/

/-- State after `a = SharedPtr(new Obj); w = WeakPtr(a)`. -/
def watchedWorld : World :=
  ⟨[⟨⟨1, 1⟩, 0⟩], [0], [some (.shared ⟨some 0, some 0⟩), some (.weak ⟨some 0, some 0⟩)]⟩

/-- State after `a = SharedPtr(new Obj); b = a; w = WeakPtr(a)`. -/
def sharedWorld : World :=
  ⟨[⟨⟨2, 1⟩, 0⟩], [0], [some (.shared ⟨some 0, some 0⟩), some (.shared ⟨some 0, some 0⟩),
    some (.weak ⟨some 0, some 0⟩)]⟩

/-- State after `a = SharedPtr(new Obj); w = WeakPtr(a)` and the end of `a`. -/
def expiredWorld : World :=
  ⟨[⟨⟨0, 1⟩, 0⟩], [1], [none, some (.weak ⟨some 0, some 0⟩)]⟩

/-- State after `a = SharedPtr(new Obj); w = WeakPtr(a)` and the end of both. -/
def deadWorld : World :=
  ⟨[⟨⟨0, 1⟩, 1⟩], [1], [none, none]⟩

/-- State after `a = SharedPtr(new A); t = SharedPtr(new B); u = t`. -/
def crowdWorld : World :=
  ⟨[⟨⟨1, 0⟩, 0⟩, ⟨⟨2, 0⟩, 0⟩], [0, 0], [some (.shared ⟨some 0, some 0⟩),
    some (.shared ⟨some 1, some 1⟩), some (.shared ⟨some 1, some 1⟩)]⟩

/-- The state `crowdWorld` after `t = std::move(a)`. -/
def crowdMoved : World :=
  ⟨[⟨⟨1, 0⟩, 0⟩, ⟨⟨1, 0⟩, 0⟩], [0, 0], [some (.shared ⟨none, none⟩),
    some (.shared ⟨some 0, some 0⟩), some (.shared ⟨some 1, some 1⟩)]⟩

/-- State after `SharedPtr<T> e;`. -/
def emptySharedWorld : World := ⟨[], [], [some (.shared ⟨none, none⟩)]⟩

/-- State after `SharedPtr<T> e; SharedPtr<T> t(new T);`. -/
def emptyAndOwnerWorld : World :=
  ⟨[⟨⟨1, 0⟩, 0⟩], [0], [some (.shared ⟨none, none⟩), some (.shared ⟨some 0, some 0⟩)]⟩

/-- State after `WeakPtr<T> t; WeakPtr<T> o;`. -/
def emptyWeakWorld : World := ⟨[], [], [some (.weak ⟨none, none⟩), some (.weak ⟨none, none⟩)]⟩

/-- Calls on a `WeakPtr` other than `Lock()` that change the state.  (`Expired()`,
`UseCount()` and `Get()` are `const` and return a value, not a state.) -/
def Op.weakOnly : Op → Bool
  | .wp_ctor | .wp_ctorCopy _ | .wp_ctorMove _ | .wp_ctorShared _ => true
  | .wp_assignCopy _ _ | .wp_assignMove _ _ | .wp_dtor _ | .wp_Reset _ | .wp_Swap _ _ => true
  | _ => false

/-- Every block keeps its `shared_cnt_`, and `delete` is never undone. -/
def sharedKept (l l' : List CounterCell) : Prop :=
  ∀ (b : Nat) (k : CounterCell), l[b]? = some k →
    ∃ k' : CounterCell, l'[b]? = some k' ∧ k'.val.shared_cnt_ = k.val.shared_cnt_ ∧
      k.deletes ≤ k'.deletes

/-- No block gets a positive `shared_cnt_` back, and `delete` is never undone. -/
def noRevive (l l' : List CounterCell) : Prop :=
  ∀ (b : Nat) (k : CounterCell), l[b]? = some k →
    ∃ k' : CounterCell, l'[b]? = some k' ∧ k.deletes ≤ k'.deletes ∧
      (k.val.shared_cnt_ = 0 → k'.val.shared_cnt_ = 0)

/-- The three states of a control block in the state machine of the specification. -/
inductive BlockState
  | Live
  | Expired
  | Dead
  deriving DecidableEq

/-- State of the block allocated at `b`: `Dead` once deleted, else `Expired` when no
live `SharedPtr` points to it, else `Live`; `none` when nothing is allocated at `b`. -/
def World.blockState (w : World) (b : Nat) : Option BlockState :=
  match w.cnts[b]? with
  | none => none
  | some k =>
    if k.deletes ≠ 0 then some .Dead
    else if w.strong b = 0 then some .Expired
    else some .Live

/-- The moves of the state machine: `Live` to anything, `Expired` to `Dead`, and staying. -/
def BlockState.canStep : BlockState → BlockState → Bool
  | .Live, _ => true
  | .Expired, .Expired => true
  | .Expired, .Dead => true
  | .Dead, .Dead => true
  | _, _ => false

/-! ## `delete ptr_` with the destructor of `T`

`World.deleteObj` records that the object is destroyed.  That is the whole of
`delete ptr_` when `T` has no `SharedPtr` or `WeakPtr` sub-object.  When it has some (a
list node with a `SharedPtr<Node> next`, an object with a `WeakPtr` to itself), `~T()`
runs their destructors before `delete ptr_` returns, in the middle of
`SharedPtr::Reset`.  The functions of this section take the layout `members`:
`members a` lists the identities of the `SharedPtr` and `WeakPtr` sub-objects of the
object at `a`, in the order in which their destructors run.  Destructor calls nest, and
`fuel` bounds the depth of the nesting. -/

/-- Why a call that runs `~T()` returns no state. -/
inductive Stop
  /-- the destructor calls nest deeper than the fuel -/
  | fuel
  /-- the code fails -/
  | err (e : Err)
  deriving DecidableEq

/-- A step that runs no `~T()`. -/
def Stop.lift {α : Type} : Except Err α → Except Stop α
  | .ok a => .ok a
  | .error e => .error (.err e)

/-- `SharedPtr<T>::Reset(T* ptr)`, statement by statement, where `del` runs
`delete ptr_`.  After `delete ptr_` the members of `*this` and the fields of the block
are read again, and `*this` must still be alive when it is stored to. -/
def SharedPtr.ResetT (del : Option Nat → World → Except Stop World) (self : Nat)
    (ptr : Option Nat) (w : World) : Except Stop World := do
  let me ← Stop.lift (w.getShared self)
  let w1 ←
    match me.cnt_ with
    | none => pure w
    | some c => do
      let (b, k) ← Stop.lift (w.cell (some c))
      if k.val.shared_cnt_ = 1 ∧ k.val.weak_cnt_ = 0 then
        let w0 ← del me.ptr_ w
        let me0 ← Stop.lift (w0.getShared self)
        let (b0, k0) ← Stop.lift (w0.cell me0.cnt_)
        pure (w0.deleteCnt b0 k0)
      else if k.val.shared_cnt_ = 1 then
        let w0 ← del me.ptr_ w
        let me0 ← Stop.lift (w0.getShared self)
        let (b0, k0) ← Stop.lift (w0.cell me0.cnt_)
        pure (w0.setCounter b0 k0 { k0.val with shared_cnt_ := decr k0.val.shared_cnt_ })
      else if k.val.shared_cnt_ ≠ 0 then
        pure (w.setCounter b k { k.val with shared_cnt_ := decr k.val.shared_cnt_ })
      else
        pure w
  let _ ← Stop.lift (w1.getShared self)
  match ptr with
  | none => pure (w1.setInst self (.shared ⟨none, none⟩))
  | some a =>
    let r := w1.newCounter 1 0
    pure (r.1.setInst self (.shared ⟨some a, some r.2⟩))

/-- `SharedPtr<T>::~SharedPtr()`, where `del` runs `delete ptr_`. -/
def SharedPtr.dtorT (del : Option Nat → World → Except Stop World) (self : Nat)
    (w : World) : Except Stop World := do
  let w1 ← SharedPtr.ResetT del self none w
  pure (w1.endInst self)

/-- `SharedPtr<T>::operator=(const SharedPtr& other)`, where `del` runs `delete ptr_`. -/
def SharedPtr.assignCopyT (del : Option Nat → World → Except Stop World)
    (self other : Nat) (w : World) : Except Stop World := do
  let _ ← Stop.lift (w.getShared self)
  let _ ← Stop.lift (w.getShared other)
  if self = other then
    pure w
  else
    let w1 ← SharedPtr.ResetT del self none w
    let o ← Stop.lift (w1.getShared other)
    let w2 := w1.setInst self (.shared ⟨o.ptr_, o.cnt_⟩)
    let (b, k) ← Stop.lift (w2.cell o.cnt_)
    pure (w2.setCounter b k { k.val with shared_cnt_ := incr k.val.shared_cnt_ })

/-- `SharedPtr<T>::operator=(SharedPtr&& other)`, where `del` runs `delete ptr_`. -/
def SharedPtr.assignMoveT (del : Option Nat → World → Except Stop World)
    (self other : Nat) (w : World) : Except Stop World := do
  let _ ← Stop.lift (w.getShared other)
  let w1 ← SharedPtr.ResetT del self none w
  let o ← Stop.lift (w1.getShared other)
  let w2 := w1.setInst self (.shared ⟨o.ptr_, o.cnt_⟩)
  pure (w2.setInst other (.shared ⟨none, none⟩))

/-- The destructor of the sub-object `i`, `~SharedPtr()` or `~WeakPtr()` by its class. -/
def World.endMember (del : Option Nat → World → Except Stop World) (w : World)
    (i : Nat) : Except Stop World :=
  match w.insts[i]? with
  | some (some (.shared _)) => SharedPtr.dtorT del i w
  | some (some (.weak _)) => Stop.lift (WeakPtr.dtor i w)
  | _ => .error (.err .wild)

/-- The statement `delete ptr_`: the object is destroyed and `~T()` runs the destructors
of its sub-objects; `delete nullptr` does nothing. -/
def World.deleteObjT (members : Nat → List Nat) :
    Nat → Option Nat → World → Except Stop World
  | 0, _, _ => .error .fuel
  | fuel + 1, p, w =>
    match p with
    | none => .ok w
    | some a =>
      match w.deleteObj (some a) with
      | .error e => .error (.err e)
      | .ok w0 =>
        (members a).foldlM
          (fun w1 i => w1.endMember (fun q v => World.deleteObjT members fuel q v) i) w0

/-- Run one call, `~T()` included. -/
def execT (members : Nat → List Nat) (fuel : Nat) : Op → World → Except Stop World
  | .sp_assignCopy self other, w =>
    SharedPtr.assignCopyT (World.deleteObjT members fuel) self other w
  | .sp_assignMove self other, w =>
    SharedPtr.assignMoveT (World.deleteObjT members fuel) self other w
  | .sp_dtor self, w => SharedPtr.dtorT (World.deleteObjT members fuel) self w
  | .sp_Reset self false, w => SharedPtr.ResetT (World.deleteObjT members fuel) self none w
  | .sp_Reset self true, w =>
    SharedPtr.ResetT (World.deleteObjT members fuel) self (some w.newObj.2) w.newObj.1
  | op, w => Stop.lift (exec op w)

/-- Run a client program, `~T()` included: each call must have its storage and must
return. -/
def runT (members : Nat → List Nat) (fuel : Nat) : List Op → World → Option World
  | [], w => some w
  | op :: ops, w =>
    if op.constructs = true → w.live < maxLive then
      match execT members fuel op w with
      | .ok w' => runT members fuel ops w'
      | .error _ => none
    else none

/-- Layout of a program with one `struct Node { WeakPtr<Node> self; }`: the object at 0
has the sub-object 0. -/
def selfLayout : Nat → List Nat
  | 0 => [0]
  | _ => []

/-- The calls of `SharedPtr<Node> p(new Node); p->self = p;`: the sub-object `self` is
instance 0, `p` is instance 1, the temporary `WeakPtr<Node>(p)` is instance 2. -/
def selfProgram : List Op :=
  [.wp_ctor, .sp_ctorRaw true, .wp_ctorShared 1, .wp_assignMove 0 2, .wp_dtor 2]

/-- State after `selfProgram`. -/
def selfWorld : World :=
  ⟨[⟨⟨1, 1⟩, 0⟩], [0], [some (.weak ⟨some 0, some 0⟩), some (.shared ⟨some 0, some 0⟩), none]⟩

/-- State after `selfProgram` and `p.Reset()`. -/
def leakedWorld : World :=
  ⟨[⟨⟨0, 0⟩, 0⟩], [1], [none, some (.shared ⟨none, none⟩), none]⟩

/-- Layout of a program with two `struct Node { SharedPtr<Node> next; }`: the object at
0 has the sub-object 0, the object at 1 has the sub-object 2. -/
def listLayout : Nat → List Nat
  | 0 => [0]
  | 1 => [2]
  | _ => []

/-- The calls of `SharedPtr<Node> cur(new Node); cur->next = SharedPtr<Node>(new Node);`:
`cur->next` is instance 0, `cur` is instance 1, `next` of the second node is instance 2,
the temporary is instance 3. -/
def listProgram : List Op :=
  [.sp_ctor, .sp_ctorRaw true, .sp_ctor, .sp_ctorRaw true, .sp_assignMove 0 3, .sp_dtor 3]

/-- State after `listProgram`. -/
def listWorld : World :=
  ⟨[⟨⟨1, 0⟩, 0⟩, ⟨⟨1, 0⟩, 0⟩], [0, 0], [some (.shared ⟨some 1, some 1⟩),
    some (.shared ⟨some 0, some 0⟩), some (.shared ⟨none, none⟩), none]⟩

/-! ## `vector.h` and `circular_buffer.h`

A buffer `T* buf_` obtained with `new T[n]` is a list of `n` cells; a cell is `none`
until a value is stored in it.  A function returns `none` when it reads or writes
outside the buffer, divides by zero, or runs out of the `fuel` that bounds its `while`
loop. -/

/-- `kIncreaseFactor` of both classes. -/
def kIncreaseFactor : Nat := 2

/-- The `while (new_cap < cap) new_cap *= kIncreaseFactor;` of `CalculateCapacity`;
`fuel` bounds the number of tests of the condition. -/
def CalculateCapacity.loop (cap : Nat) : Nat → Nat → Option Nat
  | 0, _ => none
  | fuel + 1, new_cap =>
    if new_cap < cap then
      CalculateCapacity.loop cap fuel ((new_cap * kIncreaseFactor) % SIZE_T_CARD)
    else some new_cap

/-- `CalculateCapacity(cap)` of both classes, for an object with the given `capacity_`. -/
def CalculateCapacity (fuel capacity_ cap : Nat) : Option Nat :=
  CalculateCapacity.loop cap fuel (if capacity_ = 0 then 1 else capacity_)

/-- `Copy(from, size, to)` of both headers: `to[i] = from[i]` for `i = 0, .., size - 1`. -/
def Copy {α : Type} (src : List (Option α)) : Nat → List (Option α) → Option (List (Option α))
  | 0, dst => some dst
  | size + 1, dst =>
    match Copy src size dst with
    | none => none
    | some t =>
      match src[size]? with
      | none => none
      | some x => if size < t.length then some (t.set size x) else none

/-- Data members of `Vector<T>`. -/
structure Vector (α : Type) where
  size_ : Nat
  capacity_ : Nat
  buf_ : List (Option α)
  deriving DecidableEq

/-- `Vector<T>::Vector()`. -/
def Vector.ctor {α : Type} : Vector α := ⟨0, 0, []⟩

/-- `Vector<T>::Size() const`. -/
def Vector.Size {α : Type} (v : Vector α) : Nat := v.size_

/-- `Vector<T>::Capacity() const`. -/
def Vector.Capacity {α : Type} (v : Vector α) : Nat := v.capacity_

/-- `Vector<T>::Reallocate(cap)`. -/
def Vector.Reallocate {α : Type} (v : Vector α) (cap : Nat) : Option (Vector α) :=
  match Copy v.buf_ v.size_ (List.replicate cap none) with
  | none => none
  | some new_buf => some ⟨v.size_, cap, new_buf⟩

/-- `Vector<T>::PushBack(value)`. -/
def Vector.PushBack {α : Type} (fuel : Nat) (v : Vector α) (value : α) : Option (Vector α) :=
  match CalculateCapacity fuel v.capacity_ (incr v.size_) with
  | none => none
  | some cap =>
    match (if cap > v.capacity_ then v.Reallocate cap else some v) with
    | none => none
    | some v1 =>
      if v1.size_ < v1.buf_.length then
        some ⟨incr v1.size_, v1.capacity_, v1.buf_.set v1.size_ (some value)⟩
      else none

/-- Data members of `CircularBuffer<T>`. -/
structure CircularBuffer (α : Type) where
  capacity_ : Nat
  size_ : Nat
  front_ : Nat
  back_ : Nat
  buf_ : List (Option α)
  deriving DecidableEq

namespace CircularBuffer

variable {α : Type}

/-- `CircularBuffer<T>::CircularBuffer()`. -/
def ctor : CircularBuffer α := ⟨0, 0, 0, 0, []⟩

/-- `CircularBuffer<T>::CircularBuffer(size_t count)`. -/
def ctorCount (count : Nat) : CircularBuffer α := ⟨count, 0, 0, 0, List.replicate count none⟩

/-- `Size() const`. -/
def Size (c : CircularBuffer α) : Nat := c.size_

/-- `Capacity() const`. -/
def Capacity (c : CircularBuffer α) : Nat := c.capacity_

/-- `Empty() const`. -/
def Empty (c : CircularBuffer α) : Bool := c.size_ == 0

/-- The subscript `(idx + front_) % capacity_` of both `operator[]`. -/
def index (c : CircularBuffer α) (idx : Nat) : Option Nat :=
  if c.capacity_ = 0 then none else some (((idx + c.front_) % SIZE_T_CARD) % c.capacity_)

/-- `operator[](idx) const`: the cell read. -/
def subscript (c : CircularBuffer α) (idx : Nat) : Option (Option α) :=
  match c.index idx with
  | none => none
  | some p => c.buf_[p]?

/-- The assignment `(*this)[idx] = x` through the non-const `operator[]`. -/
def assignAt (c : CircularBuffer α) (idx : Nat) (x : Option α) : Option (CircularBuffer α) :=
  match c.index idx with
  | none => none
  | some p => if p < c.buf_.length then some { c with buf_ := c.buf_.set p x } else none

/-- `Front() const`. -/
def Front (c : CircularBuffer α) : Option (Option α) := c.buf_[c.front_]?

/-- `Back() const`. -/
def Back (c : CircularBuffer α) : Option (Option α) := c.buf_[c.back_]?

/-- The loop `new_buf[i] = (*this)[i]` of `Reallocate`, for `i = 0, .., n - 1`. -/
def Reallocate.loop (c : CircularBuffer α) : Nat → List (Option α) → Option (List (Option α))
  | 0, new_buf => some new_buf
  | n + 1, new_buf =>
    match Reallocate.loop c n new_buf with
    | none => none
    | some t =>
      match c.subscript n with
      | none => none
      | some x => if n < t.length then some (t.set n x) else none

/-- `CircularBuffer<T>::Reallocate(new_cap)`. -/
def Reallocate (c : CircularBuffer α) (new_cap : Nat) : Option (CircularBuffer α) :=
  match Reallocate.loop c c.size_ (List.replicate new_cap none) with
  | none => none
  | some new_buf => some ⟨new_cap, c.size_, 0, if c.size_ = 0 then 0 else c.size_ - 1, new_buf⟩

/-- `CircularBuffer<T>::CircularBuffer(const CircularBuffer& other)`. -/
def ctorCopy (other : CircularBuffer α) : Option (CircularBuffer α) :=
  match Copy other.buf_ other.size_ (List.replicate other.capacity_ none) with
  | none => none
  | some buf => some ⟨other.capacity_, other.size_, other.front_, other.back_, buf⟩

/-- The loop `(*this)[i] = other[i]` of `operator=`, for `i = 0, .., n - 1`. -/
def assign.loop (other : CircularBuffer α) : Nat → CircularBuffer α → Option (CircularBuffer α)
  | 0, c => some c
  | n + 1, c =>
    match assign.loop other n c with
    | none => none
    | some c1 =>
      match other.subscript n with
      | none => none
      | some x => c1.assignAt n x

/-- `CircularBuffer<T>::operator=(const CircularBuffer& other)` for `this != &other`
(for `this == &other` the function returns at once). -/
def assign (self other : CircularBuffer α) : Option (CircularBuffer α) :=
  match (if other.size_ > self.capacity_ then self.Reallocate other.capacity_ else some self) with
  | none => none
  | some c1 =>
    assign.loop other other.size_
      { c1 with size_ := other.size_, front_ := 0, back_ := decr other.size_ }

/-- `PushBack(value)`. -/
def PushBack (fuel : Nat) (c : CircularBuffer α) (value : α) : Option (CircularBuffer α) :=
  match CalculateCapacity fuel c.capacity_ (incr c.size_) with
  | none => none
  | some cap =>
    match (if cap > c.capacity_ then c.Reallocate cap else some c) with
    | none => none
    | some c1 =>
      if c1.capacity_ = 0 then none
      else
        let back := incr c1.back_ % c1.capacity_
        if back < c1.buf_.length then
          some { c1 with back_ := back, size_ := incr c1.size_,
                         buf_ := c1.buf_.set back (some value) }
        else none

/-- `PushFront(value)`. -/
def PushFront (fuel : Nat) (c : CircularBuffer α) (value : α) : Option (CircularBuffer α) :=
  match CalculateCapacity fuel c.capacity_ (incr c.size_) with
  | none => none
  | some cap =>
    match (if cap > c.capacity_ then c.Reallocate cap else some c) with
    | none => none
    | some c1 =>
      if c1.capacity_ = 0 then none
      else
        let front := decr ((c1.front_ + c1.capacity_) % SIZE_T_CARD) % c1.capacity_
        if front < c1.buf_.length then
          some { c1 with front_ := front, size_ := incr c1.size_,
                         buf_ := c1.buf_.set front (some value) }
        else none

/-- `PopBack()`. -/
def PopBack (c : CircularBuffer α) : Option (CircularBuffer α) :=
  if c.capacity_ = 0 then none
  else some { c with size_ := decr c.size_,
                     back_ := decr ((c.back_ + c.capacity_) % SIZE_T_CARD) % c.capacity_ }

/-- `PopFront()`. -/
def PopFront (c : CircularBuffer α) : Option (CircularBuffer α) :=
  if c.capacity_ = 0 then none
  else some { c with size_ := decr c.size_, front_ := incr c.front_ % c.capacity_ }

/-- `Clear()`. -/
def Clear (c : CircularBuffer α) : CircularBuffer α :=
  { c with size_ := 0, front_ := 0, back_ := 0 }

/-- `Reserve(new_cap)`. -/
def Reserve (c : CircularBuffer α) (new_cap : Nat) : Option (CircularBuffer α) :=
  if c.capacity_ < new_cap then c.Reallocate new_cap else some c

end CircularBuffer

/-- A call on a `CircularBuffer` by client code. -/
inductive BufOp (α : Type)
  | PushBack (value : α)
  | PushFront (value : α)
  | PopBack
  | PopFront
  | Clear
  | Reserve (new_cap : Nat)

/-- Run one call; a pop is made only on a non-empty buffer. -/
def CircularBuffer.step {α : Type} (fuel : Nat) (c : CircularBuffer α) :
    BufOp α → Option (CircularBuffer α)
  | .PushBack value => c.PushBack fuel value
  | .PushFront value => c.PushFront fuel value
  | .PopBack => if c.size_ = 0 then none else c.PopBack
  | .PopFront => if c.size_ = 0 then none else c.PopFront
  | .Clear => some c.Clear
  | .Reserve new_cap => c.Reserve new_cap

/-- Run a list of calls. -/
def CircularBuffer.runOps {α : Type} (fuel : Nat) :
    List (BufOp α) → CircularBuffer α → Option (CircularBuffer α)
  | [], c => some c
  | op :: ops, c =>
    match c.step fuel op with
    | none => none
    | some c1 => CircularBuffer.runOps fuel ops c1

/-- The list model of a double-ended queue, in the words of the specification: push at
the back or front, remove the last or first, empty the list, no-op. -/
def dequeModel {α : Type} : List α → BufOp α → List α
  | l, .PushBack value => l ++ [value]
  | l, .PushFront value => value :: l
  | l, .PopBack => l.dropLast
  | l, .PopFront => l.tail
  | _, .Clear => []
  | l, .Reserve _ => l

/-- The list model after a list of calls. -/
def dequeModelRun {α : Type} (ops : List (BufOp α)) : List α :=
  ops.foldl dequeModel []

/-! ## `string_view.h`

The memory of `char` is a list of character codes and a `const char*` is an index into
it; a read outside the memory yields `none`. -/

/-- `a + b` on `size_t`. -/
def add64 (a b : Nat) : Nat := (a + b) % SIZE_T_CARD

/-- `a - b` on `size_t`. -/
def sub64 (a b : Nat) : Nat := (a + (SIZE_T_CARD - b % SIZE_T_CARD)) % SIZE_T_CARD

/-- The scan of `strlen` over the chars from the pointer on: the number of chars before
the first NUL, `none` when the memory ends before a NUL is met. -/
def strlenFrom : List Nat → Option Nat
  | [] => none
  | c :: rest =>
    if c = 0 then some 0
    else
      match strlenFrom rest with
      | none => none
      | some n => some (n + 1)

/-- `strlen(str)`. -/
def strlen (mem : List Nat) (str : Nat) : Option Nat := strlenFrom (mem.drop str)

/-- `static_cast<int>(n)` of a `size_t`, for a 32-bit two's complement `int`. -/
def toInt (n : Nat) : Int :=
  if n % 2 ^ 32 < 2 ^ 31 then ((n % 2 ^ 32 : Nat) : Int) else ((n % 2 ^ 32 : Nat) : Int) - 2 ^ 32

/-- Data members of `StringView`. -/
structure StringView where
  str_ : Nat
  size_ : Nat
  deriving DecidableEq

/-- The exception thrown by `StringView::At`. -/
inductive StdExcept
  | out_of_range
  deriving DecidableEq

namespace StringView

/-- `StringView::StringView(const char* str)`. -/
def ctorStr (mem : List Nat) (str : Nat) : Option StringView :=
  match strlen mem str with
  | none => none
  | some n => some ⟨str, n⟩

/-- `StringView::StringView(const char* str, size_t size)`. -/
def ctorStrSize (str size : Nat) : StringView := ⟨str, size⟩

/-- `operator[](index) const`. -/
def subscript (mem : List Nat) (s : StringView) (index : Nat) : Option Nat :=
  mem[s.str_ + index]?

/-- `At(index) const`: the exception, or the char read. -/
def At (mem : List Nat) (s : StringView) (index : Int) : Except StdExcept (Option Nat) :=
  if index < 0 ∨ index > toInt s.size_ then .error .out_of_range
  else .ok mem[s.str_ + index.toNat]?

/-- `Size() const`. -/
def Size (s : StringView) : Nat := s.size_

/-- `RemovePrefix(prefix_size)`. -/
def RemovePrefix (s : StringView) (n : Nat) : StringView :=
  ⟨s.str_ + n, sub64 s.size_ n⟩

/-- `Substr(pos, count) const`; the default `count` is `size_t(-1)`. -/
def Substr (mem : List Nat) (s : StringView) (pos count : Nat) : Option StringView :=
  match ctorStr mem s.str_ with
  | none => none
  | some substr0 =>
    let substr := substr0.RemovePrefix pos
    let size := if add64 count pos > substr.size_ then sub64 substr.size_ pos else count
    some { substr with size_ := size }

end StringView

/-- The chars `h e l l o` and the terminating NUL. -/
def helloMem : List Nat := [104, 101, 108, 108, 111, 0]

/-! ## `unique_ptr.h`

Objects of type `T` live at heap addresses; for each the heap records how many times
`delete` ran on it.  An instance of `UniquePtr<T>` is named by its index and is `none`
once its destructor has run. -/

/-- Data member of `UniquePtr<T>`; `none` is `nullptr`. -/
structure UniquePtr where
  ptr_ : Option Nat
  deriving DecidableEq

/-- The objects and the `UniquePtr` instances of a program. -/
structure Heap where
  objs : List Nat
  insts : List (Option UniquePtr)
  deriving DecidableEq

namespace UniquePtr

/-- The live instance `i`. -/
def get (h : Heap) (i : Nat) : Option UniquePtr :=
  match h.insts[i]? with
  | some (some p) => some p
  | _ => none

/-- The expression `new T`: the new heap and the address. -/
def newObj (h : Heap) : Heap × Nat := ({ h with objs := h.objs ++ [0] }, h.objs.length)

/-- The statement `delete p`. -/
def deletePtr (h : Heap) (p : Option Nat) : Option Heap :=
  match p with
  | none => some h
  | some a =>
    match h.objs[a]? with
    | none => none
    | some n => some { h with objs := h.objs.set a (n + 1) }

/-- `UniquePtr<T>::UniquePtr()`. -/
def ctor (h : Heap) : Heap := { h with insts := h.insts ++ [some ⟨none⟩] }

/-- `UniquePtr<T>::UniquePtr(T* object)`. -/
def ctorRaw (object : Option Nat) (h : Heap) : Heap :=
  { h with insts := h.insts ++ [some ⟨object⟩] }

/-- `UniquePtr<T>::UniquePtr(UniquePtr&& other)`. -/
def ctorMove (other : Nat) (h : Heap) : Option Heap :=
  match get h other with
  | none => none
  | some o => some { h with insts := h.insts.set other (some ⟨none⟩) ++ [some ⟨o.ptr_⟩] }

/-- `UniquePtr<T>::operator=(UniquePtr&& other)`. -/
def assignMove (self other : Nat) (h : Heap) : Option Heap :=
  match get h self, get h other with
  | some _, some o =>
    some { h with insts := (h.insts.set self (some ⟨o.ptr_⟩)).set other (some ⟨none⟩) }
  | _, _ => none

/-- `UniquePtr<T>::~UniquePtr()`. -/
def dtor (self : Nat) (h : Heap) : Option Heap :=
  match get h self with
  | none => none
  | some me =>
    match deletePtr h me.ptr_ with
    | none => none
    | some h1 => some { h1 with insts := h1.insts.set self none }

/-- `Release()`: the new heap and the pointer returned. -/
def Release (self : Nat) (h : Heap) : Option (Heap × Option Nat) :=
  match get h self with
  | none => none
  | some me => some ({ h with insts := h.insts.set self (some ⟨none⟩) }, me.ptr_)

/-- `Reset(ptr)`. -/
def Reset (self : Nat) (ptr : Option Nat) (h : Heap) : Option Heap :=
  match get h self with
  | none => none
  | some me =>
    match deletePtr h me.ptr_ with
    | none => none
    | some h1 => some { h1 with insts := h1.insts.set self (some ⟨ptr⟩) }

/-- `Swap(other)`. -/
def Swap (self other : Nat) (h : Heap) : Option Heap :=
  match get h self, get h other with
  | some me, some o =>
    some { h with insts := (h.insts.set self (some ⟨o.ptr_⟩)).set other (some ⟨me.ptr_⟩) }
  | _, _ => none

/-- `Get() const`. -/
def Get (self : Nat) (h : Heap) : Option (Option Nat) :=
  match get h self with
  | none => none
  | some me => some me.ptr_

/-- The declaration `UniquePtr<T> x(new T);`. -/
def ctorNew (h : Heap) : Heap := ctorRaw (some (newObj h).2) (newObj h).1

/-- Number of live instances whose `ptr_` is the object at `a`. -/
def owners (h : Heap) (a : Nat) : Nat :=
  h.insts.countP (fun i => decide (i = some ⟨some a⟩))

end UniquePtr

/-! ## Lists: counting under an update -/

theorem countP_set_add {α : Type} (p : α → Bool) (l : List α) (i : Nat) (a old : α)
    (h : l[i]? = some old) :
    (l.set i a).countP p + (if p old then 1 else 0) = l.countP p + (if p a then 1 else 0) := by
  obtain ⟨hi, rfl⟩ := List.getElem?_eq_some.mp h
  have h1 := List.countP_set p l i a hi
  have h2 := List.boole_getElem_le_countP p l i hi
  omega

theorem set_last_append {α : Type} (l : List α) (x y : α) :
    (l ++ [x]).set l.length y = l ++ [y] := by
  induction l with
  | nil => rfl
  | cons a l ih => simp [ih]

theorem set_same {α : Type} (l : List α) (i : Nat) (x : α) (h : l[i]? = some x) :
    l.set i x = l := by
  induction l generalizing i with
  | nil => simp at h
  | cons a l ih =>
    cases i with
    | zero => simp at h; simp [h]
    | succ i => simp at h; simp [ih i h]

/-! ## Bookkeeping of the state updates -/

@[simp] theorem setInst_cnts (w : World) (i : Nat) (v : Inst) : (w.setInst i v).cnts = w.cnts := rfl
@[simp] theorem setInst_objs (w : World) (i : Nat) (v : Inst) : (w.setInst i v).objs = w.objs := rfl
@[simp] theorem setInst_insts (w : World) (i : Nat) (v : Inst) :
    (w.setInst i v).insts = w.insts.set i (some v) := rfl
@[simp] theorem pushInst_cnts (w : World) (v : Inst) : (w.pushInst v).cnts = w.cnts := rfl
@[simp] theorem pushInst_objs (w : World) (v : Inst) : (w.pushInst v).objs = w.objs := rfl
@[simp] theorem pushInst_insts (w : World) (v : Inst) :
    (w.pushInst v).insts = w.insts ++ [some v] := rfl
@[simp] theorem endInst_cnts (w : World) (i : Nat) : (w.endInst i).cnts = w.cnts := rfl
@[simp] theorem endInst_objs (w : World) (i : Nat) : (w.endInst i).objs = w.objs := rfl
@[simp] theorem endInst_insts (w : World) (i : Nat) :
    (w.endInst i).insts = w.insts.set i none := rfl
@[simp] theorem setCounter_cnts (w : World) (b : Nat) (k : CounterCell) (v : Counter) :
    (w.setCounter b k v).cnts = w.cnts.set b ⟨v, k.deletes⟩ := rfl
@[simp] theorem setCounter_objs (w : World) (b : Nat) (k : CounterCell) (v : Counter) :
    (w.setCounter b k v).objs = w.objs := rfl
@[simp] theorem setCounter_insts (w : World) (b : Nat) (k : CounterCell) (v : Counter) :
    (w.setCounter b k v).insts = w.insts := rfl
@[simp] theorem deleteCnt_cnts (w : World) (b : Nat) (k : CounterCell) :
    (w.deleteCnt b k).cnts = w.cnts.set b ⟨k.val, k.deletes + 1⟩ := rfl
@[simp] theorem deleteCnt_objs (w : World) (b : Nat) (k : CounterCell) :
    (w.deleteCnt b k).objs = w.objs := rfl
@[simp] theorem deleteCnt_insts (w : World) (b : Nat) (k : CounterCell) :
    (w.deleteCnt b k).insts = w.insts := rfl
@[simp] theorem newCounter_cnts (w : World) (s wk : Nat) :
    (w.newCounter s wk).1.cnts = w.cnts ++ [⟨⟨s, wk⟩, 0⟩] := rfl
@[simp] theorem newCounter_objs (w : World) (s wk : Nat) : (w.newCounter s wk).1.objs = w.objs := rfl
@[simp] theorem newCounter_insts (w : World) (s wk : Nat) :
    (w.newCounter s wk).1.insts = w.insts := rfl
@[simp] theorem newCounter_addr (w : World) (s wk : Nat) : (w.newCounter s wk).2 = w.cnts.length := rfl
@[simp] theorem newObj_cnts (w : World) : w.newObj.1.cnts = w.cnts := rfl
@[simp] theorem newObj_objs (w : World) : w.newObj.1.objs = w.objs ++ [0] := rfl
@[simp] theorem newObj_insts (w : World) : w.newObj.1.insts = w.insts := rfl
@[simp] theorem newObj_addr (w : World) : w.newObj.2 = w.objs.length := rfl

@[simp] theorem holdsShared_none (b : Nat) : holdsShared b none = false := rfl
@[simp] theorem holdsWeak_none (b : Nat) : holdsWeak b none = false := rfl
@[simp] theorem ownsObj_none (a : Nat) : ownsObj a none = false := rfl
@[simp] theorem holdsShared_weak (b : Nat) (p : WeakPtr) :
    holdsShared b (some (.weak p)) = false := rfl
@[simp] theorem holdsWeak_shared (b : Nat) (p : SharedPtr) :
    holdsWeak b (some (.shared p)) = false := rfl
@[simp] theorem ownsObj_weak (a : Nat) (p : WeakPtr) : ownsObj a (some (.weak p)) = false := rfl
@[simp] theorem holdsShared_shared (b : Nat) (p : SharedPtr) :
    holdsShared b (some (.shared p)) = (p.cnt_ == some b) := rfl
@[simp] theorem holdsWeak_weak (b : Nat) (p : WeakPtr) :
    holdsWeak b (some (.weak p)) = (p.cnt_ == some b) := rfl
@[simp] theorem ownsObj_shared (a : Nat) (p : SharedPtr) :
    ownsObj a (some (.shared p)) = (p.ptr_ == some a) := rfl
@[simp] theorem Inst.ptr_shared (p : SharedPtr) : (Inst.shared p).ptr_ = p.ptr_ := rfl
@[simp] theorem Inst.ptr_weak (p : WeakPtr) : (Inst.weak p).ptr_ = p.ptr_ := rfl
@[simp] theorem Inst.cnt_shared (p : SharedPtr) : (Inst.shared p).cnt_ = p.cnt_ := rfl
@[simp] theorem Inst.cnt_weak (p : WeakPtr) : (Inst.weak p).cnt_ = p.cnt_ := rfl

theorem World.ext_fields {w w' : World} (h1 : w.cnts = w'.cnts) (h2 : w.objs = w'.objs)
    (h3 : w.insts = w'.insts) : w = w' := by
  cases w; cases w'; simp_all

theorem strong_congr {w w' : World} (h : w'.insts = w.insts) (b : Nat) :
    w'.strong b = w.strong b := by simp [World.strong, h]

theorem weak_congr {w w' : World} (h : w'.insts = w.insts) (b : Nat) :
    w'.weak b = w.weak b := by simp [World.weak, h]

theorem owners_congr {w w' : World} (h : w'.insts = w.insts) (a : Nat) :
    w'.owners a = w.owners a := by simp [World.owners, h]

theorem live_congr {w w' : World} (h : w'.insts = w.insts) : w'.live = w.live := by
  simp [World.live, h]

/-- Effect on the four tallies of overwriting slot `i`, which held `old`, with `new`. -/
theorem tally_set {w w' : World} {i : Nat} {old new : Option Inst}
    (hi : w.insts[i]? = some old) (h : w'.insts = w.insts.set i new) :
    (∀ b, w'.strong b + (if holdsShared b old then 1 else 0)
        = w.strong b + (if holdsShared b new then 1 else 0)) ∧
    (∀ b, w'.weak b + (if holdsWeak b old then 1 else 0)
        = w.weak b + (if holdsWeak b new then 1 else 0)) ∧
    (∀ a, w'.owners a + (if ownsObj a old then 1 else 0)
        = w.owners a + (if ownsObj a new then 1 else 0)) ∧
    (w'.live + (if old.isSome then 1 else 0) = w.live + (if new.isSome then 1 else 0)) := by
  refine ⟨fun b => ?_, fun b => ?_, fun a => ?_, ?_⟩
  · simpa [World.strong, h] using countP_set_add (holdsShared b) w.insts i new old hi
  · simpa [World.weak, h] using countP_set_add (holdsWeak b) w.insts i new old hi
  · simpa [World.owners, h] using countP_set_add (ownsObj a) w.insts i new old hi
  · simpa [World.live, h] using countP_set_add Option.isSome w.insts i new old hi

/-- Effect on the four tallies of a new slot. -/
theorem tally_push {w w' : World} {new : Option Inst} (h : w'.insts = w.insts ++ [new]) :
    (∀ b, w'.strong b = w.strong b + (if holdsShared b new then 1 else 0)) ∧
    (∀ b, w'.weak b = w.weak b + (if holdsWeak b new then 1 else 0)) ∧
    (∀ a, w'.owners a = w.owners a + (if ownsObj a new then 1 else 0)) ∧
    (w'.live = w.live + (if new.isSome then 1 else 0)) := by
  refine ⟨fun b => ?_, fun b => ?_, fun a => ?_, ?_⟩ <;>
    simp [World.strong, World.weak, World.owners, World.live, h, List.countP_cons]

theorem strong_le_live (w : World) (b : Nat) : w.strong b ≤ w.live := by
  unfold World.strong World.live
  apply List.countP_mono_left
  intro x _ hx
  cases x with
  | none => simp [holdsShared] at hx
  | some v => rfl

theorem weak_le_live (w : World) (b : Nat) : w.weak b ≤ w.live := by
  unfold World.weak World.live
  apply List.countP_mono_left
  intro x _ hx
  cases x with
  | none => simp [holdsWeak] at hx
  | some v => rfl

theorem strong_pos_of_mem {w : World} {p : SharedPtr} {b : Nat}
    (h : some (Inst.shared p) ∈ w.insts) (hb : p.cnt_ = some b) : 0 < w.strong b := by
  unfold World.strong
  rw [List.countP_pos_iff]
  exact ⟨_, h, by simp [holdsShared, hb]⟩

theorem weak_pos_of_mem {w : World} {p : WeakPtr} {b : Nat}
    (h : some (Inst.weak p) ∈ w.insts) (hb : p.cnt_ = some b) : 0 < w.weak b := by
  unfold World.weak
  rw [List.countP_pos_iff]
  exact ⟨_, h, by simp [holdsWeak, hb]⟩

theorem owners_pos_of_mem {w : World} {p : SharedPtr} {a : Nat}
    (h : some (Inst.shared p) ∈ w.insts) (ha : p.ptr_ = some a) : 0 < w.owners a := by
  unfold World.owners
  rw [List.countP_pos_iff]
  exact ⟨_, h, by simp [ownsObj, ha]⟩

theorem exists_of_strong_pos {w : World} {b : Nat} (h : 0 < w.strong b) :
    ∃ p : SharedPtr, some (Inst.shared p) ∈ w.insts ∧ p.cnt_ = some b := by
  unfold World.strong at h
  rw [List.countP_pos_iff] at h
  obtain ⟨x, hx, hp⟩ := h
  match x, hp with
  | some (.shared p), hp => exact ⟨p, hx, by simpa [holdsShared] using hp⟩

theorem exists_of_owners_pos {w : World} {a : Nat} (h : 0 < w.owners a) :
    ∃ p : SharedPtr, some (Inst.shared p) ∈ w.insts ∧ p.ptr_ = some a := by
  unfold World.owners at h
  rw [List.countP_pos_iff] at h
  obtain ⟨x, hx, hp⟩ := h
  match x, hp with
  | some (.shared p), hp => exact ⟨p, hx, by simpa [ownsObj] using hp⟩

theorem incr_eq {n : Nat} (h : n ≤ maxLive) : incr n = n + 1 := by
  unfold incr SIZE_T_CARD
  unfold maxLive at h
  apply Nat.mod_eq_of_lt
  norm_num at h ⊢
  omega

theorem decr_eq {n : Nat} (h0 : 0 < n) (h : n ≤ maxLive) : decr n = n - 1 := by
  unfold decr SIZE_T_CARD
  unfold maxLive at h
  norm_num at h ⊢
  omega

/-! ## The invariant under the elementary transitions -/

/-- The two structural parts of the invariant carry over when every instance of the new
state is empty or has the members of an instance of the old state. -/
theorem wf_pair_transport {w w' : World} {f : Option Nat} (h : InvF w f)
    (hc : w.cnts.length ≤ w'.cnts.length) (ho : w.objs.length ≤ w'.objs.length)
    (hp : ∀ v : Inst, some v ∈ w'.insts → (v.ptr_ = none ∧ v.cnt_ = none) ∨
      ∃ u : Inst, some u ∈ w.insts ∧ u.ptr_ = v.ptr_ ∧ u.cnt_ = v.cnt_) :
    (∀ v : Inst, some v ∈ w'.insts →
      (v.ptr_ = none ↔ v.cnt_ = none) ∧ (∀ a, v.ptr_ = some a → a < w'.objs.length) ∧
        (∀ b, v.cnt_ = some b → b < w'.cnts.length)) ∧
    (∀ u v : Inst, some u ∈ w'.insts → some v ∈ w'.insts →
      (u.ptr_ = v.ptr_ ↔ u.cnt_ = v.cnt_)) := by
  have key : ∀ v : Inst, some v ∈ w'.insts → (v.ptr_ = none ↔ v.cnt_ = none) ∧
      (∀ a, v.ptr_ = some a → a < w'.objs.length) ∧
        (∀ b, v.cnt_ = some b → b < w'.cnts.length) := by
    intro v hv
    rcases hp v hv with ⟨h1, h2⟩ | ⟨u, hu, h1, h2⟩
    · simp [h1, h2]
    · obtain ⟨e1, e2, e3⟩ := h.wf u hu
      rw [h1, h2] at e1
      refine ⟨e1, fun a ha => ?_, fun b hb => ?_⟩
      · exact lt_of_lt_of_le (e2 a (h1.trans ha)) ho
      · exact lt_of_lt_of_le (e3 b (h2.trans hb)) hc
  refine ⟨key, fun u v hu hv => ?_⟩
  rcases hp u hu with ⟨h1, h2⟩ | ⟨u0, hu0, h1, h2⟩
  · rw [h1, h2]
    have := (key v hv).1
    constructor
    · intro e; exact (this.mp e.symm).symm
    · intro e; exact (this.mpr e.symm).symm
  · rcases hp v hv with ⟨h3, h4⟩ | ⟨v0, hv0, h3, h4⟩
    · rw [h3, h4]
      exact (key u hu).1
    · rw [← h1, ← h2, ← h3, ← h4]
      exact h.pair u0 v0 hu0 hv0

/-- Instances with the same control block own the same object: the two tallies agree. -/
theorem owners_eq_strong {w : World} {f : Option Nat} (h : InvF w f) {u : Inst} {a b : Nat}
    (hu : some u ∈ w.insts) (ha : u.ptr_ = some a) (hb : u.cnt_ = some b) :
    w.owners a = w.strong b := by
  unfold World.owners World.strong
  apply List.countP_congr
  intro x hx
  match x, hx with
  | none, _ => simp [ownsObj, holdsShared]
  | some (.weak p), _ => simp [ownsObj, holdsShared]
  | some (.shared p), hx =>
    have := h.pair (.shared p) u hx hu
    rw [ha, hb] at this
    simpa [ownsObj, holdsShared, Inst.ptr_, Inst.cnt_] using this

/-- An instance that is already there keeps the invariant when nothing else changes. -/
theorem InvF_same_tallies (w w' : World) {f : Option Nat} (h : InvF w f)
    (hc : w'.cnts = w.cnts) (ho : w'.objs = w.objs) (hl : w'.live ≤ maxLive)
    (hs : ∀ b, w'.strong b = w.strong b) (hw : ∀ b, w'.weak b = w.weak b)
    (hown : ∀ a, w'.owners a = w.owners a)
    (hp : ∀ v : Inst, some v ∈ w'.insts → (v.ptr_ = none ∧ v.cnt_ = none) ∨
      ∃ u : Inst, some u ∈ w.insts ∧ u.ptr_ = v.ptr_ ∧ u.cnt_ = v.cnt_) :
    InvF w' f := by
  obtain ⟨h1, h2⟩ := wf_pair_transport h (by rw [hc]) (by rw [ho]) hp
  refine ⟨hl, h1, h2, ?_, ?_, ?_⟩
  · intro b k hk
    rw [hc] at hk
    simpa [hs, hw] using h.blk b k hk
  · intro a ha
    rw [ho]; exact h.flight a ha
  · intro a n hn
    rw [ho] at hn
    rcases h.obj a n hn with ⟨e1, e2, e3⟩ | ⟨e1, e2⟩
    · left
      refine ⟨e1, e2, fun v hv => ?_⟩
      rcases hp v hv with ⟨h3, _⟩ | ⟨u, hu, h3, _⟩
      · simp [h3]
      · rw [← h3]; exact e3 u hu
    · right
      rw [hown]; exact ⟨e1, e2⟩

/-- A default-constructed instance of either class keeps the invariant. -/
theorem InvF_push_empty {w : World} {f : Option Nat} (h : InvF w f) (hl : w.live < maxLive)
    (v : Inst) (hv1 : v.ptr_ = none) (hv2 : v.cnt_ = none) : InvF (w.pushInst v) f := by
  obtain ⟨t1, t2, t3, t4⟩ := tally_push (pushInst_insts w v)
  have e1 : ∀ b, holdsShared b (some v) = false := by
    intro b; cases v <;> simp_all [holdsShared, Inst.cnt_]
  have e2 : ∀ b, holdsWeak b (some v) = false := by
    intro b; cases v <;> simp_all [holdsWeak, Inst.cnt_]
  have e3 : ∀ a, ownsObj a (some v) = false := by
    intro a; cases v <;> simp_all [ownsObj, Inst.ptr_]
  apply InvF_same_tallies w (w.pushInst v) h rfl rfl
  · rw [t4]; simp; omega
  · intro b; rw [t1, e1]; simp
  · intro b; rw [t2, e2]; simp
  · intro a; rw [t3, e3]; simp
  · intro u hu
    simp only [pushInst_insts, List.mem_append, List.mem_singleton] at hu
    rcases hu with hu | hu
    · exact Or.inr ⟨u, hu, rfl, rfl⟩
    · left
      have : u = v := by simpa using hu
      subst this; exact ⟨hv1, hv2⟩

/-- The end of the lifetime of an empty instance keeps the invariant. -/
theorem InvF_end_empty {w : World} {f : Option Nat} (h : InvF w f) {i : Nat} {v : Inst}
    (hi : w.insts[i]? = some (some v)) (hv2 : v.cnt_ = none) : InvF (w.endInst i) f := by
  have hv1 : v.ptr_ = none := ((h.wf v (List.getElem?_mem hi)).1).mpr hv2
  obtain ⟨t1, t2, t3, t4⟩ := tally_set hi (endInst_insts w i)
  have e1 : ∀ b, holdsShared b (some v) = false := by
    intro b; cases v <;> simp_all [holdsShared, Inst.cnt_]
  have e2 : ∀ b, holdsWeak b (some v) = false := by
    intro b; cases v <;> simp_all [holdsWeak, Inst.cnt_]
  have e3 : ∀ a, ownsObj a (some v) = false := by
    intro a; cases v <;> simp_all [ownsObj, Inst.ptr_]
  apply InvF_same_tallies w (w.endInst i) h rfl rfl
  · have := h.room; simp at t4; omega
  · intro b; have := t1 b; rw [e1] at this; simpa using this
  · intro b; have := t2 b; rw [e2] at this; simpa using this
  · intro a; have := t3 a; rw [e3] at this; simpa using this
  · intro u hu
    rcases List.mem_or_eq_of_mem_set hu with hu | hu
    · exact Or.inr ⟨u, hu, rfl, rfl⟩
    · cases hu

/-- Members of the instance store after slot `i` was overwritten with an empty instance. -/
theorem pairs_of_set_empty {w w' : World} {i : Nat} {e : Inst} (he1 : e.ptr_ = none)
    (he2 : e.cnt_ = none) (hins : w'.insts = w.insts.set i (some e)) :
    ∀ v : Inst, some v ∈ w'.insts → (v.ptr_ = none ∧ v.cnt_ = none) ∨
      ∃ u : Inst, some u ∈ w.insts ∧ u.ptr_ = v.ptr_ ∧ u.cnt_ = v.cnt_ := by
  intro v hv
  rw [hins] at hv
  rcases List.mem_or_eq_of_mem_set hv with hv | hv
  · exact Or.inr ⟨v, hv, rfl, rfl⟩
  · left
    have : v = e := by simpa using hv
    subst this; exact ⟨he1, he2⟩

/-- A `SharedPtr` that gives up its block: the block and the object are either deleted
(last owner) or the strong count goes down by one. -/
theorem InvF_release_strong (w w' : World) (k' : CounterCell) {f : Option Nat} {i : Nat}
    {me : SharedPtr} {a b : Nat} (h : InvF w f)
    (hi : w.insts[i]? = some (some (.shared me))) (ha : me.ptr_ = some a)
    (hb : me.cnt_ = some b)
    (hins : w'.insts = w.insts.set i (some (.shared ⟨none, none⟩)))
    (hcnt : w'.cnts = w.cnts.set b k')
    (hk' : if w.strong b = 1 ∧ w.weak b = 0 then k'.deletes = 1
      else k' = ⟨⟨w.strong b - 1, w.weak b⟩, 0⟩)
    (hobj : w'.objs = w.objs.set a (if w.strong b = 1 then 1 else 0)) : InvF w' f := by
  have hmem : some (Inst.shared me) ∈ w.insts := List.getElem?_mem hi
  obtain ⟨t1, t2, t3, t4⟩ := tally_set hi hins
  have hpairs := pairs_of_set_empty (e := Inst.shared ⟨none, none⟩) rfl rfl hins
  obtain ⟨h1, h2⟩ := wf_pair_transport h (by simp [hcnt]) (by simp [hobj]) hpairs
  have hsb : 0 < w.strong b := strong_pos_of_mem hmem hb
  have hoa : w.owners a = w.strong b := owners_eq_strong h hmem ha hb
  refine ⟨?_, h1, h2, ?_, ?_, ?_⟩
  · have := h.room; simp at t4; omega
  · intro b' k2 hk2
    have s1 := t1 b'
    have s2 := t2 b'
    simp only [holdsShared_shared, holdsWeak_shared, hb] at s1 s2
    rw [hcnt, List.getElem?_set] at hk2
    by_cases hbb : b = b'
    · subst hbb
      have hlt : b < w.cnts.length := (h.wf _ hmem).2.2 b hb
      simp [hlt] at hk2 s1 s2
      subst hk2
      split at hk' <;> rename_i hcond
      · right; exact ⟨hk', by omega, by omega⟩
      · left; subst hk'
        refine ⟨rfl, by simp; omega, by simp; omega, by omega⟩
    · simp only [hbb, if_false] at hk2
      have e1 : (some b == some b') = false := by simp [hbb]
      simp [e1] at s1 s2
      rw [s1, s2]
      exact h.blk b' k2 hk2
  · intro a' ha'
    simp [hobj]; exact h.flight a' ha'
  · intro a' n' hn'
    have s3 := t3 a'
    simp only [ownsObj_shared, ha] at s3
    rw [hobj, List.getElem?_set] at hn'
    by_cases haa : a = a'
    · subst haa
      have hlt : a < w.objs.length := (h.wf _ hmem).2.1 a ha
      simp [hlt] at hn' s3
      have hold : w.objs[a]? = some w.objs[a] := List.getElem?_eq_getElem hlt
      rcases h.obj a _ hold with ⟨_, _, e3⟩ | ⟨e1, e2⟩
      · exact absurd ha (e3 _ hmem)
      · right
        refine ⟨e1, ?_⟩
        by_cases hone : w.strong b = 1
        · right; simp [hone] at hn'; exact ⟨hn'.symm, by omega⟩
        · left; simp [hone] at hn'; exact ⟨hn'.symm, by omega⟩
    · simp only [haa, if_false] at hn'
      have e1 : (some a == some a') = false := by simp [haa]
      simp [e1] at s3
      rcases h.obj a' n' hn' with ⟨e1, e2, e3⟩ | ⟨e1, e2⟩
      · left
        refine ⟨e1, e2, fun v hv => ?_⟩
        rcases hpairs v hv with ⟨h3, _⟩ | ⟨u, hu, h3, _⟩
        · simp [h3]
        · rw [← h3]; exact e3 u hu
      · right; rw [s3]; exact ⟨e1, e2⟩

theorem getShared_eq {w : World} {i : Nat} {me : SharedPtr}
    (hi : w.insts[i]? = some (some (.shared me))) : w.getShared i = .ok me := by
  simp [World.getShared, hi]

theorem getWeak_eq {w : World} {i : Nat} {me : WeakPtr}
    (hi : w.insts[i]? = some (some (.weak me))) : w.getWeak i = .ok me := by
  simp [World.getWeak, hi]

theorem cell_eq {w : World} {b : Nat} {k : CounterCell} (hk : w.cnts[b]? = some k) :
    w.cell (some b) = .ok (b, k) := by
  simp [World.cell, hk]

/-- What a non-empty `SharedPtr` of a state with the invariant points to. -/
theorem shared_facts {w : World} {f : Option Nat} {me : SharedPtr} {b : Nat}
    (h : InvF w f) (hmem : some (Inst.shared me) ∈ w.insts) (hc : me.cnt_ = some b) :
    ∃ a k, me.ptr_ = some a ∧ w.objs[a]? = some 0 ∧ w.cnts[b]? = some k ∧ k.deletes = 0 ∧
      k.val.shared_cnt_ = w.strong b ∧ k.val.weak_cnt_ = w.weak b ∧ 0 < w.strong b ∧
      w.strong b ≤ maxLive ∧ w.weak b ≤ maxLive := by
  obtain ⟨hnull, hpr, hcr⟩ := h.wf _ hmem
  simp only [Inst.ptr_shared, Inst.cnt_shared] at hnull hpr hcr
  have hlt := hcr b hc
  have hsb : 0 < w.strong b := strong_pos_of_mem hmem hc
  obtain ⟨a, ha⟩ : ∃ a, me.ptr_ = some a := by
    cases hp : me.ptr_ with
    | none => rw [hnull.mp hp] at hc; cases hc
    | some a => exact ⟨a, rfl⟩
  have hla := hpr a ha
  have hoa : 0 < w.owners a := owners_pos_of_mem hmem ha
  refine ⟨a, w.cnts[b], ha, ?_, List.getElem?_eq_getElem hlt, ?_⟩
  · rcases h.obj a _ (List.getElem?_eq_getElem hla) with ⟨_, _, e3⟩ | ⟨_, ⟨e, _⟩ | ⟨_, e⟩⟩
    · exact absurd ha (e3 _ hmem)
    · rw [List.getElem?_eq_getElem hla, e]
    · omega
  · rcases h.blk b _ (List.getElem?_eq_getElem hlt) with ⟨d0, e1, e2, _⟩ | ⟨_, e1, _⟩
    · exact ⟨d0, e1, e2, hsb, le_trans (strong_le_live w b) h.room,
        le_trans (weak_le_live w b) h.room⟩
    · omega

theorem Reset_none_inv {w : World} {f : Option Nat} {i : Nat} {me : SharedPtr}
    (h : InvF w f) (hi : w.insts[i]? = some (some (.shared me))) :
    ∃ w', SharedPtr.Reset i none w = .ok w' ∧ InvF w' f ∧
      w'.insts = w.insts.set i (some (.shared ⟨none, none⟩)) ∧
      w'.cnts.length = w.cnts.length ∧ w'.objs.length = w.objs.length := by
  have hmem : some (Inst.shared me) ∈ w.insts := List.getElem?_mem hi
  unfold SharedPtr.Reset
  simp only [getShared_eq hi, bind, Except.bind]
  cases hc : me.cnt_ with
  | none =>
    have hp : me.ptr_ = none := ((h.wf _ hmem).1).mpr hc
    have hme : me = ⟨none, none⟩ := by cases me; simp_all
    subst hme
    refine ⟨_, rfl, ?_, rfl, rfl, rfl⟩
    have : w.setInst i (Inst.shared ⟨none, none⟩) = w :=
      World.ext_fields rfl rfl (set_same _ _ _ hi)
    rw [this]; exact h
  | some b =>
    obtain ⟨a, k, ha, hn, hk, hd, e1, e2, hpos, hmax, _⟩ := shared_facts h hmem hc
    have hdel : w.deleteObj me.ptr_ = .ok { w with objs := w.objs.set a 1 } := by
      simp [World.deleteObj, ha, hn]
    simp only [cell_eq hk, hdel, pure, Except.pure]
    by_cases c1 : k.val.shared_cnt_ = 1 ∧ k.val.weak_cnt_ = 0
    · rw [if_pos c1]
      refine ⟨_, rfl, ?_, rfl, by simp, by simp⟩
      refine InvF_release_strong w _ ⟨k.val, k.deletes + 1⟩
          h hi ha hc rfl rfl ?_ ?_
      · rw [← e1, ← e2, if_pos c1]; simp [hd]
      · rw [← e1, if_pos c1.1]; rfl
    · rw [if_neg c1]
      by_cases c2 : k.val.shared_cnt_ = 1
      · rw [if_pos c2]
        refine ⟨_, rfl, ?_, rfl, by simp, by simp⟩
        refine InvF_release_strong w _ ⟨⟨decr k.val.shared_cnt_, k.val.weak_cnt_⟩, k.deletes⟩
          h hi ha hc rfl rfl ?_ ?_
        · rw [← e1, ← e2, if_neg c1, decr_eq (by omega) (by omega), hd]
        · rw [← e1, if_pos c2]; rfl
      · rw [if_neg c2]
        have c3 : k.val.shared_cnt_ ≠ 0 := by omega
        rw [if_pos c3]
        refine ⟨_, rfl, ?_, rfl, by simp, by simp⟩
        refine InvF_release_strong w _ ⟨⟨decr k.val.shared_cnt_, k.val.weak_cnt_⟩, k.deletes⟩
          h hi ha hc rfl rfl ?_ ?_
        · rw [← e1, ← e2, if_neg c1, decr_eq (by omega) (by omega), hd]
        · rw [← e1, if_neg c2]
          exact (set_same _ _ _ hn).symm

/-- A `WeakPtr` that gives up its block: the block is deleted (last observer of an
expired block) or the weak count goes down by one. -/
theorem InvF_release_weak (w w' : World) (k' : CounterCell) {f : Option Nat} {i : Nat}
    {me : WeakPtr} {b : Nat} (h : InvF w f)
    (hi : w.insts[i]? = some (some (.weak me))) (hb : me.cnt_ = some b)
    (hins : w'.insts = w.insts.set i (some (.weak ⟨none, none⟩)))
    (hcnt : w'.cnts = w.cnts.set b k')
    (hk' : if w.weak b = 1 ∧ w.strong b = 0 then k'.deletes = 1
      else k' = ⟨⟨w.strong b, w.weak b - 1⟩, 0⟩)
    (hobj : w'.objs = w.objs) : InvF w' f := by
  have hmem : some (Inst.weak me) ∈ w.insts := List.getElem?_mem hi
  obtain ⟨t1, t2, t3, t4⟩ := tally_set hi hins
  have hpairs := pairs_of_set_empty (e := Inst.weak ⟨none, none⟩) rfl rfl hins
  obtain ⟨h1, h2⟩ := wf_pair_transport h (by simp [hcnt]) (by simp [hobj]) hpairs
  have hwb : 0 < w.weak b := weak_pos_of_mem hmem hb
  refine ⟨?_, h1, h2, ?_, ?_, ?_⟩
  · have := h.room; simp at t4; omega
  · intro b' k2 hk2
    have s1 := t1 b'
    have s2 := t2 b'
    simp only [holdsShared_weak, holdsWeak_weak, hb] at s1 s2
    rw [hcnt, List.getElem?_set] at hk2
    by_cases hbb : b = b'
    · subst hbb
      have hlt : b < w.cnts.length := (h.wf _ hmem).2.2 b hb
      simp [hlt] at hk2 s1 s2
      subst hk2
      split at hk' <;> rename_i hcond
      · right; exact ⟨hk', by omega, by omega⟩
      · left; subst hk'
        refine ⟨rfl, by simp; omega, by simp; omega, by omega⟩
    · simp only [hbb, if_false] at hk2
      have e1 : (some b == some b') = false := by simp [hbb]
      simp [e1] at s1 s2
      rw [s1, s2]
      exact h.blk b' k2 hk2
  · intro a' ha'
    rw [hobj]; exact h.flight a' ha'
  · intro a' n' hn'
    have s3 := t3 a'
    simp only [ownsObj_weak] at s3
    rw [hobj] at hn'
    simp at s3
    rcases h.obj a' n' hn' with ⟨e1, e2, e3⟩ | ⟨e1, e2⟩
    · left
      refine ⟨e1, e2, fun v hv => ?_⟩
      rcases hpairs v hv with ⟨h3, _⟩ | ⟨u, hu, h3, _⟩
      · simp [h3]
      · rw [← h3]; exact e3 u hu
    · right; rw [s3]; exact ⟨e1, e2⟩

/-- What a non-empty `WeakPtr` of a state with the invariant points to. -/
theorem weak_facts {w : World} {f : Option Nat} {me : WeakPtr} {b : Nat}
    (h : InvF w f) (hmem : some (Inst.weak me) ∈ w.insts) (hc : me.cnt_ = some b) :
    ∃ a k, me.ptr_ = some a ∧ a < w.objs.length ∧ w.cnts[b]? = some k ∧ k.deletes = 0 ∧
      k.val.shared_cnt_ = w.strong b ∧ k.val.weak_cnt_ = w.weak b ∧ 0 < w.weak b ∧
      w.strong b ≤ maxLive ∧ w.weak b ≤ maxLive := by
  obtain ⟨hnull, hpr, hcr⟩ := h.wf _ hmem
  simp only [Inst.ptr_weak, Inst.cnt_weak] at hnull hpr hcr
  have hlt := hcr b hc
  have hwb : 0 < w.weak b := weak_pos_of_mem hmem hc
  obtain ⟨a, ha⟩ : ∃ a, me.ptr_ = some a := by
    cases hp : me.ptr_ with
    | none => rw [hnull.mp hp] at hc; cases hc
    | some a => exact ⟨a, rfl⟩
  refine ⟨a, w.cnts[b], ha, hpr a ha, List.getElem?_eq_getElem hlt, ?_⟩
  rcases h.blk b _ (List.getElem?_eq_getElem hlt) with ⟨d0, e1, e2, _⟩ | ⟨_, _, e1⟩
  · exact ⟨d0, e1, e2, hwb, le_trans (strong_le_live w b) h.room,
      le_trans (weak_le_live w b) h.room⟩
  · omega

theorem WeakReset_inv {w : World} {f : Option Nat} {i : Nat} {me : WeakPtr}
    (h : InvF w f) (hi : w.insts[i]? = some (some (.weak me))) :
    ∃ w', WeakPtr.Reset i w = .ok w' ∧ InvF w' f ∧
      w'.insts = w.insts.set i (some (.weak ⟨none, none⟩)) ∧
      w'.cnts.length = w.cnts.length ∧ w'.objs = w.objs := by
  have hmem : some (Inst.weak me) ∈ w.insts := List.getElem?_mem hi
  unfold WeakPtr.Reset
  simp only [getWeak_eq hi, bind, Except.bind]
  cases hc : me.cnt_ with
  | none =>
    have hp : me.ptr_ = none := ((h.wf _ hmem).1).mpr hc
    have hme : me = ⟨none, none⟩ := by cases me; simp_all
    subst hme
    refine ⟨_, rfl, ?_, rfl, rfl, rfl⟩
    have : w.setInst i (Inst.weak ⟨none, none⟩) = w :=
      World.ext_fields rfl rfl (set_same _ _ _ hi)
    rw [this]; exact h
  | some b =>
    obtain ⟨a, k, ha, hn, hk, hd, e1, e2, hpos, _, hmax⟩ := weak_facts h hmem hc
    simp only [cell_eq hk, pure, Except.pure]
    by_cases c1 : k.val.weak_cnt_ = 1 ∧ k.val.shared_cnt_ = 0
    · rw [if_pos c1]
      refine ⟨_, rfl, ?_, rfl, by simp, by simp⟩
      refine InvF_release_weak w _ ⟨k.val, k.deletes + 1⟩
        h hi hc rfl rfl ?_ rfl
      rw [← e1, ← e2, if_pos c1]; simp [hd]
    · rw [if_neg c1]
      have c3 : k.val.weak_cnt_ ≠ 0 := by omega
      rw [if_pos c3]
      refine ⟨_, rfl, ?_, rfl, by simp, by simp⟩
      refine InvF_release_weak w _ ⟨⟨k.val.shared_cnt_, decr k.val.weak_cnt_⟩, k.deletes⟩
        h hi hc rfl rfl ?_ rfl
      rw [← e1, ← e2, if_neg c1, decr_eq (by omega) (by omega), hd]

/-- An empty `SharedPtr` that takes the object and block of an instance whose block is
not expired: the strong count goes up by one. -/
theorem InvF_acquire_strong (w w' : World) (t : Nat) (me : SharedPtr) (u : Inst) (a b : Nat)
    {f : Option Nat} (h : InvF w f)
    (ht : w.insts[t]? = some (some (.shared me))) (hme : me.cnt_ = none)
    (hu : some u ∈ w.insts) (ha : u.ptr_ = some a) (hb : u.cnt_ = some b)
    (hpos : 0 < w.strong b)
    (hins : w'.insts = w.insts.set t (some (.shared ⟨some a, some b⟩)))
    (hcnt : w'.cnts = w.cnts.set b ⟨⟨w.strong b + 1, w.weak b⟩, 0⟩)
    (hobj : w'.objs = w.objs) : InvF w' f := by
  have hmem : some (Inst.shared me) ∈ w.insts := List.getElem?_mem ht
  have hmp : me.ptr_ = none := ((h.wf _ hmem).1).mpr hme
  obtain ⟨t1, t2, t3, t4⟩ := tally_set ht hins
  have hpairs : ∀ v : Inst, some v ∈ w'.insts → (v.ptr_ = none ∧ v.cnt_ = none) ∨
      ∃ u : Inst, some u ∈ w.insts ∧ u.ptr_ = v.ptr_ ∧ u.cnt_ = v.cnt_ := by
    intro v hv
    rw [hins] at hv
    rcases List.mem_or_eq_of_mem_set hv with hv | hv
    · exact Or.inr ⟨v, hv, rfl, rfl⟩
    · right
      have : v = Inst.shared ⟨some a, some b⟩ := by simpa using hv
      subst this; exact ⟨u, hu, ha, hb⟩
  obtain ⟨h1, h2⟩ := wf_pair_transport h (by simp [hcnt]) (by simp [hobj]) hpairs
  have hoa : w.owners a = w.strong b := owners_eq_strong h hu ha hb
  refine ⟨?_, h1, h2, ?_, ?_, ?_⟩
  · have := h.room; simp at t4; omega
  · intro b' k2 hk2
    have s1 := t1 b'
    have s2 := t2 b'
    simp only [holdsShared_shared, holdsWeak_shared, hme] at s1 s2
    rw [hcnt, List.getElem?_set] at hk2
    by_cases hbb : b = b'
    · subst hbb
      have hlt : b < w.cnts.length := (h.wf _ hu).2.2 b hb
      simp [hlt] at hk2 s1 s2
      subst hk2
      left
      refine ⟨rfl, by simp; omega, by simp; omega, by omega⟩
    · simp only [hbb, if_false] at hk2
      have e1 : (some b == some b') = false := by simp [hbb]
      simp [e1] at s1 s2
      rw [s1, s2]
      exact h.blk b' k2 hk2
  · intro a' ha'
    rw [hobj]; exact h.flight a' ha'
  · intro a' n' hn'
    have s3 := t3 a'
    simp only [ownsObj_shared, hmp] at s3
    rw [hobj] at hn'
    by_cases haa : a = a'
    · subst haa
      simp at s3
      rcases h.obj a n' hn' with ⟨_, _, e3⟩ | ⟨e1, e2⟩
      · exact absurd ha (e3 _ hu)
      · right
        refine ⟨e1, ?_⟩
        rcases e2 with ⟨e2, _⟩ | ⟨_, e2⟩
        · left; exact ⟨e2, by omega⟩
        · omega
    · have e1 : (some a == some a') = false := by simp [haa]
      simp [e1] at s3
      rcases h.obj a' n' hn' with ⟨e1, e2, e3⟩ | ⟨e1, e2⟩
      · left
        refine ⟨e1, e2, fun v hv => ?_⟩
        rcases hpairs v hv with ⟨h3, _⟩ | ⟨u, hu, h3, _⟩
        · simp [h3]
        · rw [← h3]; exact e3 u hu
      · right; rw [s3]; exact ⟨e1, e2⟩

/-- An empty `WeakPtr` that takes the object and block of an instance: the weak count
goes up by one. -/
theorem InvF_acquire_weak (w w' : World) (t : Nat) (me : WeakPtr) (u : Inst) (a b : Nat)
    {f : Option Nat} (h : InvF w f)
    (ht : w.insts[t]? = some (some (.weak me))) (hme : me.cnt_ = none)
    (hu : some u ∈ w.insts) (ha : u.ptr_ = some a) (hb : u.cnt_ = some b)
    (hins : w'.insts = w.insts.set t (some (.weak ⟨some a, some b⟩)))
    (hcnt : w'.cnts = w.cnts.set b ⟨⟨w.strong b, w.weak b + 1⟩, 0⟩)
    (hobj : w'.objs = w.objs) : InvF w' f := by
  have hmem : some (Inst.weak me) ∈ w.insts := List.getElem?_mem ht
  have hmp : me.ptr_ = none := ((h.wf _ hmem).1).mpr hme
  obtain ⟨t1, t2, t3, t4⟩ := tally_set ht hins
  have hpairs : ∀ v : Inst, some v ∈ w'.insts → (v.ptr_ = none ∧ v.cnt_ = none) ∨
      ∃ u : Inst, some u ∈ w.insts ∧ u.ptr_ = v.ptr_ ∧ u.cnt_ = v.cnt_ := by
    intro v hv
    rw [hins] at hv
    rcases List.mem_or_eq_of_mem_set hv with hv | hv
    · exact Or.inr ⟨v, hv, rfl, rfl⟩
    · right
      have : v = Inst.weak ⟨some a, some b⟩ := by simpa using hv
      subst this; exact ⟨u, hu, ha, hb⟩
  obtain ⟨h1, h2⟩ := wf_pair_transport h (by simp [hcnt]) (by simp [hobj]) hpairs
  refine ⟨?_, h1, h2, ?_, ?_, ?_⟩
  · have := h.room; simp at t4; omega
  · intro b' k2 hk2
    have s1 := t1 b'
    have s2 := t2 b'
    simp only [holdsShared_weak, holdsWeak_weak, hme] at s1 s2
    rw [hcnt, List.getElem?_set] at hk2
    by_cases hbb : b = b'
    · subst hbb
      have hlt : b < w.cnts.length := (h.wf _ hu).2.2 b hb
      simp [hlt] at hk2 s1 s2
      subst hk2
      left
      refine ⟨rfl, by simp; omega, by simp; omega, by omega⟩
    · simp only [hbb, if_false] at hk2
      have e1 : (some b == some b') = false := by simp [hbb]
      simp [e1] at s1 s2
      rw [s1, s2]
      exact h.blk b' k2 hk2
  · intro a' ha'
    rw [hobj]; exact h.flight a' ha'
  · intro a' n' hn'
    have s3 := t3 a'
    simp only [ownsObj_weak] at s3
    rw [hobj] at hn'
    simp at s3
    rcases h.obj a' n' hn' with ⟨e1, e2, e3⟩ | ⟨e1, e2⟩
    · left
      refine ⟨e1, e2, fun v hv => ?_⟩
      rcases hpairs v hv with ⟨h3, _⟩ | ⟨u, hu, h3, _⟩
      · simp [h3]
      · rw [← h3]; exact e3 u hu
    · right; rw [s3]; exact ⟨e1, e2⟩

theorem countP_swap {α : Type} (p : α → Bool) (l : List α) (i j : Nat) (x y : α)
    (hi : l[i]? = some x) (hj : l[j]? = some y) :
    ((l.set i y).set j x).countP p = l.countP p := by
  by_cases hij : i = j
  · subst hij
    rw [List.set_set, set_same l i x hi]
  · have h1 := countP_set_add p l i y x hi
    have hj' : (l.set i y)[j]? = some y := by
      rw [List.getElem?_set_ne hij]; exact hj
    have h2 := countP_set_add p (l.set i y) j x y hj'
    omega

/-- Exchanging the contents of two slots keeps the invariant. -/
theorem InvF_swap (w w' : World) {f : Option Nat} {i j : Nat} {x y : Option Inst}
    (h : InvF w f) (hi : w.insts[i]? = some x) (hj : w.insts[j]? = some y)
    (hins : w'.insts = (w.insts.set i y).set j x) (hc : w'.cnts = w.cnts)
    (ho : w'.objs = w.objs) : InvF w' f := by
  apply InvF_same_tallies w w' h hc ho
  · have : w'.live = w.live := by
      unfold World.live; rw [hins]; exact countP_swap _ _ _ _ _ _ hi hj
    rw [this]; exact h.room
  · intro b; unfold World.strong; rw [hins]; exact countP_swap _ _ _ _ _ _ hi hj
  · intro b; unfold World.weak; rw [hins]; exact countP_swap _ _ _ _ _ _ hi hj
  · intro a; unfold World.owners; rw [hins]; exact countP_swap _ _ _ _ _ _ hi hj
  · intro v hv
    right
    refine ⟨v, ?_, rfl, rfl⟩
    rw [hins] at hv
    rcases List.mem_or_eq_of_mem_set hv with hv | hv
    · rcases List.mem_or_eq_of_mem_set hv with hv | hv
      · exact hv
      · rw [hv]; exact List.getElem?_mem hj
    · rw [hv]; exact List.getElem?_mem hi

/-- An empty `SharedPtr` that takes the fresh object in flight with a new block. -/
theorem InvF_install (w w' : World) (a t : Nat) (me : SharedPtr) (h : InvF w (some a))
    (ht : w.insts[t]? = some (some (.shared me))) (hme : me.cnt_ = none)
    (hins : w'.insts = w.insts.set t (some (.shared ⟨some a, some w.cnts.length⟩)))
    (hcnt : w'.cnts = w.cnts ++ [⟨⟨1, 0⟩, 0⟩]) (hobj : w'.objs = w.objs) : InvF w' none := by
  have hmem : some (Inst.shared me) ∈ w.insts := List.getElem?_mem ht
  have hmp : me.ptr_ = none := ((h.wf _ hmem).1).mpr hme
  obtain ⟨t1, t2, t3, t4⟩ := tally_set ht hins
  have hla : a < w.objs.length := h.flight a rfl
  have hfresh : ∀ v : Inst, some v ∈ w.insts → v.ptr_ ≠ some a := by
    rcases h.obj a _ (List.getElem?_eq_getElem hla) with ⟨_, _, e3⟩ | ⟨e1, _⟩
    · exact e3
    · exact absurd rfl e1
  have hnew : ∀ v : Inst, some v ∈ w.insts → v.cnt_ ≠ some w.cnts.length := by
    intro v hv e
    have := (h.wf v hv).2.2 _ e
    omega
  have hs0 : w.strong w.cnts.length = 0 := by
    unfold World.strong
    rw [List.countP_eq_zero]
    intro x hx
    match x, hx with
    | none, _ => simp
    | some (.weak p), _ => simp
    | some (.shared p), hx => simpa using hnew _ hx
  have hw0 : w.weak w.cnts.length = 0 := by
    unfold World.weak
    rw [List.countP_eq_zero]
    intro x hx
    match x, hx with
    | none, _ => simp
    | some (.shared p), _ => simp
    | some (.weak p), hx => simpa using hnew _ hx
  have hold : ∀ v : Inst, some v ∈ w'.insts →
      some v ∈ w.insts ∨ v = Inst.shared ⟨some a, some w.cnts.length⟩ := by
    intro v hv
    rw [hins] at hv
    rcases List.mem_or_eq_of_mem_set hv with hv | hv
    · exact Or.inl hv
    · right; simpa using hv
  refine ⟨?_, ?_, ?_, ?_, ?_, ?_⟩
  · have := h.room; simp at t4; omega
  · intro v hv
    rcases hold v hv with hv | hv
    · obtain ⟨e1, e2, e3⟩ := h.wf v hv
      refine ⟨e1, fun a' ha' => ?_, fun b' hb' => ?_⟩
      · rw [hobj]; exact e2 a' ha'
      · rw [hcnt]; simp; have := e3 b' hb'; omega
    · subst hv
      refine ⟨by simp, fun a' ha' => ?_, fun b' hb' => ?_⟩
      · simp at ha'; subst ha'; rw [hobj]; exact hla
      · simp at hb'; subst hb'; rw [hcnt]; simp
  · intro u v hu hv
    rcases hold u hu with hu | hu <;> rcases hold v hv with hv | hv
    · exact h.pair u v hu hv
    · subst hv
      simp only [Inst.ptr_shared, Inst.cnt_shared]
      exact ⟨fun e => absurd e (hfresh u hu), fun e => absurd e (hnew u hu)⟩
    · subst hu
      simp only [Inst.ptr_shared, Inst.cnt_shared]
      exact ⟨fun e => absurd e.symm (hfresh v hv), fun e => absurd e.symm (hnew v hv)⟩
    · subst hu; subst hv; simp
  · intro b' k2 hk2
    have s1 := t1 b'
    have s2 := t2 b'
    simp only [holdsShared_shared, holdsWeak_shared, hme] at s1 s2
    rw [hcnt, List.getElem?_append] at hk2
    by_cases hbb : b' < w.cnts.length
    · simp only [hbb, if_true] at hk2
      have e1 : (some w.cnts.length == some b') = false := by simp; omega
      simp [e1] at s1 s2
      rw [s1, s2]
      exact h.blk b' k2 hk2
    · simp only [hbb, if_false] at hk2
      have hb' : b' = w.cnts.length := by
        by_contra hne
        have : b' - w.cnts.length ≠ 0 := by omega
        obtain ⟨m, hm⟩ := Nat.exists_eq_succ_of_ne_zero this
        rw [hm] at hk2; simp at hk2
      subst hb'
      simp at hk2 s1 s2
      subst hk2
      left
      refine ⟨rfl, by simp; omega, by simp; omega, by omega⟩
  · intro a' ha'; cases ha'
  · intro a' n' hn'
    have s3 := t3 a'
    simp only [ownsObj_shared, hmp] at s3
    rw [hobj] at hn'
    right
    refine ⟨by simp, ?_⟩
    by_cases haa : a = a'
    · subst haa
      simp at s3
      rcases h.obj a n' hn' with ⟨_, e2, _⟩ | ⟨e1, _⟩
      · left; exact ⟨e2, by omega⟩
      · exact absurd rfl e1
    · have e1 : (some a == some a') = false := by simp [haa]
      simp [e1] at s3
      rcases h.obj a' n' hn' with ⟨e1, _, _⟩ | ⟨_, e2⟩
      · simp at e1; exact absurd e1 haa
      · rw [s3]; exact e2

/-! ## The invariant under the member functions -/

theorem getShared_ok {w : World} {i : Nat} {me : SharedPtr} (h : w.getShared i = .ok me) :
    w.insts[i]? = some (some (.shared me)) := by
  unfold World.getShared at h
  split at h
  · rename_i p hp; cases h; exact hp
  · cases h

theorem getWeak_ok {w : World} {i : Nat} {me : WeakPtr} (h : w.getWeak i = .ok me) :
    w.insts[i]? = some (some (.weak me)) := by
  unfold World.getWeak at h
  split at h
  · rename_i p hp; cases h; exact hp
  · cases h

theorem cell_ok {w : World} {c : Option Nat} {r : Nat × CounterCell} (h : w.cell c = .ok r) :
    c = some r.1 ∧ w.cnts[r.1]? = some r.2 := by
  unfold World.cell at h
  split at h
  · cases h
  · split at h
    · rename_i b k hk; cases h; exact ⟨rfl, hk⟩
    · cases h

theorem set_push {α : Type} (l : List α) (i : Nat) (x y z : α) (hi : i < l.length) :
    ((l ++ [x]).set i y).set l.length z = l.set i y ++ [z] := by
  rw [List.set_append_left _ _ hi]
  have := set_last_append (l.set i y) x z
  rw [List.length_set] at this
  exact this

/-- The caller's `new T` puts a fresh object in flight. -/
theorem InvF_newObj {w : World} (h : InvF w none) : InvF w.newObj.1 (some w.newObj.2) := by
  refine ⟨h.room, ?_, h.pair, h.blk, ?_, ?_⟩
  · intro v hv
    obtain ⟨e1, e2, e3⟩ := h.wf v hv
    refine ⟨e1, fun a ha => ?_, e3⟩
    have := e2 a ha
    simp; omega
  · intro a ha
    simp at ha; subst ha; simp
  · intro a n hn
    simp only [newObj_objs, newObj_addr, List.getElem?_append] at hn
    by_cases ha : a < w.objs.length
    · simp only [ha, if_true] at hn
      right
      refine ⟨by simp; omega, ?_⟩
      rcases h.obj a n hn with ⟨e1, _⟩ | ⟨_, e2⟩
      · cases e1
      · exact e2
    · simp only [ha, if_false] at hn
      have ha' : a = w.objs.length := by
        by_contra hne
        have : a - w.objs.length ≠ 0 := by omega
        obtain ⟨m, hm⟩ := Nat.exists_eq_succ_of_ne_zero this
        rw [hm] at hn; simp at hn
      subst ha'
      simp at hn
      left
      refine ⟨rfl, hn.symm, fun v hv e => ?_⟩
      have := (h.wf v hv).2.1 _ e
      omega

theorem ctor_inv {w w' : World} {f : Option Nat} (h : InvF w f) (hl : w.live < maxLive)
    (he : SharedPtr.ctor w = .ok w') : InvF w' f := by
  cases he
  exact InvF_push_empty h hl _ rfl rfl

theorem ctorRaw_inv {w w' : World} {f : Option Nat} (h : InvF w f) (hl : w.live < maxLive)
    (he : SharedPtr.ctorRaw f w = .ok w') : InvF w' none := by
  cases f with
  | none => cases he; exact InvF_push_empty h hl _ rfl rfl
  | some a =>
    cases he
    have h1 := InvF_push_empty h hl (Inst.shared ⟨none, none⟩) rfl rfl
    refine InvF_install (w.pushInst (Inst.shared ⟨none, none⟩)) _ a w.insts.length
      ⟨none, none⟩ h1 (by simp) rfl ?_ rfl rfl
    simp [set_last_append]

theorem ctorCopy_inv {w w' : World} {f : Option Nat} {other : Nat} (h : InvF w f)
    (hl : w.live < maxLive) (he : SharedPtr.ctorCopy other w = .ok w') : InvF w' f := by
  unfold SharedPtr.ctorCopy at he
  cases hg : w.getShared other with
  | error e => simp [hg, bind, Except.bind] at he
  | ok o =>
    have ho := getShared_ok hg
    have hmem := List.getElem?_mem ho
    cases hc : w.cell o.cnt_ with
    | error e => simp [hg, hc, bind, Except.bind] at he
    | ok r =>
      obtain ⟨hcb, hk⟩ := cell_ok hc
      obtain ⟨a, k, ha, _, hk2, hd, e1, e2, hpos, hmax, _⟩ := shared_facts h hmem hcb
      have hkk : r.2 = k := by rw [hk] at hk2; exact Option.some.inj hk2
      simp only [hg, hc, bind, Except.bind, pure, Except.pure] at he
      cases he
      have h1 := InvF_push_empty h hl (Inst.shared ⟨none, none⟩) rfl rfl
      obtain ⟨t1, t2, _, _⟩ := tally_push (pushInst_insts w (Inst.shared ⟨none, none⟩))
      refine InvF_acquire_strong (w.pushInst (Inst.shared ⟨none, none⟩)) _ w.insts.length
        ⟨none, none⟩ (Inst.shared o) a r.1 h1 (by simp) rfl (by simp [hmem]) ha hcb ?_ ?_ ?_ rfl
      · rw [t1]; omega
      · simp [set_last_append, ha, hcb]
      · rw [t1, t2]
        simp [hkk, hd, e1, e2, incr_eq hmax]

theorem ctorMove_inv {w w' : World} {f : Option Nat} {other : Nat} (h : InvF w f)
    (hl : w.live < maxLive) (he : SharedPtr.ctorMove other w = .ok w') : InvF w' f := by
  unfold SharedPtr.ctorMove at he
  cases hg : w.getShared other with
  | error e => simp [hg, bind, Except.bind] at he
  | ok o =>
    have ho := getShared_ok hg
    have hlt : other < w.insts.length := (List.getElem?_eq_some.mp ho).1
    simp only [hg, bind, Except.bind, pure, Except.pure] at he
    cases he
    have h1 := InvF_push_empty h hl (Inst.shared ⟨none, none⟩) rfl rfl
    refine InvF_swap (w.pushInst (Inst.shared ⟨none, none⟩)) _ (i := other)
      (j := w.insts.length) (x := some (Inst.shared o))
      (y := some (Inst.shared ⟨none, none⟩)) h1 ?_ (by simp) ?_ rfl rfl
    · simp [List.getElem?_append_left hlt, ho]
    · simp only [pushInst_insts, setInst_insts]
      rw [set_push _ _ _ _ _ hlt]

theorem WeakGet_eq {w : World} {i : Nat} {me : WeakPtr} (hg : w.getWeak i = .ok me) :
    WeakPtr.Get i w = .ok me.ptr_ := by
  simp [WeakPtr.Get, hg, bind, Except.bind, pure, Except.pure]

theorem SharedGet_eq {w : World} {i : Nat} {me : SharedPtr} (hg : w.getShared i = .ok me) :
    SharedPtr.Get i w = .ok me.ptr_ := by
  simp [SharedPtr.Get, hg, bind, Except.bind, pure, Except.pure]

/-- `Expired()` in a state with the invariant: no failure, and the answer is whether
the instance is empty or no `SharedPtr` holds its block. -/
theorem Expired_eq {w : World} {f : Option Nat} {i : Nat} {me : WeakPtr} (h : InvF w f)
    (hi : w.insts[i]? = some (some (.weak me))) :
    WeakPtr.Expired i w = .ok (match me.cnt_ with
      | none => true
      | some b => w.strong b == 0) := by
  unfold WeakPtr.Expired
  simp only [getWeak_eq hi, bind, Except.bind, pure, Except.pure]
  cases hc : me.cnt_ with
  | none => rfl
  | some b =>
    obtain ⟨a, k, ha, _, hk, hd, e1, e2, hpos, hmax, _⟩ :=
      weak_facts h (List.getElem?_mem hi) hc
    simp [cell_eq hk, e1]

theorem ctorWeak_inv {w w' : World} {f : Option Nat} {other : Nat} (h : InvF w f)
    (hl : w.live < maxLive) (he : SharedPtr.ctorWeak other w = .ok w') : InvF w' f := by
  unfold SharedPtr.ctorWeak at he
  cases hg : w.getWeak other with
  | error e => simp [hg, bind, Except.bind] at he
  | ok o =>
    have ho := getWeak_ok hg
    have hmem := List.getElem?_mem ho
    simp only [hg, WeakGet_eq hg, Expired_eq h ho, bind, Except.bind, pure, Except.pure] at he
    cases hc : o.cnt_ with
    | none => simp [hc, throw, throwThe, MonadExceptOf.throw] at he
    | some b =>
      obtain ⟨a, k, ha, _, hk, hd, e1, e2, hpos, hmax, _⟩ := weak_facts h hmem hc
      by_cases hs : w.strong b = 0
      · simp [hc, hs, throw, throwThe, MonadExceptOf.throw] at he
      · have hs' : (w.strong b == 0) = false := by simp [hs]
        simp only [hc, hs', ha, cell_eq hk, Bool.false_eq_true, if_false] at he
        cases he
        have h1 := InvF_push_empty h hl (Inst.shared ⟨none, none⟩) rfl rfl
        obtain ⟨t1, t2, _, _⟩ := tally_push (pushInst_insts w (Inst.shared ⟨none, none⟩))
        refine InvF_acquire_strong (w.pushInst (Inst.shared ⟨none, none⟩)) _ w.insts.length
          ⟨none, none⟩ (Inst.weak o) a b h1 (by simp) rfl (by simp [hmem]) ha hc ?_ ?_ ?_ rfl
        · rw [t1]; simp; omega
        · simp [set_last_append]
        · rw [t1, t2]
          simp [hd, e1, e2, incr_eq hmax]

theorem Reset_error {w : World} {i : Nat} {ptr : Option Nat} {e : Err}
    (hg : w.getShared i = .error e) : SharedPtr.Reset i ptr w = .error e := by
  simp [SharedPtr.Reset, hg, bind, Except.bind]

theorem WeakReset_error {w : World} {i : Nat} {e : Err}
    (hg : w.getWeak i = .error e) : WeakPtr.Reset i w = .error e := by
  simp [WeakPtr.Reset, hg, bind, Except.bind]

theorem getElem?_set_other {α : Type} (l : List α) {i j : Nat} (x : α) (h : i ≠ j) :
    (l.set i x)[j]? = l[j]? := List.getElem?_set_ne h

theorem assignCopy_inv {w w' : World} {f : Option Nat} {self other : Nat} (h : InvF w f)
    (he : SharedPtr.assignCopy self other w = .ok w') : InvF w' f := by
  unfold SharedPtr.assignCopy at he
  cases hg1 : w.getShared self with
  | error e => simp [hg1, bind, Except.bind] at he
  | ok me =>
    cases hg2 : w.getShared other with
    | error e => simp [hg1, hg2, bind, Except.bind] at he
    | ok o =>
      simp only [hg1, hg2, bind, Except.bind, pure, Except.pure] at he
      by_cases hso : self = other
      · rw [if_pos hso] at he; cases he; exact h
      · rw [if_neg hso] at he
        obtain ⟨w1, hr, h1, hins1, _, _⟩ := Reset_none_inv h (getShared_ok hg1)
        have ho1 : w1.insts[other]? = some (some (Inst.shared o)) := by
          rw [hins1, getElem?_set_other _ _ hso]; exact getShared_ok hg2
        have hself : self < w.insts.length := (List.getElem?_eq_some.mp (getShared_ok hg1)).1
        have hs1 : w1.insts[self]? = some (some (Inst.shared ⟨none, none⟩)) := by
          rw [hins1]; simp [hself]
        simp only [hr, getShared_eq ho1] at he
        cases hc : (w1.setInst self (Inst.shared ⟨o.ptr_, o.cnt_⟩)).cell o.cnt_ with
        | error e => simp [hc] at he
        | ok r =>
          obtain ⟨hcb, hk⟩ := cell_ok hc
          simp only [setInst_cnts] at hk
          have hmem := List.getElem?_mem ho1
          obtain ⟨a, k, ha, _, hk2, hd, e1, e2, hpos, hmax, _⟩ := shared_facts h1 hmem hcb
          have hkk : r.2 = k := by rw [hk] at hk2; exact Option.some.inj hk2
          simp only [hc] at he
          cases he
          refine InvF_acquire_strong w1 _ self ⟨none, none⟩ (Inst.shared o) a r.1 h1 hs1 rfl
            hmem ha hcb hpos ?_ ?_ rfl
          · simp [ha, hcb]
          · simp [hkk, hd, e1, e2, incr_eq hmax]

theorem assignMove_inv {w w' : World} {f : Option Nat} {self other : Nat} (h : InvF w f)
    (he : SharedPtr.assignMove self other w = .ok w') : InvF w' f := by
  unfold SharedPtr.assignMove at he
  cases hg2 : w.getShared other with
  | error e => simp [hg2, bind, Except.bind] at he
  | ok o0 =>
    cases hg1 : w.getShared self with
    | error e => simp [hg2, Reset_error hg1, bind, Except.bind] at he
    | ok me =>
      obtain ⟨w1, hr, h1, hins1, _, _⟩ := Reset_none_inv h (getShared_ok hg1)
      have hself : self < w.insts.length := (List.getElem?_eq_some.mp (getShared_ok hg1)).1
      have hs1 : w1.insts[self]? = some (some (Inst.shared ⟨none, none⟩)) := by
        rw [hins1]; simp [hself]
      simp only [hg2, hr, bind, Except.bind, pure, Except.pure] at he
      cases hg3 : w1.getShared other with
      | error e => simp [hg3] at he
      | ok o =>
        simp only [hg3] at he
        cases he
        exact InvF_swap w1 _ h1 hs1 (getShared_ok hg3) rfl rfl rfl

theorem dtor_inv {w w' : World} {f : Option Nat} {self : Nat} (h : InvF w f)
    (he : SharedPtr.dtor self w = .ok w') : InvF w' f := by
  unfold SharedPtr.dtor at he
  cases hg1 : w.getShared self with
  | error e => simp [Reset_error hg1, bind, Except.bind] at he
  | ok me =>
    obtain ⟨w1, hr, h1, hins1, _, _⟩ := Reset_none_inv h (getShared_ok hg1)
    have hself : self < w.insts.length := (List.getElem?_eq_some.mp (getShared_ok hg1)).1
    have hs1 : w1.insts[self]? = some (some (Inst.shared ⟨none, none⟩)) := by
      rw [hins1]; simp [hself]
    simp only [hr, bind, Except.bind, pure, Except.pure] at he
    cases he
    exact InvF_end_empty h1 hs1 rfl

theorem Swap_inv {w w' : World} {f : Option Nat} {self other : Nat} (h : InvF w f)
    (he : SharedPtr.Swap self other w = .ok w') : InvF w' f := by
  unfold SharedPtr.Swap at he
  cases hg1 : w.getShared self with
  | error e => simp [hg1, bind, Except.bind] at he
  | ok me =>
    cases hg2 : w.getShared other with
    | error e => simp [hg1, hg2, bind, Except.bind] at he
    | ok o =>
      simp only [hg1, hg2, bind, Except.bind, pure, Except.pure] at he
      cases he
      exact InvF_swap w _ h (getShared_ok hg1) (getShared_ok hg2) rfl rfl rfl

/-- `Reset(p)` with a non-null `p` is `Reset()` followed by taking `p` with a new block. -/
theorem Reset_some {w w1 : World} {i a : Nat} (h1 : SharedPtr.Reset i none w = .ok w1) :
    ∃ w', SharedPtr.Reset i (some a) w = .ok w' ∧
      w'.insts = w1.insts.set i (some (.shared ⟨some a, some w1.cnts.length⟩)) ∧
      w'.cnts = w1.cnts ++ [⟨⟨1, 0⟩, 0⟩] ∧ w'.objs = w1.objs := by
  unfold SharedPtr.Reset at h1 ⊢
  cases hg : w.getShared i with
  | error e => simp [hg, bind, Except.bind] at h1
  | ok me =>
    simp only [hg, bind, Except.bind, pure, Except.pure] at h1 ⊢
    cases hc : me.cnt_ with
    | none =>
      simp only [hc] at h1 ⊢
      cases h1
      exact ⟨_, rfl, by simp [List.set_set], rfl, rfl⟩
    | some b =>
      simp only [hc] at h1 ⊢
      cases hcell : w.cell (some b) with
      | error e => simp [hcell] at h1
      | ok r =>
        simp only [hcell] at h1 ⊢
        cases hdel : w.deleteObj me.ptr_ with
        | error e =>
          simp only [hdel] at h1 ⊢
          split_ifs at h1 ⊢ <;> (cases h1; exact ⟨_, rfl, by simp [List.set_set], rfl, rfl⟩)
        | ok w0 =>
          simp only [hdel] at h1 ⊢
          split_ifs at h1 ⊢ <;> (cases h1; exact ⟨_, rfl, by simp [List.set_set], rfl, rfl⟩)

theorem Reset_inv {w w' : World} {f : Option Nat} {self : Nat} (h : InvF w f)
    (he : SharedPtr.Reset self f w = .ok w') : InvF w' none := by
  cases hg1 : w.getShared self with
  | error e => simp [Reset_error hg1] at he
  | ok me =>
    obtain ⟨w1, hr, h1, hins1, _, _⟩ := Reset_none_inv h (getShared_ok hg1)
    cases f with
    | none => rw [hr] at he; cases he; exact h1
    | some a =>
      obtain ⟨w2, hr2, i2, c2, o2⟩ := Reset_some (a := a) hr
      rw [hr2] at he; cases he
      have hself : self < w.insts.length := (List.getElem?_eq_some.mp (getShared_ok hg1)).1
      have hs1 : w1.insts[self]? = some (some (Inst.shared ⟨none, none⟩)) := by
        rw [hins1]; simp [hself]
      exact InvF_install w1 _ a self ⟨none, none⟩ h1 hs1 rfl i2 c2 o2

theorem weakCtor_inv {w w' : World} {f : Option Nat} (h : InvF w f) (hl : w.live < maxLive)
    (he : WeakPtr.ctor w = .ok w') : InvF w' f := by
  cases he
  exact InvF_push_empty h hl _ rfl rfl

theorem weakCtorCopy_inv {w w' : World} {f : Option Nat} {other : Nat} (h : InvF w f)
    (hl : w.live < maxLive) (he : WeakPtr.ctorCopy other w = .ok w') : InvF w' f := by
  unfold WeakPtr.ctorCopy at he
  cases hg : w.getWeak other with
  | error e => simp [hg, bind, Except.bind] at he
  | ok o =>
    have ho := getWeak_ok hg
    have hmem := List.getElem?_mem ho
    simp only [hg, bind, Except.bind, pure, Except.pure] at he
    cases hc : o.cnt_ with
    | none =>
      have hp : o.ptr_ = none := ((h.wf _ hmem).1).mpr hc
      simp only [hc, hp] at he
      cases he
      exact InvF_push_empty h hl _ rfl rfl
    | some b =>
      obtain ⟨a, k, ha, _, hk, hd, e1, e2, hpos, _, hmax⟩ := weak_facts h hmem hc
      simp only [hc, ha, cell_eq hk] at he
      cases he
      have h1 := InvF_push_empty h hl (Inst.weak ⟨none, none⟩) rfl rfl
      obtain ⟨t1, t2, _, _⟩ := tally_push (pushInst_insts w (Inst.weak ⟨none, none⟩))
      refine InvF_acquire_weak (w.pushInst (Inst.weak ⟨none, none⟩)) _ w.insts.length
        ⟨none, none⟩ (Inst.weak o) a b h1 (by simp) rfl (by simp [hmem]) ha hc ?_ ?_ rfl
      · simp [set_last_append]
      · rw [t1, t2]
        simp [hd, e1, e2, incr_eq hmax]

theorem weakCtorMove_inv {w w' : World} {f : Option Nat} {other : Nat} (h : InvF w f)
    (hl : w.live < maxLive) (he : WeakPtr.ctorMove other w = .ok w') : InvF w' f := by
  unfold WeakPtr.ctorMove at he
  cases hg : w.getWeak other with
  | error e => simp [hg, bind, Except.bind] at he
  | ok o =>
    have ho := getWeak_ok hg
    have hlt : other < w.insts.length := (List.getElem?_eq_some.mp ho).1
    simp only [hg, bind, Except.bind, pure, Except.pure] at he
    cases he
    have h1 := InvF_push_empty h hl (Inst.weak ⟨none, none⟩) rfl rfl
    refine InvF_swap (w.pushInst (Inst.weak ⟨none, none⟩)) _ (i := other)
      (j := w.insts.length) (x := some (Inst.weak o))
      (y := some (Inst.weak ⟨none, none⟩)) h1 ?_ (by simp) ?_ rfl rfl
    · simp [List.getElem?_append_left hlt, ho]
    · simp only [pushInst_insts, setInst_insts]
      rw [set_push _ _ _ _ _ hlt]

theorem weakCtorShared_inv {w w' : World} {f : Option Nat} {other : Nat} (h : InvF w f)
    (hl : w.live < maxLive) (he : WeakPtr.ctorShared other w = .ok w') : InvF w' f := by
  unfold WeakPtr.ctorShared at he
  cases hg : w.getShared other with
  | error e => simp [hg, bind, Except.bind] at he
  | ok o =>
    have ho := getShared_ok hg
    have hmem := List.getElem?_mem ho
    simp only [hg, SharedGet_eq hg, bind, Except.bind, pure, Except.pure] at he
    cases hc : o.cnt_ with
    | none =>
      have hp : o.ptr_ = none := ((h.wf _ hmem).1).mpr hc
      simp only [hc, hp] at he
      cases he
      exact InvF_push_empty h hl _ rfl rfl
    | some b =>
      obtain ⟨a, k, ha, _, hk, hd, e1, e2, hpos, _, hmax⟩ := shared_facts h hmem hc
      simp only [hc, ha, cell_eq hk] at he
      cases he
      have h1 := InvF_push_empty h hl (Inst.weak ⟨none, none⟩) rfl rfl
      obtain ⟨t1, t2, _, _⟩ := tally_push (pushInst_insts w (Inst.weak ⟨none, none⟩))
      refine InvF_acquire_weak (w.pushInst (Inst.weak ⟨none, none⟩)) _ w.insts.length
        ⟨none, none⟩ (Inst.shared o) a b h1 (by simp) rfl (by simp [hmem]) ha hc ?_ ?_ rfl
      · simp [set_last_append]
      · rw [t1, t2]
        simp [hd, e1, e2, incr_eq hmax]

theorem weakAssignCopy_inv {w w' : World} {f : Option Nat} {self other : Nat} (h : InvF w f)
    (he : WeakPtr.assignCopy self other w = .ok w') : InvF w' f := by
  unfold WeakPtr.assignCopy at he
  cases hg1 : w.getWeak self with
  | error e => simp [hg1, bind, Except.bind] at he
  | ok me =>
    cases hg2 : w.getWeak other with
    | error e => simp [hg1, hg2, bind, Except.bind] at he
    | ok o =>
      simp only [hg1, hg2, bind, Except.bind, pure, Except.pure] at he
      by_cases hso : self = other
      · rw [if_pos hso] at he; cases he; exact h
      · rw [if_neg hso] at he
        obtain ⟨w1, hr, h1, hins1, _, _⟩ := WeakReset_inv h (getWeak_ok hg1)
        have ho1 : w1.insts[other]? = some (some (Inst.weak o)) := by
          rw [hins1, getElem?_set_other _ _ hso]; exact getWeak_ok hg2
        have hself : self < w.insts.length := (List.getElem?_eq_some.mp (getWeak_ok hg1)).1
        have hs1 : w1.insts[self]? = some (some (Inst.weak ⟨none, none⟩)) := by
          rw [hins1]; simp [hself]
        simp only [hr, getWeak_eq ho1] at he
        cases hc : (w1.setInst self (Inst.weak ⟨o.ptr_, o.cnt_⟩)).cell o.cnt_ with
        | error e => simp [hc] at he
        | ok r =>
          obtain ⟨hcb, hk⟩ := cell_ok hc
          simp only [setInst_cnts] at hk
          have hmem := List.getElem?_mem ho1
          obtain ⟨a, k, ha, _, hk2, hd, e1, e2, hpos, _, hmax⟩ := weak_facts h1 hmem hcb
          have hkk : r.2 = k := by rw [hk] at hk2; exact Option.some.inj hk2
          simp only [hc] at he
          cases he
          refine InvF_acquire_weak w1 _ self ⟨none, none⟩ (Inst.weak o) a r.1 h1 hs1 rfl
            hmem ha hcb ?_ ?_ rfl
          · simp [ha, hcb]
          · simp [hkk, hd, e1, e2, incr_eq hmax]

theorem weakAssignMove_inv {w w' : World} {f : Option Nat} {self other : Nat} (h : InvF w f)
    (he : WeakPtr.assignMove self other w = .ok w') : InvF w' f := by
  unfold WeakPtr.assignMove at he
  cases hg2 : w.getWeak other with
  | error e => simp [hg2, bind, Except.bind] at he
  | ok o0 =>
    cases hg1 : w.getWeak self with
    | error e => simp [hg2, WeakReset_error hg1, bind, Except.bind] at he
    | ok me =>
      obtain ⟨w1, hr, h1, hins1, _, _⟩ := WeakReset_inv h (getWeak_ok hg1)
      have hself : self < w.insts.length := (List.getElem?_eq_some.mp (getWeak_ok hg1)).1
      have hs1 : w1.insts[self]? = some (some (Inst.weak ⟨none, none⟩)) := by
        rw [hins1]; simp [hself]
      simp only [hg2, hr, bind, Except.bind, pure, Except.pure] at he
      cases hg3 : w1.getWeak other with
      | error e => simp [hg3] at he
      | ok o =>
        simp only [hg3] at he
        cases he
        exact InvF_swap w1 _ h1 hs1 (getWeak_ok hg3) rfl rfl rfl

theorem weakDtor_inv {w w' : World} {f : Option Nat} {self : Nat} (h : InvF w f)
    (he : WeakPtr.dtor self w = .ok w') : InvF w' f := by
  unfold WeakPtr.dtor at he
  cases hg1 : w.getWeak self with
  | error e => simp [WeakReset_error hg1, bind, Except.bind] at he
  | ok me =>
    obtain ⟨w1, hr, h1, hins1, _, _⟩ := WeakReset_inv h (getWeak_ok hg1)
    have hself : self < w.insts.length := (List.getElem?_eq_some.mp (getWeak_ok hg1)).1
    have hs1 : w1.insts[self]? = some (some (Inst.weak ⟨none, none⟩)) := by
      rw [hins1]; simp [hself]
    simp only [hr, bind, Except.bind, pure, Except.pure] at he
    cases he
    exact InvF_end_empty h1 hs1 rfl

theorem weakResetOp_inv {w w' : World} {f : Option Nat} {self : Nat} (h : InvF w f)
    (he : WeakPtr.Reset self w = .ok w') : InvF w' f := by
  cases hg1 : w.getWeak self with
  | error e => simp [WeakReset_error hg1] at he
  | ok me =>
    obtain ⟨w1, hr, h1, _⟩ := WeakReset_inv h (getWeak_ok hg1)
    rw [hr] at he; cases he; exact h1

theorem weakSwap_inv {w w' : World} {f : Option Nat} {self other : Nat} (h : InvF w f)
    (he : WeakPtr.Swap self other w = .ok w') : InvF w' f := by
  unfold WeakPtr.Swap at he
  cases hg1 : w.getWeak self with
  | error e => simp [hg1, bind, Except.bind] at he
  | ok me =>
    cases hg2 : w.getWeak other with
    | error e => simp [hg1, hg2, bind, Except.bind] at he
    | ok o =>
      simp only [hg1, hg2, bind, Except.bind, pure, Except.pure] at he
      cases he
      exact InvF_swap w _ h (getWeak_ok hg1) (getWeak_ok hg2) rfl rfl rfl

theorem Lock_inv {w w' : World} {f : Option Nat} {self : Nat} (h : InvF w f)
    (hl : w.live < maxLive) (he : WeakPtr.Lock self w = .ok w') : InvF w' f := by
  unfold WeakPtr.Lock at he
  cases hx : WeakPtr.Expired self w with
  | error e => simp [hx, bind, Except.bind] at he
  | ok e =>
    simp only [hx, bind, Except.bind] at he
    cases e with
    | true => exact ctor_inv h hl (by simpa using he)
    | false => exact ctorWeak_inv h hl (by simpa using he)

/-- Every call keeps the invariant. -/
theorem exec_inv {op : Op} {w w' : World} (h : Inv w)
    (hl : op.constructs = true → w.live < maxLive) (he : exec op w = .ok w') : Inv w' := by
  unfold Inv at h ⊢
  cases op with
  | sp_ctor => exact ctor_inv h (hl rfl) he
  | sp_ctorRaw fresh =>
    cases fresh with
    | false => exact ctorRaw_inv h (hl rfl) he
    | true => exact ctorRaw_inv (InvF_newObj h) (hl rfl) he
  | sp_ctorCopy other => exact ctorCopy_inv h (hl rfl) he
  | sp_ctorMove other => exact ctorMove_inv h (hl rfl) he
  | sp_ctorWeak other => exact ctorWeak_inv h (hl rfl) he
  | sp_assignCopy self other => exact assignCopy_inv h he
  | sp_assignMove self other => exact assignMove_inv h he
  | sp_dtor self => exact dtor_inv h he
  | sp_Reset self fresh =>
    cases fresh with
    | false => exact Reset_inv h he
    | true => exact Reset_inv (InvF_newObj h) he
  | sp_Swap self other => exact Swap_inv h he
  | wp_ctor => exact weakCtor_inv h (hl rfl) he
  | wp_ctorCopy other => exact weakCtorCopy_inv h (hl rfl) he
  | wp_ctorMove other => exact weakCtorMove_inv h (hl rfl) he
  | wp_ctorShared other => exact weakCtorShared_inv h (hl rfl) he
  | wp_assignCopy self other => exact weakAssignCopy_inv h he
  | wp_assignMove self other => exact weakAssignMove_inv h he
  | wp_dtor self => exact weakDtor_inv h he
  | wp_Reset self => exact weakResetOp_inv h he
  | wp_Swap self other => exact weakSwap_inv h he
  | wp_Lock self => exact Lock_inv h (hl rfl) he

theorem Inv_init : Inv World.init := by
  refine ⟨by simp [World.live, World.init, maxLive], ?_, ?_, ?_, ?_, ?_⟩ <;>
    simp [World.init]

/-- Every reachable state has the invariant. -/
theorem Reachable.inv {w : World} (h : Reachable w) : Inv w := by
  induction h with
  | init => exact Inv_init
  | step op w w' _ hl he ih => exact exec_inv ih hl he

/-! ## What a call does to objects and owners -/

theorem objs_mono_refl (l : List Nat) :
    ∀ a n : Nat, l[a]? = some n → ∃ n' : Nat, l[a]? = some n' ∧ n ≤ n' :=
  fun _ n hn => ⟨n, hn, le_rfl⟩

theorem objs_mono_set {l : List Nat} {a0 n0 : Nat} (h0 : l[a0]? = some n0) :
    ∀ a n : Nat, l[a]? = some n → ∃ n' : Nat, (l.set a0 (n0 + 1))[a]? = some n' ∧ n ≤ n' := by
  intro a n hn
  rw [List.getElem?_set]
  by_cases ha : a0 = a
  · subst ha
    have hlt : a0 < l.length := (List.getElem?_eq_some.mp h0).1
    rw [h0] at hn; cases hn
    exact ⟨n0 + 1, by simp [hlt], by omega⟩
  · exact ⟨n, by simp [ha, hn], le_rfl⟩

theorem objs_mono_push (l : List Nat) (x : Nat) :
    ∀ a n : Nat, l[a]? = some n → ∃ n' : Nat, (l ++ [x])[a]? = some n' ∧ n ≤ n' := by
  intro a n hn
  have hlt : a < l.length := (List.getElem?_eq_some.mp hn).1
  exact ⟨n, by rw [List.getElem?_append_left hlt]; exact hn, le_rfl⟩

theorem deleteObj_effect {w w0 : World} {p : Option Nat} (h : w.deleteObj p = .ok w0) :
    w0.cnts = w.cnts ∧ w0.insts = w.insts ∧
      (∀ a n : Nat, w.objs[a]? = some n → ∃ n' : Nat, w0.objs[a]? = some n' ∧ n ≤ n') := by
  unfold World.deleteObj at h
  cases p with
  | none => cases h; exact ⟨rfl, rfl, objs_mono_refl _⟩
  | some a =>
    cases hn : w.objs[a]? with
    | none => simp [hn] at h
    | some n =>
      simp only [hn] at h
      cases h
      exact ⟨rfl, rfl, objs_mono_set hn⟩

/-- `SharedPtr::Reset` in any state: it rewrites only the slot of `this`, and no
destructor count goes down. -/
theorem Reset_effect {w w' : World} {i : Nat} {p : Option Nat}
    (he : SharedPtr.Reset i p w = .ok w') :
    ∃ (me : SharedPtr) (c : Option Nat), w.insts[i]? = some (some (.shared me)) ∧
      w'.insts = w.insts.set i (some (.shared ⟨p, c⟩)) ∧
      (∀ a n : Nat, w.objs[a]? = some n → ∃ n' : Nat, w'.objs[a]? = some n' ∧ n ≤ n') := by
  unfold SharedPtr.Reset at he
  cases hg : w.getShared i with
  | error e => simp [hg, bind, Except.bind] at he
  | ok me =>
    refine ⟨me, ?_⟩
    have hi := getShared_ok hg
    simp only [hg, bind, Except.bind, pure, Except.pure] at he
    cases hc : me.cnt_ with
    | none =>
      simp only [hc] at he
      cases p <;> (cases he; exact ⟨_, hi, rfl, objs_mono_refl _⟩)
    | some b =>
      simp only [hc] at he
      cases hcell : w.cell (some b) with
      | error e => simp [hcell] at he
      | ok r =>
        simp only [hcell] at he
        cases hdel : w.deleteObj me.ptr_ with
        | error e =>
          simp only [hdel] at he
          split_ifs at he <;> cases p <;>
            (cases he; exact ⟨_, hi, rfl, objs_mono_refl _⟩)
        | ok w0 =>
          obtain ⟨_, d2, d3⟩ := deleteObj_effect hdel
          simp only [hdel] at he
          split_ifs at he <;> cases p <;> cases he
          all_goals first
            | exact ⟨_, hi, rfl, objs_mono_refl _⟩
            | exact ⟨_, hi, by rw [← d2]; rfl, d3⟩

/-- `WeakPtr::Reset` in any state: it rewrites only the slot of `this` and leaves the
objects alone. -/
theorem WeakReset_effect {w w' : World} {i : Nat} (he : WeakPtr.Reset i w = .ok w') :
    ∃ me : WeakPtr, w.insts[i]? = some (some (.weak me)) ∧
      w'.insts = w.insts.set i (some (.weak ⟨none, none⟩)) ∧ w'.objs = w.objs := by
  unfold WeakPtr.Reset at he
  cases hg : w.getWeak i with
  | error e => simp [hg, bind, Except.bind] at he
  | ok me =>
    refine ⟨me, getWeak_ok hg, ?_⟩
    simp only [hg, bind, Except.bind, pure, Except.pure] at he
    cases hc : me.cnt_ with
    | none => simp only [hc] at he; cases he; exact ⟨rfl, rfl⟩
    | some b =>
      simp only [hc] at he
      cases hcell : w.cell (some b) with
      | error e => simp [hcell] at he
      | ok r =>
        simp only [hcell] at he
        split_ifs at he <;> (cases he; exact ⟨rfl, rfl⟩)

theorem frame_same {w w' : World}
    (ho : ∀ a n : Nat, w.objs[a]? = some n → ∃ n' : Nat, w'.objs[a]? = some n' ∧ n ≤ n')
    (hins : w'.insts = w.insts) : Frame w w' :=
  ⟨ho, fun a => by rw [owners_congr hins a]; omega⟩

theorem frame_push {w w' : World} {x : Option Inst}
    (ho : ∀ a n : Nat, w.objs[a]? = some n → ∃ n' : Nat, w'.objs[a]? = some n' ∧ n ≤ n')
    (hins : w'.insts = w.insts ++ [x]) : Frame w w' := by
  refine ⟨ho, fun a => ?_⟩
  have := (tally_push hins).2.2.1 a
  omega

theorem frame_set {w w' : World} {i : Nat} {old new : Option Inst}
    (ho : ∀ a n : Nat, w.objs[a]? = some n → ∃ n' : Nat, w'.objs[a]? = some n' ∧ n ≤ n')
    (hi : w.insts[i]? = some old) (hins : w'.insts = w.insts.set i new) : Frame w w' := by
  refine ⟨ho, fun a => ?_⟩
  have := (tally_set hi hins).2.2.1 a
  split_ifs at this <;> omega

theorem frame_swap {w w' : World} {i j : Nat} {x y : Option Inst}
    (ho : ∀ a n : Nat, w.objs[a]? = some n → ∃ n' : Nat, w'.objs[a]? = some n' ∧ n ≤ n')
    (hi : w.insts[i]? = some x) (hj : w.insts[j]? = some y)
    (hins : w'.insts = (w.insts.set i y).set j x) : Frame w w' := by
  refine ⟨ho, fun a => ?_⟩
  have : w'.owners a = w.owners a := by
    unfold World.owners; rw [hins]; exact countP_swap _ _ _ _ _ _ hi hj
  omega

theorem frame_trans_up {w w1 w' : World} (h1 : Frame w w1)
    (ho : ∀ a n : Nat, w1.objs[a]? = some n → ∃ n' : Nat, w'.objs[a]? = some n' ∧ n ≤ n')
    (hup : ∀ a, w1.owners a ≤ w'.owners a) : Frame w w' := by
  refine ⟨fun a n hn => ?_, fun a => ?_⟩
  · obtain ⟨n1, e1, l1⟩ := h1.1 a n hn
    obtain ⟨n2, e2, l2⟩ := ho a n1 e1
    exact ⟨n2, e2, le_trans l1 l2⟩
  · have := h1.2 a
    have := hup a
    omega

theorem ctorMove_shape {w w' : World} {other : Nat} {p : SharedPtr}
    (hi : w.insts[other]? = some (some (Inst.shared p)))
    (hins : w'.insts = w.insts.set other (some (Inst.shared ⟨none, none⟩)) ++
      [some (Inst.shared p)]) : ∀ a, w.owners a ≤ w'.owners a := by
  intro a
  have h1 := (tally_set hi (show (World.mk w.cnts w.objs (w.insts.set other
    (some (Inst.shared ⟨none, none⟩)))).insts = _ from rfl)).2.2.1 a
  have h2 := (tally_push (show w'.insts = (World.mk w.cnts w.objs (w.insts.set other
    (some (Inst.shared ⟨none, none⟩)))).insts ++ _ from hins)).2.2.1 a
  simp only [ownsObj_shared] at h1 h2
  split_ifs at h1 h2 <;> simp_all

theorem sp_ctorMove_frame {w w' : World} {other : Nat}
    (he : SharedPtr.ctorMove other w = .ok w') : Frame w w' := by
  unfold SharedPtr.ctorMove at he
  cases hg : w.getShared other with
  | error e => simp [hg, bind, Except.bind] at he
  | ok o =>
    simp only [hg, bind, Except.bind, pure, Except.pure] at he
    cases he
    refine ⟨objs_mono_refl _, fun a => ?_⟩
    have := ctorMove_shape (getShared_ok hg) (show ((w.setInst other
      (Inst.shared ⟨none, none⟩)).pushInst (Inst.shared ⟨o.ptr_, o.cnt_⟩)).insts = _
      from rfl) a
    omega

/-- Shape of a move assignment on the instance store: slot `s` is cleared, then takes
the contents `y` of slot `j`, then slot `j` is cleared. -/
theorem move_shape {l l1 l' : List (Option Inst)} {s j : Nat} {x v y z : Option Inst}
    (hs : l[s]? = some x) (h1 : l1 = l.set s v) (hj : l1[j]? = some y)
    (h' : l' = (l1.set s y).set j z) (hz : ∀ a, ownsObj a z = false) (a : Nat) :
    l.countP (ownsObj a) ≤ l'.countP (ownsObj a) + 1 := by
  have hlt : s < l.length := (List.getElem?_eq_some.mp hs).1
  have e2 : l1.set s y = l.set s y := by rw [h1, List.set_set]
  have hj2 : (l.set s y)[j]? = some y := by
    by_cases hsj : s = j
    · subst hsj; simp [hlt]
    · rw [List.getElem?_set_ne hsj]
      rw [h1, List.getElem?_set_ne hsj] at hj
      exact hj
  rw [e2] at h'
  have t1 := countP_set_add (ownsObj a) l s y x hs
  have t2 := countP_set_add (ownsObj a) (l.set s y) j z y hj2
  rw [← h', hz a] at t2
  split_ifs at t1 t2 <;> omega

theorem sp_assignCopy_frame {w w' : World} {self other : Nat}
    (he : SharedPtr.assignCopy self other w = .ok w') : Frame w w' := by
  unfold SharedPtr.assignCopy at he
  cases hg1 : w.getShared self with
  | error e => simp [hg1, bind, Except.bind] at he
  | ok me =>
    cases hg2 : w.getShared other with
    | error e => simp [hg1, hg2, bind, Except.bind] at he
    | ok o =>
      simp only [hg1, hg2, bind, Except.bind, pure, Except.pure] at he
      by_cases hso : self = other
      · rw [if_pos hso] at he; cases he
        exact frame_same (objs_mono_refl _) rfl
      · rw [if_neg hso] at he
        cases hr : SharedPtr.Reset self none w with
        | error e => simp [hr] at he
        | ok w1 =>
          obtain ⟨me1, c, hi, hins1, ho1⟩ := Reset_effect hr
          simp only [hr] at he
          cases hg3 : w1.getShared other with
          | error e => simp [hg3] at he
          | ok o1 =>
            simp only [hg3] at he
            cases hc : (w1.setInst self (Inst.shared ⟨o1.ptr_, o1.cnt_⟩)).cell o1.cnt_ with
            | error e => simp [hc] at he
            | ok r =>
              simp only [hc] at he
              cases he
              refine frame_set ho1 hi
                (show _ = w.insts.set self (some (Inst.shared ⟨o1.ptr_, o1.cnt_⟩)) from ?_)
              simp [hins1, List.set_set]

theorem sp_assignMove_frame {w w' : World} {self other : Nat}
    (he : SharedPtr.assignMove self other w = .ok w') : Frame w w' := by
  unfold SharedPtr.assignMove at he
  cases hg2 : w.getShared other with
  | error e => simp [hg2, bind, Except.bind] at he
  | ok o0 =>
    simp only [hg2, bind, Except.bind, pure, Except.pure] at he
    cases hr : SharedPtr.Reset self none w with
    | error e => simp [hr] at he
    | ok w1 =>
      obtain ⟨me1, c, hi, hins1, ho1⟩ := Reset_effect hr
      simp only [hr] at he
      cases hg3 : w1.getShared other with
      | error e => simp [hg3] at he
      | ok o1 =>
        simp only [hg3] at he
        cases he
        refine ⟨ho1, fun a => ?_⟩
        exact move_shape hi hins1 (getShared_ok hg3)
          (show _ = (w1.insts.set self (some (Inst.shared o1))).set other
            (some (Inst.shared ⟨none, none⟩)) from rfl) (fun _ => rfl) a

theorem sp_dtor_frame {w w' : World} {self : Nat}
    (he : SharedPtr.dtor self w = .ok w') : Frame w w' := by
  unfold SharedPtr.dtor at he
  cases hr : SharedPtr.Reset self none w with
  | error e => simp [hr, bind, Except.bind] at he
  | ok w1 =>
    obtain ⟨me1, c, hi, hins1, ho1⟩ := Reset_effect hr
    simp only [hr, bind, Except.bind, pure, Except.pure] at he
    cases he
    refine frame_set ho1 hi (show _ = w.insts.set self none from ?_)
    simp [hins1, List.set_set]

theorem sp_Reset_frame {w w' : World} {self : Nat} {p : Option Nat}
    (he : SharedPtr.Reset self p w = .ok w') : Frame w w' := by
  obtain ⟨me1, c, hi, hins1, ho1⟩ := Reset_effect he
  exact frame_set ho1 hi hins1

theorem frame_newObj {w w' : World} (h : Frame w.newObj.1 w') : Frame w w' := by
  refine ⟨fun a n hn => ?_, fun a => ?_⟩
  · obtain ⟨n1, e1, l1⟩ := objs_mono_push w.objs 0 a n hn
    obtain ⟨n2, e2, l2⟩ := h.1 a n1 e1
    exact ⟨n2, e2, le_trans l1 l2⟩
  · exact h.2 a

theorem sp_Swap_frame {w w' : World} {self other : Nat}
    (he : SharedPtr.Swap self other w = .ok w') : Frame w w' := by
  unfold SharedPtr.Swap at he
  cases hg1 : w.getShared self with
  | error e => simp [hg1, bind, Except.bind] at he
  | ok me =>
    cases hg2 : w.getShared other with
    | error e => simp [hg1, hg2, bind, Except.bind] at he
    | ok o =>
      simp only [hg1, hg2, bind, Except.bind, pure, Except.pure] at he
      cases he
      exact frame_swap (objs_mono_refl _) (getShared_ok hg1) (getShared_ok hg2) rfl

theorem sp_ctorCopy_frame {w w' : World} {other : Nat}
    (he : SharedPtr.ctorCopy other w = .ok w') : Frame w w' := by
  unfold SharedPtr.ctorCopy at he
  cases hg : w.getShared other with
  | error e => simp [hg, bind, Except.bind] at he
  | ok o =>
    cases hc : w.cell o.cnt_ with
    | error e => simp [hg, hc, bind, Except.bind] at he
    | ok r =>
      simp only [hg, hc, bind, Except.bind, pure, Except.pure] at he
      cases he
      exact frame_push (objs_mono_refl _) rfl

theorem sp_ctorWeak_frame {w w' : World} {other : Nat}
    (he : SharedPtr.ctorWeak other w = .ok w') : Frame w w' := by
  unfold SharedPtr.ctorWeak at he
  cases hg : w.getWeak other with
  | error e => simp [hg, bind, Except.bind] at he
  | ok o =>
    simp only [hg, WeakGet_eq hg, bind, Except.bind, pure, Except.pure] at he
    cases hx : WeakPtr.Expired other w with
    | error e => simp [hx] at he
    | ok x =>
      simp only [hx] at he
      cases x with
      | true => simp [throw, throwThe, MonadExceptOf.throw] at he
      | false =>
        simp only [Bool.false_eq_true, if_false] at he
        split at he
        · rename_i b a hb ha
          cases hc : w.cell (some b) with
          | error e => simp [hc] at he
          | ok r =>
            simp only [hc] at he
            cases he
            exact frame_push (objs_mono_refl _) rfl
        · cases he
          exact frame_push (objs_mono_refl _) rfl

theorem wp_ctorCopy_frame {w w' : World} {other : Nat}
    (he : WeakPtr.ctorCopy other w = .ok w') : Frame w w' := by
  unfold WeakPtr.ctorCopy at he
  cases hg : w.getWeak other with
  | error e => simp [hg, bind, Except.bind] at he
  | ok o =>
    simp only [hg, bind, Except.bind, pure, Except.pure] at he
    split at he
    · rename_i b a hb ha
      cases hc : w.cell (some b) with
      | error e => simp [hc] at he
      | ok r =>
        simp only [hc] at he
        cases he
        exact frame_push (objs_mono_refl _) rfl
    · cases he
      exact frame_push (objs_mono_refl _) rfl

theorem wp_ctorShared_frame {w w' : World} {other : Nat}
    (he : WeakPtr.ctorShared other w = .ok w') : Frame w w' := by
  unfold WeakPtr.ctorShared at he
  cases hg : w.getShared other with
  | error e => simp [hg, bind, Except.bind] at he
  | ok o =>
    simp only [hg, SharedGet_eq hg, bind, Except.bind, pure, Except.pure] at he
    split at he
    · rename_i a b ha hb
      cases hc : w.cell (some b) with
      | error e => simp [hc] at he
      | ok r =>
        simp only [hc] at he
        cases he
        exact frame_push (objs_mono_refl _) rfl
    · cases he
      exact frame_push (objs_mono_refl _) rfl

theorem wp_ctorMove_frame {w w' : World} {other : Nat}
    (he : WeakPtr.ctorMove other w = .ok w') : Frame w w' := by
  unfold WeakPtr.ctorMove at he
  cases hg : w.getWeak other with
  | error e => simp [hg, bind, Except.bind] at he
  | ok o =>
    simp only [hg, bind, Except.bind, pure, Except.pure] at he
    cases he
    have h1 : Frame w (w.setInst other (Inst.weak ⟨none, none⟩)) :=
      frame_set (objs_mono_refl _) (getWeak_ok hg) rfl
    exact frame_trans_up h1 (objs_mono_refl _) (fun a => by
      have := (tally_push (pushInst_insts (w.setInst other (Inst.weak ⟨none, none⟩))
        (Inst.weak ⟨o.ptr_, o.cnt_⟩))).2.2.1 a
      omega)

theorem wp_assignCopy_frame {w w' : World} {self other : Nat}
    (he : WeakPtr.assignCopy self other w = .ok w') : Frame w w' := by
  unfold WeakPtr.assignCopy at he
  cases hg1 : w.getWeak self with
  | error e => simp [hg1, bind, Except.bind] at he
  | ok me =>
    cases hg2 : w.getWeak other with
    | error e => simp [hg1, hg2, bind, Except.bind] at he
    | ok o =>
      simp only [hg1, hg2, bind, Except.bind, pure, Except.pure] at he
      by_cases hso : self = other
      · rw [if_pos hso] at he; cases he
        exact frame_same (objs_mono_refl _) rfl
      · rw [if_neg hso] at he
        cases hr : WeakPtr.Reset self w with
        | error e => simp [hr] at he
        | ok w1 =>
          obtain ⟨me1, hi, hins1, ho1⟩ := WeakReset_effect hr
          simp only [hr] at he
          cases hg3 : w1.getWeak other with
          | error e => simp [hg3] at he
          | ok o1 =>
            simp only [hg3] at he
            cases hc : (w1.setInst self (Inst.weak ⟨o1.ptr_, o1.cnt_⟩)).cell o1.cnt_ with
            | error e => simp [hc] at he
            | ok r =>
              simp only [hc] at he
              cases he
              refine frame_set (by rw [← ho1]; exact objs_mono_refl _) hi
                (show _ = w.insts.set self (some (Inst.weak ⟨o1.ptr_, o1.cnt_⟩)) from ?_)
              simp [hins1, List.set_set]

theorem wp_assignMove_frame {w w' : World} {self other : Nat}
    (he : WeakPtr.assignMove self other w = .ok w') : Frame w w' := by
  unfold WeakPtr.assignMove at he
  cases hg2 : w.getWeak other with
  | error e => simp [hg2, bind, Except.bind] at he
  | ok o0 =>
    simp only [hg2, bind, Except.bind, pure, Except.pure] at he
    cases hr : WeakPtr.Reset self w with
    | error e => simp [hr] at he
    | ok w1 =>
      obtain ⟨me1, hi, hins1, ho1⟩ := WeakReset_effect hr
      simp only [hr] at he
      cases hg3 : w1.getWeak other with
      | error e => simp [hg3] at he
      | ok o1 =>
        simp only [hg3] at he
        cases he
        refine ⟨by rw [← ho1]; exact objs_mono_refl _, fun a => ?_⟩
        exact move_shape hi hins1 (getWeak_ok hg3)
          (show _ = (w1.insts.set self (some (Inst.weak o1))).set other
            (some (Inst.weak ⟨none, none⟩)) from rfl) (fun _ => rfl) a

theorem wp_Reset_frame {w w' : World} {self : Nat}
    (he : WeakPtr.Reset self w = .ok w') : Frame w w' := by
  obtain ⟨me1, hi, hins1, ho1⟩ := WeakReset_effect he
  exact frame_set (by rw [ho1]; exact objs_mono_refl _) hi hins1

theorem wp_dtor_frame {w w' : World} {self : Nat}
    (he : WeakPtr.dtor self w = .ok w') : Frame w w' := by
  unfold WeakPtr.dtor at he
  cases hr : WeakPtr.Reset self w with
  | error e => simp [hr, bind, Except.bind] at he
  | ok w1 =>
    obtain ⟨me1, hi, hins1, ho1⟩ := WeakReset_effect hr
    simp only [hr, bind, Except.bind, pure, Except.pure] at he
    cases he
    refine frame_set (by rw [← ho1]; exact objs_mono_refl _) hi
      (show _ = w.insts.set self none from ?_)
    simp [hins1, List.set_set]

theorem wp_Swap_frame {w w' : World} {self other : Nat}
    (he : WeakPtr.Swap self other w = .ok w') : Frame w w' := by
  unfold WeakPtr.Swap at he
  cases hg1 : w.getWeak self with
  | error e => simp [hg1, bind, Except.bind] at he
  | ok me =>
    cases hg2 : w.getWeak other with
    | error e => simp [hg1, hg2, bind, Except.bind] at he
    | ok o =>
      simp only [hg1, hg2, bind, Except.bind, pure, Except.pure] at he
      cases he
      exact frame_swap (objs_mono_refl _) (getWeak_ok hg1) (getWeak_ok hg2) rfl

theorem wp_Lock_frame {w w' : World} {self : Nat}
    (he : WeakPtr.Lock self w = .ok w') : Frame w w' := by
  unfold WeakPtr.Lock at he
  cases hx : WeakPtr.Expired self w with
  | error e => simp [hx, bind, Except.bind] at he
  | ok e =>
    simp only [hx, bind, Except.bind] at he
    cases e with
    | true =>
      simp only [if_true] at he
      cases he
      exact frame_push (objs_mono_refl _) rfl
    | false => exact sp_ctorWeak_frame (by simpa using he)

/-- No call lowers a destructor count or takes more than one owner from an object. -/
theorem exec_frame {op : Op} {w w' : World} (he : exec op w = .ok w') : Frame w w' := by
  cases op with
  | sp_ctor => cases he; exact frame_push (objs_mono_refl _) rfl
  | sp_ctorRaw fresh =>
    cases fresh with
    | false => cases he; exact frame_push (objs_mono_refl _) rfl
    | true => cases he; exact frame_push (objs_mono_push _ _) rfl
  | sp_ctorCopy other => exact sp_ctorCopy_frame he
  | sp_ctorMove other => exact sp_ctorMove_frame he
  | sp_ctorWeak other => exact sp_ctorWeak_frame he
  | sp_assignCopy self other => exact sp_assignCopy_frame he
  | sp_assignMove self other => exact sp_assignMove_frame he
  | sp_dtor self => exact sp_dtor_frame he
  | sp_Reset self fresh =>
    cases fresh with
    | false => exact sp_Reset_frame (show SharedPtr.Reset self none w = _ from he)
    | true =>
      exact frame_newObj (sp_Reset_frame
        (show SharedPtr.Reset self (some w.newObj.2) w.newObj.1 = _ from he))
  | sp_Swap self other => exact sp_Swap_frame he
  | wp_ctor => cases he; exact frame_push (objs_mono_refl _) rfl
  | wp_ctorCopy other => exact wp_ctorCopy_frame he
  | wp_ctorMove other => exact wp_ctorMove_frame he
  | wp_ctorShared other => exact wp_ctorShared_frame he
  | wp_assignCopy self other => exact wp_assignCopy_frame he
  | wp_assignMove self other => exact wp_assignMove_frame he
  | wp_dtor self => exact wp_dtor_frame he
  | wp_Reset self => exact wp_Reset_frame he
  | wp_Swap self other => exact wp_Swap_frame he
  | wp_Lock self => exact wp_Lock_frame he

/-- A program that runs reaches a reachable state. -/
theorem Reachable.of_run {ops : List Op} {w w' : World} (h : Reachable w)
    (hr : run ops w = some w') : Reachable w' := by
  induction ops generalizing w with
  | nil => cases hr; exact h
  | cons op ops ih =>
    unfold run at hr
    split_ifs at hr with hl
    cases he : exec op w with
    | error e => simp [he] at hr
    | ok w1 =>
      simp only [he] at hr
      exact ih (Reachable.step op w w1 h hl he) hr

/-! ## Example states are reachable -/

theorem watchedWorld_reachable : Reachable watchedWorld :=
  Reachable.of_run Reachable.init
    (show run [.sp_ctorRaw true, .wp_ctorShared 0] World.init = some watchedWorld by decide)

theorem sharedWorld_reachable : Reachable sharedWorld :=
  Reachable.of_run Reachable.init
    (show run [.sp_ctorRaw true, .sp_ctorCopy 0, .wp_ctorShared 0] World.init
      = some sharedWorld by decide)

theorem expiredWorld_reachable : Reachable expiredWorld :=
  Reachable.of_run watchedWorld_reachable
    (show run [.sp_dtor 0] watchedWorld = some expiredWorld by decide)

theorem deadWorld_reachable : Reachable deadWorld :=
  Reachable.of_run expiredWorld_reachable
    (show run [.wp_dtor 1] expiredWorld = some deadWorld by decide)

/-! ## Counts and lifetimes in the reachable states -/

/-- While no `delete ptr_` has ended an instance (the states of `Reachable`), `delete`
has run on a control block at most once; it
has run exactly when no live `SharedPtr` and no live `WeakPtr` points to the block (both
counts have come down to zero), while on a block not yet deleted the two fields are these
two numbers; and the `cnt_` of every live instance points to a block not yet deleted. -/
theorem block_lifetime (w : World) (hr : Reachable w) :
    (∀ b k, w.cnts[b]? = some k →
      k.deletes ≤ 1 ∧ (k.deletes = 1 ↔ (w.strong b = 0 ∧ w.weak b = 0)) ∧
        (k.deletes = 0 → k.val.shared_cnt_ = w.strong b ∧ k.val.weak_cnt_ = w.weak b)) ∧
    (∀ (i : Nat) (v : Inst) (b : Nat), w.insts[i]? = some (some v) → Inst.cnt_ v = some b →
      ∃ k, w.cnts[b]? = some k ∧ k.deletes = 0) := by
  have h := hr.inv
  constructor
  · intro b k hk
    rcases h.blk b k hk with ⟨d, e1, e2, hpos⟩ | ⟨d, e1, e2⟩
    · exact ⟨by omega, ⟨fun hd => by omega, fun hz => by omega⟩, fun _ => ⟨e1, e2⟩⟩
    · exact ⟨by omega, ⟨fun _ => ⟨e1, e2⟩, fun _ => d⟩, fun hd => by omega⟩
  · intro i v b hi hb
    have hmem := List.getElem?_mem hi
    have hlt := (h.wf v hmem).2.2 b hb
    refine ⟨w.cnts[b], List.getElem?_eq_getElem hlt, ?_⟩
    rcases h.blk b _ (List.getElem?_eq_getElem hlt) with ⟨d, _⟩ | ⟨_, e1, e2⟩
    · exact d
    · exfalso
      cases v with
      | shared p => have := strong_pos_of_mem hmem hb; omega
      | weak p => have := weak_pos_of_mem hmem hb; omega


/-- Once the object is destroyed, every `WeakPtr` to it reports `Expired()`. -/
theorem destroyed_expired {w : World} (h : Inv w) {a k : Nat} {v : WeakPtr}
    (hn : w.objs[a]? = some 1) (hk : w.insts[k]? = some (some (.weak v)))
    (ha : v.ptr_ = some a) : WeakPtr.Expired k w = .ok true := by
  rw [Expired_eq h hk]
  have hmem := List.getElem?_mem hk
  cases hc : v.cnt_ with
  | none => rfl
  | some b =>
    have hs : w.strong b = 0 := by
      by_contra hne
      obtain ⟨p, hp, hpb⟩ := exists_of_strong_pos (Nat.pos_of_ne_zero hne)
      have hpa : p.ptr_ = some a := by
        have := (h.pair (Inst.shared p) (Inst.weak v) hp hmem).mpr (by simp [hpb, hc])
        simpa [ha] using this
      have hown := owners_pos_of_mem hp hpa
      rcases h.obj a 1 hn with ⟨e, _⟩ | ⟨_, ⟨e, _⟩ | ⟨_, e⟩⟩
      · cases e
      · cases e
      · omega
    simp [hs]

/-- With no pointer in flight an object is alive and owned, or destroyed and not owned. -/
theorem obj_cases {w : World} (h : Inv w) {a n : Nat} (hn : w.objs[a]? = some n) :
    (n = 0 ∧ 0 < w.owners a) ∨ (n = 1 ∧ w.owners a = 0) := by
  rcases h.obj a n hn with ⟨e, _⟩ | ⟨_, e⟩
  · cases e
  · exact e

/-- Closed form of `SharedPtr(const WeakPtr&)` in a state with the invariant. -/
theorem ctorWeak_eq {w : World} {f : Option Nat} {k : Nat} {me : WeakPtr} (h : InvF w f)
    (hk : w.insts[k]? = some (some (.weak me))) :
    (me.cnt_ = none → SharedPtr.ctorWeak k w = .error (.BadWeakPtr w)) ∧
    (∀ b c, me.cnt_ = some b → w.cnts[b]? = some c →
      (c.val.shared_cnt_ = 0 → SharedPtr.ctorWeak k w = .error (.BadWeakPtr w)) ∧
      (c.val.shared_cnt_ ≠ 0 → SharedPtr.ctorWeak k w =
        .ok ((w.setCounter b c ⟨c.val.shared_cnt_ + 1, c.val.weak_cnt_⟩).pushInst
          (.shared ⟨me.ptr_, me.cnt_⟩)))) := by
  have hg := getWeak_eq hk
  have hmem := List.getElem?_mem hk
  constructor
  · intro hc
    unfold SharedPtr.ctorWeak
    simp only [hg, WeakGet_eq hg, Expired_eq h hk, bind, Except.bind, pure, Except.pure, hc]
    rfl
  · intro b c hc hcell
    obtain ⟨a, k2, ha, _, hk2, hd, e1, e2, hpos, hmax, _⟩ := weak_facts h hmem hc
    have hkk : c = k2 := by rw [hcell] at hk2; exact Option.some.inj hk2
    subst hkk
    constructor
    · intro hz
      have hs : (w.strong b == 0) = true := by simp [← e1, hz]
      unfold SharedPtr.ctorWeak
      simp only [hg, WeakGet_eq hg, Expired_eq h hk, bind, Except.bind, pure, Except.pure, hc,
        hs]
      rfl
    · intro hz
      have hs : (w.strong b == 0) = false := by simp [← e1, hz]
      unfold SharedPtr.ctorWeak
      simp only [hg, WeakGet_eq hg, Expired_eq h hk, bind, Except.bind, pure, Except.pure, hc,
        hs, ha, cell_eq hcell, Bool.false_eq_true, if_false]
      rw [incr_eq (by omega)]

/-- C3: in a reachable state, constructing a `SharedPtr` from the live `WeakPtr` `k`
throws `BadWeakPtr` exactly when `k` is expired (`cnt_` null or `shared_cnt_ == 0`, which
is what `Expired()` returns); the state at the throw is the state before the call, so no
count has changed; it fails in no other way; and when it returns, only `shared_cnt_` of
the block of `k` has changed, by exactly plus one, and the new instance has the `Get()`
of `k`. -/
theorem C3_promotion (w : World) (hr : Reachable w) (k : Nat) (me : WeakPtr)
    (hk : w.insts[k]? = some (some (.weak me))) :
    ((∃ w0, SharedPtr.ctorWeak k w = .error (.BadWeakPtr w0)) ↔
      (me.cnt_ = none ∨ ∃ b c, me.cnt_ = some b ∧ w.cnts[b]? = some c ∧
        c.val.shared_cnt_ = 0)) ∧
    ((∃ w0, SharedPtr.ctorWeak k w = .error (.BadWeakPtr w0)) ↔
      WeakPtr.Expired k w = .ok true) ∧
    (∀ e, SharedPtr.ctorWeak k w = .error e → e = .BadWeakPtr w) ∧
    (∀ w', SharedPtr.ctorWeak k w = .ok w' →
      ∃ b c, me.cnt_ = some b ∧ w.cnts[b]? = some c ∧
        w'.cnts = w.cnts.set b ⟨⟨c.val.shared_cnt_ + 1, c.val.weak_cnt_⟩, c.deletes⟩ ∧
        w'.objs = w.objs ∧ w'.insts = w.insts ++ [some (.shared ⟨me.ptr_, me.cnt_⟩)] ∧
        SharedPtr.Get w.insts.length w' = WeakPtr.Get k w) := by
  have h := hr.inv
  have hmem := List.getElem?_mem hk
  obtain ⟨q1, q2⟩ := ctorWeak_eq h hk
  have hx := Expired_eq h hk
  cases hc : me.cnt_ with
  | none =>
    have e := q1 hc
    rw [hc] at hx
    refine ⟨⟨fun _ => Or.inl rfl, fun _ => ⟨w, e⟩⟩, ⟨fun _ => hx, fun _ => ⟨w, e⟩⟩, ?_, ?_⟩
    · intro e' he'; rw [e] at he'; cases he'; rfl
    · intro w' hw'; rw [e] at hw'; cases hw'
  | some b =>
    obtain ⟨a, c, ha, _, hcell, hd, e1, e2, hpos, hmax, _⟩ := weak_facts h hmem hc
    obtain ⟨r1, r2⟩ := q2 b c hc hcell
    rw [hc] at hx
    simp only at hx
    by_cases hz : c.val.shared_cnt_ = 0
    · have e := r1 hz
      have hs : (w.strong b == 0) = true := by simp [← e1, hz]
      rw [hs] at hx
      refine ⟨⟨fun _ => Or.inr ⟨b, c, rfl, hcell, hz⟩, fun _ => ⟨w, e⟩⟩,
        ⟨fun _ => hx, fun _ => ⟨w, e⟩⟩, ?_, ?_⟩
      · intro e' he'; rw [e] at he'; cases he'; rfl
      · intro w' hw'; rw [e] at hw'; cases hw'
    · have e := r2 hz
      have hs : (w.strong b == 0) = false := by simp [← e1, hz]
      rw [hs] at hx
      refine ⟨⟨fun ⟨w0, h0⟩ => ?_, fun hh => ?_⟩, ⟨fun ⟨w0, h0⟩ => ?_, fun hh => ?_⟩, ?_, ?_⟩
      · rw [e] at h0; cases h0
      · rcases hh with hh | ⟨b', c', hb', hc', hz'⟩
        · cases hh
        · cases hb'
          rw [hcell] at hc'; cases hc'
          exact absurd hz' hz
      · rw [e] at h0; cases h0
      · rw [hx] at hh; cases hh
      · intro e' he'; rw [e] at he'; cases he'
      · intro w' hw'
        rw [e] at hw'; cases hw'
        refine ⟨b, c, rfl, hcell, rfl, rfl, ?_, ?_⟩
        · simp [hc]
        · rw [WeakGet_eq (getWeak_eq hk)]
          simp [SharedPtr.Get, World.getShared, bind, Except.bind, pure, Except.pure]

theorem C3_promotion_witness :
    Reachable expiredWorld ∧
    expiredWorld.insts[1]? = some (some (.weak ⟨some 0, some 0⟩)) ∧
    SharedPtr.ctorWeak 1 expiredWorld = .error (.BadWeakPtr expiredWorld) ∧
    WeakPtr.Expired 1 expiredWorld = .ok true :=
  have h := C3_promotion expiredWorld expiredWorld_reachable 1 ⟨some 0, some 0⟩ rfl
  ⟨expiredWorld_reachable, rfl, rfl, h.2.1.mp ⟨expiredWorld, rfl⟩⟩

theorem getShared_push (w : World) (p : SharedPtr) :
    (w.pushInst (.shared p)).getShared w.insts.length = .ok p := by
  simp [World.getShared]

theorem getWeak_push {w : World} {k : Nat} {me : WeakPtr} (v : Inst)
    (hk : w.insts[k]? = some (some (.weak me))) : (w.pushInst v).getWeak k = .ok me := by
  have hlt : k < w.insts.length := (List.getElem?_eq_some.mp hk).1
  simp [World.getWeak, List.getElem?_append_left hlt, hk]

theorem getShared_push_old {w : World} {k : Nat} {me : SharedPtr} (v : Inst)
    (hk : w.insts[k]? = some (some (.shared me))) : (w.pushInst v).getShared k = .ok me := by
  have hlt : k < w.insts.length := (List.getElem?_eq_some.mp hk).1
  simp [World.getShared, List.getElem?_append_left hlt, hk]

theorem cell_setCounter {w : World} {b : Nat} {c : CounterCell} (v : Counter)
    (hc : w.cnts[b]? = some c) :
    (w.setCounter b c v).cell (some b) = .ok (b, ⟨v, c.deletes⟩) := by
  have hlt : b < w.cnts.length := (List.getElem?_eq_some.mp hc).1
  simp [World.cell, hlt]

/-- C4: in a reachable state `Lock()` on the live `WeakPtr` `k` always returns.  If `k`
is expired the returned `SharedPtr` is empty (`operator bool` false, `Get()` null,
`UseCount()` zero) and no block or object has changed.  Otherwise only `shared_cnt_` of
the block of `k` has changed, by exactly plus one, the returned `SharedPtr` has the
`Get()` of `k` and that `UseCount()`, and `k` is still not expired. -/
theorem C4_lock (w : World) (hr : Reachable w) (k : Nat) (me : WeakPtr)
    (hk : w.insts[k]? = some (some (.weak me))) :
    ∃ w', WeakPtr.Lock k w = .ok w' ∧
      (WeakPtr.Expired k w = .ok true ∨ WeakPtr.Expired k w = .ok false) ∧
      (WeakPtr.Expired k w = .ok true →
        w'.cnts = w.cnts ∧ w'.objs = w.objs ∧
        w'.insts = w.insts ++ [some (.shared ⟨none, none⟩)] ∧
        SharedPtr.toBool w.insts.length w' = .ok false ∧
        SharedPtr.Get w.insts.length w' = .ok none ∧
        SharedPtr.UseCount w.insts.length w' = .ok 0) ∧
      (WeakPtr.Expired k w = .ok false →
        ∃ b c, me.cnt_ = some b ∧ w.cnts[b]? = some c ∧
          w'.cnts = w.cnts.set b ⟨⟨c.val.shared_cnt_ + 1, c.val.weak_cnt_⟩, c.deletes⟩ ∧
          w'.objs = w.objs ∧ w'.insts = w.insts ++ [some (.shared ⟨me.ptr_, me.cnt_⟩)] ∧
          SharedPtr.Get w.insts.length w' = WeakPtr.Get k w ∧
          SharedPtr.UseCount w.insts.length w' = .ok (c.val.shared_cnt_ + 1) ∧
          WeakPtr.Expired k w' = .ok false) := by
  have h := hr.inv
  have hmem := List.getElem?_mem hk
  obtain ⟨q1, q2⟩ := ctorWeak_eq h hk
  have hx := Expired_eq h hk
  have hempty : ∀ w1 : World, w1 = w.pushInst (.shared ⟨none, none⟩) →
      w1.cnts = w.cnts ∧ w1.objs = w.objs ∧
        w1.insts = w.insts ++ [some (.shared ⟨none, none⟩)] ∧
        SharedPtr.toBool w.insts.length w1 = .ok false ∧
        SharedPtr.Get w.insts.length w1 = .ok none ∧
        SharedPtr.UseCount w.insts.length w1 = .ok 0 := by
    intro w1 h1
    subst h1
    refine ⟨rfl, rfl, rfl, ?_, ?_, ?_⟩ <;>
      simp [SharedPtr.toBool, SharedPtr.Get, SharedPtr.UseCount, getShared_push, bind,
        Except.bind, pure, Except.pure]
  cases hc : me.cnt_ with
  | none =>
    rw [hc] at hx
    refine ⟨w.pushInst (.shared ⟨none, none⟩), ?_, Or.inl hx, fun _ => hempty _ rfl, ?_⟩
    · simp [WeakPtr.Lock, hx, bind, Except.bind, SharedPtr.ctor]
    · intro hf; rw [hx] at hf; cases hf
  | some b =>
    obtain ⟨a, c, ha, _, hcell, hd, e1, e2, hpos, hmax, _⟩ := weak_facts h hmem hc
    obtain ⟨r1, r2⟩ := q2 b c hc hcell
    rw [hc] at hx
    simp only at hx
    by_cases hz : c.val.shared_cnt_ = 0
    · have hs : (w.strong b == 0) = true := by simp [← e1, hz]
      rw [hs] at hx
      refine ⟨w.pushInst (.shared ⟨none, none⟩), ?_, Or.inl hx, fun _ => hempty _ rfl, ?_⟩
      · simp [WeakPtr.Lock, hx, bind, Except.bind, SharedPtr.ctor]
      · intro hf; rw [hx] at hf; cases hf
    · have hs : (w.strong b == 0) = false := by simp [← e1, hz]
      rw [hs] at hx
      refine ⟨(w.setCounter b c ⟨c.val.shared_cnt_ + 1, c.val.weak_cnt_⟩).pushInst
        (.shared ⟨me.ptr_, me.cnt_⟩), ?_, Or.inr hx, ?_,
        fun _ => ⟨b, c, rfl, hcell, rfl, rfl, ?_, ?_, ?_, ?_⟩⟩
      · simp only [WeakPtr.Lock, hx, bind, Except.bind, Bool.false_eq_true, if_false]
        exact r2 hz
      · intro hf; rw [hx] at hf; cases hf
      · simp [hc]
      · rw [WeakGet_eq (getWeak_eq hk)]
        simp [SharedPtr.Get, World.getShared, bind, Except.bind, pure, Except.pure]
      · have hlt : b < w.cnts.length := (List.getElem?_eq_some.mp hcell).1
        simp [SharedPtr.UseCount, World.getShared, World.cell, bind, Except.bind, pure,
          Except.pure, hc, hlt]
      · have hlt : b < w.cnts.length := (List.getElem?_eq_some.mp hcell).1
        have hkl : k < w.insts.length := (List.getElem?_eq_some.mp hk).1
        simp [WeakPtr.Expired, World.getWeak, World.cell, bind, Except.bind, pure,
          Except.pure, hc, hlt, List.getElem?_append_left hkl, hk]

theorem C4_lock_witness :
    Reachable watchedWorld ∧ watchedWorld.insts[1]? = some (some (.weak ⟨some 0, some 0⟩)) ∧
    ∃ w', WeakPtr.Lock 1 watchedWorld = .ok w' ∧ SharedPtr.UseCount 2 w' = .ok 2 ∧
      WeakPtr.Expired 1 w' = .ok false := by
  obtain ⟨w', h1, _, _, h3⟩ :=
    C4_lock watchedWorld watchedWorld_reachable 1 ⟨some 0, some 0⟩ rfl
  obtain ⟨b, c, hb, hc, _, _, _, _, hu, he⟩ := h3 rfl
  cases hb
  cases hc
  exact ⟨watchedWorld_reachable, rfl, w', h1, hu, he⟩

/-! ## The two `Reset` rules -/

theorem decr_of_pos {n : Nat} (h0 : 0 < n) (h : n < SIZE_T_CARD) : decr n = n - 1 := by
  unfold decr
  unfold SIZE_T_CARD at h ⊢
  norm_num at h ⊢
  omega

theorem getShared_setInst (w : World) {i : Nat} (p : SharedPtr) (hi : i < w.insts.length) :
    (w.setInst i (.shared p)).getShared i = .ok p := by
  simp [World.getShared, hi]

/-- Where `delete ptr_` ends no instance: `Reset(p)` on a `SharedPtr` that holds the
object `a` and a block with counts
`(s, wk)`, `s ≥ 1`, always returns, and (a) for `s = 1`, `wk = 0` runs `delete` on the
object and on the block; (b) for `s = 1`, `wk > 0` runs `delete` on the object and leaves
the block with `(0, wk)`; (c) for `s > 1` destroys nothing and leaves the block with
`(s - 1, wk)`.  No other block, object or instance changes.  Afterwards the instance is
empty (`Get()` null, `UseCount()` zero) when `p` is null and holds `p` with a newly
allocated block `(1, 0)` when `p` is non-null. -/
theorem Reset_rule (w : World) (i : Nat) (me : SharedPtr) (p : Option Nat) (a b n : Nat)
    (c : CounterCell) (hi : w.insts[i]? = some (some (.shared me)))
    (hb : me.cnt_ = some b) (ha : me.ptr_ = some a) (hc : w.cnts[b]? = some c)
    (hn : w.objs[a]? = some n) (hs : 1 ≤ c.val.shared_cnt_)
    (hsz : c.val.shared_cnt_ < SIZE_T_CARD) :
    ∃ w', SharedPtr.Reset i p w = .ok w' ∧
      (c.val.shared_cnt_ = 1 ∧ c.val.weak_cnt_ = 0 →
        w'.objs = w.objs.set a (n + 1) ∧ w'.cnts[b]? = some ⟨c.val, c.deletes + 1⟩) ∧
      (c.val.shared_cnt_ = 1 ∧ 0 < c.val.weak_cnt_ →
        w'.objs = w.objs.set a (n + 1) ∧
          w'.cnts[b]? = some ⟨⟨0, c.val.weak_cnt_⟩, c.deletes⟩) ∧
      (1 < c.val.shared_cnt_ →
        w'.objs = w.objs ∧
          w'.cnts[b]? = some ⟨⟨c.val.shared_cnt_ - 1, c.val.weak_cnt_⟩, c.deletes⟩) ∧
      (∀ b', b' ≠ b → b' < w.cnts.length → w'.cnts[b']? = w.cnts[b']?) ∧
      (∀ j, j ≠ i → w'.insts[j]? = w.insts[j]?) ∧
      (p = none → w'.cnts.length = w.cnts.length ∧
        w'.insts[i]? = some (some (.shared ⟨none, none⟩)) ∧
        SharedPtr.Get i w' = .ok none ∧ SharedPtr.UseCount i w' = .ok 0) ∧
      (∀ a', p = some a' →
        w'.insts[i]? = some (some (.shared ⟨some a', some w.cnts.length⟩)) ∧
        w'.cnts[w.cnts.length]? = some ⟨⟨1, 0⟩, 0⟩ ∧
        w'.cnts.length = w.cnts.length + 1 ∧
        SharedPtr.Get i w' = .ok (some a') ∧ SharedPtr.UseCount i w' = .ok 1) := by
  have hlt : i < w.insts.length := (List.getElem?_eq_some.mp hi).1
  have hbl : b < w.cnts.length := (List.getElem?_eq_some.mp hc).1
  have hdel : w.deleteObj me.ptr_ = .ok { w with objs := w.objs.set a (n + 1) } := by
    simp [World.deleteObj, ha, hn]
  -- the state after the decrement rule, before the members are overwritten
  obtain ⟨w1, hw1, hins1, hlen1, hA, hB, hC, hD⟩ : ∃ w1 : World,
      (∀ q : Option Nat, SharedPtr.Reset i q w = .ok
        (match q with
          | none => w1.setInst i (.shared ⟨none, none⟩)
          | some a' => (w1.newCounter 1 0).1.setInst i
              (.shared ⟨some a', some (w1.newCounter 1 0).2⟩))) ∧
      w1.insts = w.insts ∧ w1.cnts.length = w.cnts.length ∧
      (c.val.shared_cnt_ = 1 ∧ c.val.weak_cnt_ = 0 →
        w1.objs = w.objs.set a (n + 1) ∧ w1.cnts[b]? = some ⟨c.val, c.deletes + 1⟩) ∧
      (c.val.shared_cnt_ = 1 ∧ 0 < c.val.weak_cnt_ →
        w1.objs = w.objs.set a (n + 1) ∧
          w1.cnts[b]? = some ⟨⟨0, c.val.weak_cnt_⟩, c.deletes⟩) ∧
      (1 < c.val.shared_cnt_ →
        w1.objs = w.objs ∧
          w1.cnts[b]? = some ⟨⟨c.val.shared_cnt_ - 1, c.val.weak_cnt_⟩, c.deletes⟩) ∧
      (∀ b', b' ≠ b → w1.cnts[b']? = w.cnts[b']?) := by
    by_cases c1 : c.val.shared_cnt_ = 1 ∧ c.val.weak_cnt_ = 0
    · refine ⟨(World.mk w.cnts (w.objs.set a (n + 1)) w.insts).deleteCnt b c, ?_, rfl,
        by simp, fun _ => ⟨rfl, by simp [hbl]⟩, fun h => by omega, fun h => by omega,
        fun b' hb' => by simp [List.getElem?_set_ne (Ne.symm hb')]⟩
      intro q
      unfold SharedPtr.Reset
      simp only [getShared_eq hi, hb, cell_eq hc, hdel, bind, Except.bind, pure,
        Except.pure, if_pos c1]
      cases q <;> rfl
    · by_cases c2 : c.val.shared_cnt_ = 1
      · have hd : decr c.val.shared_cnt_ = 0 := by rw [decr_of_pos hs hsz, c2]
        refine ⟨(World.mk w.cnts (w.objs.set a (n + 1)) w.insts).setCounter b c
          ⟨0, c.val.weak_cnt_⟩, ?_, rfl, by simp, fun h => absurd h c1,
          fun _ => ⟨rfl, by simp [hbl]⟩, fun h => by omega,
          fun b' hb' => by simp [List.getElem?_set_ne (Ne.symm hb')]⟩
        intro q
        unfold SharedPtr.Reset
        simp only [getShared_eq hi, hb, cell_eq hc, hdel, bind, Except.bind, pure,
          Except.pure, if_neg c1, if_pos c2, hd]
        cases q <;> rfl
      · have c3 : c.val.shared_cnt_ ≠ 0 := by omega
        have hd : decr c.val.shared_cnt_ = c.val.shared_cnt_ - 1 := decr_of_pos hs hsz
        refine ⟨w.setCounter b c ⟨c.val.shared_cnt_ - 1, c.val.weak_cnt_⟩, ?_, rfl, by simp,
          fun h => absurd h c1, fun h => absurd h.1 c2, fun _ => ⟨rfl, by simp [hbl]⟩,
          fun b' hb' => by simp [List.getElem?_set_ne (Ne.symm hb')]⟩
        intro q
        unfold SharedPtr.Reset
        simp only [getShared_eq hi, hb, cell_eq hc, bind, Except.bind, pure,
          Except.pure, if_neg c1, if_neg c2, if_pos c3, hd]
        cases q <;> rfl
  have hlt1 : i < w1.insts.length := by rw [hins1]; exact hlt
  cases p with
  | none =>
    refine ⟨_, hw1 none, ?_, ?_, ?_, ?_, ?_, ?_, ?_⟩
    · intro h; exact hA h
    · intro h; exact hB h
    · intro h; exact hC h
    · intro b' hb' _; exact hD b' hb'
    · intro j hj
      simp [hins1, List.getElem?_set_ne (Ne.symm hj)]
    · intro _
      refine ⟨hlen1, by simp [hlt1], ?_, ?_⟩ <;>
        simp [SharedPtr.Get, SharedPtr.UseCount, getShared_setInst _ _ hlt1, bind,
          Except.bind, pure, Except.pure]
    · intro a' ha'; cases ha'
  | some a0 =>
    have hbl1 : b < w1.cnts.length := by rw [hlen1]; exact hbl
    refine ⟨_, hw1 (some a0), ?_, ?_, ?_, ?_, ?_, ?_, ?_⟩
    · intro h
      obtain ⟨e1, e2⟩ := hA h
      exact ⟨e1, by simp [List.getElem?_append_left hbl1, e2]⟩
    · intro h
      obtain ⟨e1, e2⟩ := hB h
      exact ⟨e1, by simp [List.getElem?_append_left hbl1, e2]⟩
    · intro h
      obtain ⟨e1, e2⟩ := hC h
      exact ⟨e1, by simp [List.getElem?_append_left hbl1, e2]⟩
    · intro b' hb' hlt'
      have : b' < w1.cnts.length := by rw [hlen1]; exact hlt'
      simp [List.getElem?_append_left this, hD b' hb']
    · intro j hj
      simp [hins1, List.getElem?_set_ne (Ne.symm hj)]
    · intro h; cases h
    · intro a' ha'
      cases ha'
      refine ⟨by simp [hlt1, hlen1], by simp [← hlen1], by simp [hlen1], ?_, ?_⟩
      · simp [SharedPtr.Get, World.getShared, hlt1, bind, Except.bind, pure, Except.pure]
      · simp [SharedPtr.UseCount, World.getShared, World.cell, hlt1, bind, Except.bind,
          pure, Except.pure]


/-- C8: `WeakPtr::Reset()` on a live `WeakPtr` that is empty, or holds a block with counts
`(s, wk)`, `wk ≥ 1`, always returns; it runs `delete` on the block when `wk = 1` and
`s = 0` and otherwise leaves the block with `(s, wk - 1)`; it changes no other block, no
object (so it never destroys the managed object) and never `s`; and in every case the
instance ends with `ptr_ == nullptr` and `cnt_ == nullptr`. -/
theorem C8_weak_reset_rule (w : World) (i : Nat) (me : WeakPtr)
    (hi : w.insts[i]? = some (some (.weak me)))
    (hc : ∀ b, me.cnt_ = some b → ∃ c, w.cnts[b]? = some c ∧ 1 ≤ c.val.weak_cnt_ ∧
      c.val.weak_cnt_ < SIZE_T_CARD) :
    ∃ w', WeakPtr.Reset i w = .ok w' ∧ w'.objs = w.objs ∧
      w'.insts = w.insts.set i (some (.weak ⟨none, none⟩)) ∧
      (me.cnt_ = none → w'.cnts = w.cnts) ∧
      (∀ b c, me.cnt_ = some b → w.cnts[b]? = some c →
        (c.val.weak_cnt_ = 1 ∧ c.val.shared_cnt_ = 0 →
          w'.cnts = w.cnts.set b ⟨c.val, c.deletes + 1⟩) ∧
        (¬(c.val.weak_cnt_ = 1 ∧ c.val.shared_cnt_ = 0) →
          w'.cnts = w.cnts.set b ⟨⟨c.val.shared_cnt_, c.val.weak_cnt_ - 1⟩, c.deletes⟩)) := by
  cases hcnt : me.cnt_ with
  | none =>
    refine ⟨w.setInst i (.weak ⟨none, none⟩), ?_, rfl, rfl, fun _ => rfl, ?_⟩
    · unfold WeakPtr.Reset
      simp only [getWeak_eq hi, hcnt, bind, Except.bind, pure, Except.pure]
    · intro b c hb; cases hb
  | some b =>
    obtain ⟨c, hcell, h1, hsz⟩ := hc b hcnt
    by_cases c1 : c.val.weak_cnt_ = 1 ∧ c.val.shared_cnt_ = 0
    · refine ⟨(w.deleteCnt b c).setInst i (.weak ⟨none, none⟩), ?_, rfl, rfl, ?_, ?_⟩
      · unfold WeakPtr.Reset
        simp only [getWeak_eq hi, hcnt, cell_eq hcell, bind, Except.bind, pure, Except.pure,
          if_pos c1]
      · intro h; cases h
      · intro b' c' hb' hc'
        cases hb'
        rw [hcell] at hc'; cases hc'
        exact ⟨fun _ => rfl, fun h => absurd c1 h⟩
    · have c3 : c.val.weak_cnt_ ≠ 0 := by omega
      refine ⟨(w.setCounter b c ⟨c.val.shared_cnt_, c.val.weak_cnt_ - 1⟩).setInst i
        (.weak ⟨none, none⟩), ?_, rfl, rfl, ?_, ?_⟩
      · unfold WeakPtr.Reset
        simp only [getWeak_eq hi, hcnt, cell_eq hcell, bind, Except.bind, pure, Except.pure,
          if_neg c1, if_pos c3, decr_of_pos h1 hsz]
      · intro h; cases h
      · intro b' c' hb' hc'
        cases hb'
        rw [hcell] at hc'; cases hc'
        exact ⟨fun h => absurd h c1, fun _ => rfl⟩

theorem C8_weak_reset_rule_witness :
    expiredWorld.insts[1]? = some (some (.weak ⟨some 0, some 0⟩)) ∧
    ∃ w', WeakPtr.Reset 1 expiredWorld = .ok w' ∧ w'.objs = expiredWorld.objs ∧
      w'.insts = expiredWorld.insts.set 1 (some (.weak ⟨none, none⟩)) ∧
      w'.cnts = expiredWorld.cnts.set 0 ⟨⟨0, 1⟩, 1⟩ := by
  obtain ⟨w', h1, h2, h3, _, h5⟩ :=
    C8_weak_reset_rule expiredWorld 1 ⟨some 0, some 0⟩ rfl
      (fun b hb => ⟨⟨⟨0, 1⟩, 0⟩, by cases hb; rfl, by decide, by decide⟩)
  exact ⟨rfl, w', h1, h2, h3, (h5 0 ⟨⟨0, 1⟩, 0⟩ rfl rfl).1 ⟨rfl, rfl⟩⟩

/-! ## Moving and copying a `SharedPtr` -/

theorem crowdWorld_reachable : Reachable crowdWorld :=
  Reachable.of_run Reachable.init
    (show run [.sp_ctorRaw true, .sp_ctorRaw true, .sp_ctorCopy 1] World.init
      = some crowdWorld by decide)

/-- `Reset()` touches no block other than the one the instance held. -/
theorem Reset_none_cnts {w w1 : World} {i : Nat} {me : SharedPtr}
    (hi : w.insts[i]? = some (some (.shared me)))
    (he : SharedPtr.Reset i none w = .ok w1) :
    (∀ b, me.cnt_ ≠ some b → w1.cnts[b]? = w.cnts[b]?) ∧ (me.cnt_ = none → w1.cnts = w.cnts) := by
  unfold SharedPtr.Reset at he
  simp only [getShared_eq hi, bind, Except.bind, pure, Except.pure] at he
  cases hc : me.cnt_ with
  | none =>
    simp only [hc] at he
    cases he
    exact ⟨fun _ _ => rfl, fun _ => rfl⟩
  | some b0 =>
    simp only [hc] at he
    cases hcell : w.cell (some b0) with
    | error e => simp [hcell] at he
    | ok r =>
      obtain ⟨hr1, _⟩ := cell_ok hcell
      have hr1 : r.1 = b0 := (Option.some.inj hr1).symm
      simp only [hcell] at he
      refine ⟨fun b hb => ?_, fun h => by cases h⟩
      have hne : r.1 ≠ b := by rw [hr1]; intro e; exact hb (by rw [e])
      cases hdel : w.deleteObj me.ptr_ with
      | error e =>
        simp only [hdel] at he
        split_ifs at he <;> cases he <;> simp [List.getElem?_set_ne hne]
      | ok w0 =>
        obtain ⟨d1, _, _⟩ := deleteObj_effect hdel
        simp only [hdel] at he
        split_ifs at he <;> cases he <;> simp [List.getElem?_set_ne hne, d1]



/-- `UseCount()` of a non-empty `SharedPtr` reads `shared_cnt_` of its block. -/
theorem UseCount_eq {w : World} {i b : Nat} {p : SharedPtr} {c : CounterCell}
    (hi : w.insts[i]? = some (some (.shared p))) (hb : p.cnt_ = some b)
    (hc : w.cnts[b]? = some c) : SharedPtr.UseCount i w = .ok c.val.shared_cnt_ := by
  simp [SharedPtr.UseCount, getShared_eq hi, hb, cell_eq hc, bind, Except.bind, pure,
    Except.pure]

/-- Where `delete ptr_` ends no instance: in a reachable state let `i` be a live
non-empty `SharedPtr` with
`UseCount() == n`.  Copy construction from `i` returns, the copy has the `Get()` of `i`,
both report `UseCount() == n + 1`, and nothing else changes (every `weak_cnt_`, every
other block, every object).  Copy assignment of `i` to itself returns the state
unchanged.  Copy assignment of `i` to a distinct live `SharedPtr` `t` is `t.Reset()`
followed by `t` taking the members of `i` and one increment of `shared_cnt_` of the block
of `i`; afterwards `t.Get() == i.Get()` and `t.UseCount() == i.UseCount()`, which is `n`
when `t` held the block of `i` before and `n + 1` otherwise. -/
theorem copy_rule (w : World) (hr : Reachable w) (i b n : Nat) (o : SharedPtr)
    (hi : w.insts[i]? = some (some (.shared o))) (hb : o.cnt_ = some b)
    (hn : SharedPtr.UseCount i w = .ok n) :
    (∃ w', SharedPtr.ctorCopy i w = .ok w' ∧
      SharedPtr.Get w.insts.length w' = SharedPtr.Get i w' ∧
      SharedPtr.Get i w' = SharedPtr.Get i w ∧
      SharedPtr.UseCount i w' = .ok (n + 1) ∧
      SharedPtr.UseCount w.insts.length w' = .ok (n + 1) ∧
      (∀ c, w.cnts[b]? = some c →
        w'.cnts[b]? = some ⟨⟨c.val.shared_cnt_ + 1, c.val.weak_cnt_⟩, c.deletes⟩) ∧
      (∀ b', b' ≠ b → w'.cnts[b']? = w.cnts[b']?) ∧ w'.objs = w.objs) ∧
    SharedPtr.assignCopy i i w = .ok w ∧
    (∀ (t : Nat) (me : SharedPtr), t ≠ i → w.insts[t]? = some (some (.shared me)) →
      ∃ w1 w', SharedPtr.Reset t none w = .ok w1 ∧ SharedPtr.assignCopy t i w = .ok w' ∧
        (∃ c1, w1.cnts[b]? = some c1 ∧
          w'.cnts = w1.cnts.set b ⟨⟨c1.val.shared_cnt_ + 1, c1.val.weak_cnt_⟩, c1.deletes⟩) ∧
        w'.objs = w1.objs ∧ w'.insts = w1.insts.set t (some (.shared o)) ∧
        SharedPtr.Get t w' = SharedPtr.Get i w' ∧ SharedPtr.Get i w' = .ok o.ptr_ ∧
        SharedPtr.UseCount t w' = SharedPtr.UseCount i w' ∧
        (me.cnt_ = some b → SharedPtr.UseCount i w' = .ok n) ∧
        (me.cnt_ ≠ some b → SharedPtr.UseCount i w' = .ok (n + 1))) := by
  have h := hr.inv
  have hmem := List.getElem?_mem hi
  have hli : i < w.insts.length := (List.getElem?_eq_some.mp hi).1
  obtain ⟨a, c, ha, _, hc, hd, e1, e2, hpos, hmax, _⟩ := shared_facts h hmem hb
  have hlb : b < w.cnts.length := (List.getElem?_eq_some.mp hc).1
  have hnc : n = c.val.shared_cnt_ := by
    rw [UseCount_eq hi hb hc] at hn
    exact (Except.ok.inj hn).symm
  subst hnc
  refine ⟨?_, ?_, ?_⟩
  · refine ⟨(w.setCounter b c ⟨c.val.shared_cnt_ + 1, c.val.weak_cnt_⟩).pushInst
      (.shared ⟨o.ptr_, o.cnt_⟩), ?_, ?_, ?_, ?_, ?_, ?_, ?_, rfl⟩
    · unfold SharedPtr.ctorCopy
      simp only [getShared_eq hi, hb, cell_eq hc, bind, Except.bind, pure, Except.pure]
      rw [incr_eq (by omega)]
    · simp [SharedPtr.Get, World.getShared, hli, List.getElem?_append_left, hi, bind,
        Except.bind, pure, Except.pure]
    · simp [SharedPtr.Get, World.getShared, hli, List.getElem?_append_left, hi, bind,
        Except.bind, pure, Except.pure]
    · simp [SharedPtr.UseCount, World.getShared, World.cell, hli,
        List.getElem?_append_left, hi, hb, hlb, bind, Except.bind, pure, Except.pure]
    · simp [SharedPtr.UseCount, World.getShared, World.cell, hb, hlb, bind, Except.bind,
        pure, Except.pure]
    · intro c' hc'
      rw [hc] at hc'; cases hc'
      simp [hlb]
    · intro b' hb'
      simp [List.getElem?_set_ne (Ne.symm hb')]
  · simp [SharedPtr.assignCopy, getShared_eq hi, bind, Except.bind, pure, Except.pure]
  · intro t me hti ht
    have hlt : t < w.insts.length := (List.getElem?_eq_some.mp ht).1
    obtain ⟨w1, hr1, h1, hins1, _, _⟩ := Reset_none_inv h ht
    have hi1 : w1.insts[i]? = some (some (.shared o)) := by
      rw [hins1, List.getElem?_set_ne hti]; exact hi
    have hli1 : i < w1.insts.length := (List.getElem?_eq_some.mp hi1).1
    have hlt1 : t < w1.insts.length := by rw [hins1]; simpa using hlt
    obtain ⟨a1, c1, _, _, hc1, hd1, f1, f2, hpos1, hmax1, _⟩ :=
      shared_facts h1 (List.getElem?_mem hi1) hb
    have hlb1 : b < w1.cnts.length := (List.getElem?_eq_some.mp hc1).1
    have htal := (tally_set ht hins1).1 b
    simp only [holdsShared_shared] at htal
    refine ⟨w1, (w1.setInst t (.shared ⟨o.ptr_, o.cnt_⟩)).setCounter b c1
      ⟨c1.val.shared_cnt_ + 1, c1.val.weak_cnt_⟩, hr1, ?_, ⟨c1, hc1, rfl⟩, rfl, rfl,
      ?_, ?_, ?_, ?_, ?_⟩
    · unfold SharedPtr.assignCopy
      simp only [getShared_eq ht, getShared_eq hi, hr1, getShared_eq hi1, bind, Except.bind,
        pure, Except.pure, if_neg hti, hb]
      have : (w1.setInst t (.shared ⟨o.ptr_, some b⟩)).cell (some b) = .ok (b, c1) := by
        simp [World.cell, hc1]
      simp only [this]
      rw [incr_eq (by omega)]
    · simp [SharedPtr.Get, World.getShared, hlt1, List.getElem?_set_ne hti, hi1, bind,
        Except.bind, pure, Except.pure]
    · simp [SharedPtr.Get, World.getShared, List.getElem?_set_ne hti, hi1, bind,
        Except.bind, pure, Except.pure]
    · simp [SharedPtr.UseCount, World.getShared, World.cell, hlt1,
        List.getElem?_set_ne hti, hi1, hb, hlb1, bind, Except.bind, pure, Except.pure]
    · intro hme
      have : c1.val.shared_cnt_ + 1 = c.val.shared_cnt_ := by
        simp [hme] at htal; omega
      simp [SharedPtr.UseCount, World.getShared, World.cell,
        List.getElem?_set_ne hti, hi1, hb, hlb1, bind, Except.bind, pure, Except.pure, this]
    · intro hme
      have : c1.val.shared_cnt_ = c.val.shared_cnt_ := by
        have hf : (me.cnt_ == some b) = false := by simpa using hme
        simp [hf] at htal; omega
      simp [SharedPtr.UseCount, World.getShared, World.cell,
        List.getElem?_set_ne hti, hi1, hb, hlb1, bind, Except.bind, pure, Except.pure, this]


/-! ## Structure of a live `SharedPtr`, and copies of empty instances -/

theorem emptySharedWorld_reachable : Reachable emptySharedWorld :=
  Reachable.of_run Reachable.init
    (show run [.sp_ctor] World.init = some emptySharedWorld by decide)

theorem emptyAndOwnerWorld_reachable : Reachable emptyAndOwnerWorld :=
  Reachable.of_run Reachable.init
    (show run [.sp_ctor, .sp_ctorRaw true] World.init = some emptyAndOwnerWorld by decide)

theorem emptyWeakWorld_reachable : Reachable emptyWeakWorld :=
  Reachable.of_run Reachable.init
    (show run [.wp_ctor, .wp_ctor] World.init = some emptyWeakWorld by decide)

/-- C18, the code at the failing input: in the reachable state after
`SharedPtr<T> e; SharedPtr<T> t(new T);` both `SharedPtr<T> c(e)` and `t = e` reach
`++cnt_->shared_cnt_` with `cnt_ == nullptr`. -/
theorem C18_copy_of_empty_derefs_null :
    Reachable emptyAndOwnerWorld ∧
    SharedPtr.ctorCopy 0 emptyAndOwnerWorld = .error .nullDeref ∧
    SharedPtr.assignCopy 1 0 emptyAndOwnerWorld = .error .nullDeref :=
  ⟨emptyAndOwnerWorld_reachable, rfl, rfl⟩

/-- C13, the code at the failing input: in the reachable state after
`WeakPtr<T> t; WeakPtr<T> o;` the assignment `t = o` reaches `++cnt_->weak_cnt_` with
`cnt_ == nullptr`, while the copy constructor from the same `o`, which tests `cnt_`
first, returns. -/
theorem C13_weak_assign_from_empty_derefs_null :
    Reachable emptyWeakWorld ∧
    WeakPtr.assignCopy 0 1 emptyWeakWorld = .error .nullDeref ∧
    WeakPtr.ctorCopy 1 emptyWeakWorld =
      .ok (emptyWeakWorld.pushInst (.weak ⟨none, none⟩)) :=
  ⟨emptyWeakWorld_reachable, rfl, rfl⟩

/-! ## What a call does to the control blocks -/

theorem sharedKept_refl (l : List CounterCell) : sharedKept l l :=
  fun _ k hk => ⟨k, hk, rfl, le_rfl⟩

theorem sharedKept_trans {l1 l2 l3 : List CounterCell} (h1 : sharedKept l1 l2)
    (h2 : sharedKept l2 l3) : sharedKept l1 l3 := by
  intro b k hk
  obtain ⟨k2, e2, s2, d2⟩ := h1 b k hk
  obtain ⟨k3, e3, s3, d3⟩ := h2 b k2 e2
  exact ⟨k3, e3, s3.trans s2, le_trans d2 d3⟩

theorem sharedKept_set {l : List CounterCell} {b : Nat} {k k2 : CounterCell}
    (hk : l[b]? = some k) (hs : k2.val.shared_cnt_ = k.val.shared_cnt_)
    (hd : k.deletes ≤ k2.deletes) : sharedKept l (l.set b k2) := by
  intro b' k' hk'
  have hlt : b < l.length := (List.getElem?_eq_some.mp hk).1
  by_cases hbb : b = b'
  · subst hbb
    rw [hk] at hk'; cases hk'
    exact ⟨k2, by simp [hlt], hs, hd⟩
  · exact ⟨k', by rw [List.getElem?_set_ne hbb]; exact hk', rfl, le_rfl⟩

theorem noRevive_of_sharedKept {l l' : List CounterCell} (h : sharedKept l l') :
    noRevive l l' := by
  intro b k hk
  obtain ⟨k', e, s, d⟩ := h b k hk
  exact ⟨k', e, d, fun hz => by rw [s]; exact hz⟩

theorem noRevive_refl (l : List CounterCell) : noRevive l l :=
  fun _ k hk => ⟨k, hk, le_rfl, fun h => h⟩

theorem noRevive_trans {l1 l2 l3 : List CounterCell} (h1 : noRevive l1 l2)
    (h2 : noRevive l2 l3) : noRevive l1 l3 := by
  intro b k hk
  obtain ⟨k2, e2, d2, s2⟩ := h1 b k hk
  obtain ⟨k3, e3, d3, s3⟩ := h2 b k2 e2
  exact ⟨k3, e3, le_trans d2 d3, fun hz => s3 (s2 hz)⟩

theorem noRevive_set {l : List CounterCell} {b : Nat} {k k2 : CounterCell}
    (hk : l[b]? = some k) (hd : k.deletes ≤ k2.deletes)
    (hs : k.val.shared_cnt_ = 0 → k2.val.shared_cnt_ = 0) : noRevive l (l.set b k2) := by
  intro b' k' hk'
  have hlt : b < l.length := (List.getElem?_eq_some.mp hk).1
  by_cases hbb : b = b'
  · subst hbb
    rw [hk] at hk'; cases hk'
    exact ⟨k2, by simp [hlt], hd, hs⟩
  · exact ⟨k', by rw [List.getElem?_set_ne hbb]; exact hk', le_rfl, fun h => h⟩

theorem noRevive_push (l : List CounterCell) (x : CounterCell) : noRevive l (l ++ [x]) := by
  intro b k hk
  have hlt : b < l.length := (List.getElem?_eq_some.mp hk).1
  exact ⟨k, by rw [List.getElem?_append_left hlt]; exact hk, le_rfl, fun h => h⟩

theorem sharedKept_setCounter {w : World} {b : Nat} {k : CounterCell} (v : Counter)
    (hk : w.cnts[b]? = some k) (hs : v.shared_cnt_ = k.val.shared_cnt_) :
    sharedKept w.cnts (w.setCounter b k v).cnts :=
  sharedKept_set hk hs le_rfl

/-- `WeakPtr::Reset` keeps every `shared_cnt_`. -/
theorem WeakReset_sharedKept {w w' : World} {i : Nat} (he : WeakPtr.Reset i w = .ok w') :
    sharedKept w.cnts w'.cnts := by
  unfold WeakPtr.Reset at he
  cases hg : w.getWeak i with
  | error e => simp [hg, bind, Except.bind] at he
  | ok me =>
    simp only [hg, bind, Except.bind, pure, Except.pure] at he
    cases hc : me.cnt_ with
    | none => simp only [hc] at he; cases he; exact sharedKept_refl _
    | some b =>
      simp only [hc] at he
      cases hcell : w.cell (some b) with
      | error e => simp [hcell] at he
      | ok r =>
        obtain ⟨_, hk⟩ := cell_ok hcell
        simp only [hcell] at he
        split_ifs at he <;> cases he
        · exact sharedKept_set hk rfl (Nat.le_succ _)
        · rw [setInst_cnts]
          exact sharedKept_setCounter _ hk rfl
        · exact sharedKept_refl _

/-- `SharedPtr::Reset` never raises a `shared_cnt_` that is zero. -/
theorem Reset_noRevive {w w' : World} {i : Nat} {p : Option Nat}
    (he : SharedPtr.Reset i p w = .ok w') : noRevive w.cnts w'.cnts := by
  unfold SharedPtr.Reset at he
  cases hg : w.getShared i with
  | error e => simp [hg, bind, Except.bind] at he
  | ok me =>
    simp only [hg, bind, Except.bind, pure, Except.pure] at he
    have hfin : ∀ w1 : World, noRevive w.cnts w1.cnts →
        (match p with
          | none => (Except.ok (w1.setInst i (.shared ⟨none, none⟩)) : Except Err World)
          | some a => Except.ok ((w1.newCounter 1 0).1.setInst i
              (.shared ⟨some a, some (w1.newCounter 1 0).2⟩))) = .ok w' →
        noRevive w.cnts w'.cnts := by
      intro w1 h1 h2
      cases p with
      | none => cases h2; exact h1
      | some a => cases h2; exact noRevive_trans h1 (noRevive_push _ _)
    cases hc : me.cnt_ with
    | none => simp only [hc] at he; exact hfin w (noRevive_refl _) he
    | some b =>
      simp only [hc] at he
      cases hcell : w.cell (some b) with
      | error e => simp [hcell] at he
      | ok r =>
        obtain ⟨_, hk⟩ := cell_ok hcell
        simp only [hcell] at he
        cases hdel : w.deleteObj me.ptr_ with
        | error e =>
          simp only [hdel] at he
          split_ifs at he with c1 c2 c3
          · refine hfin _ ?_ he
            simp only [setCounter_cnts]
            exact noRevive_set hk le_rfl (fun hz => absurd hz c3)
          · exact hfin _ (noRevive_refl _) he
        | ok w0 =>
          obtain ⟨d1, _, _⟩ := deleteObj_effect hdel
          have hk0 : w0.cnts[r.1]? = some r.2 := by rw [d1]; exact hk
          simp only [hdel] at he
          split_ifs at he with c1 c2 c3
          · refine hfin _ ?_ he
            simp only [deleteCnt_cnts, d1]
            exact noRevive_set hk (Nat.le_succ _) (fun hz => hz)
          · refine hfin _ ?_ he
            simp only [setCounter_cnts, d1]
            exact noRevive_set hk le_rfl (fun hz => by omega)
          · refine hfin _ ?_ he
            simp only [setCounter_cnts]
            exact noRevive_set hk le_rfl (fun hz => absurd hz c3)
          · exact hfin _ (noRevive_refl _) he

/-- A call on a `WeakPtr` other than `Lock()` keeps every `shared_cnt_` and every
object, in any state. -/
theorem weakOnly_kept {op : Op} {w w' : World} (hop : op.weakOnly = true)
    (he : exec op w = .ok w') : sharedKept w.cnts w'.cnts ∧ w'.objs = w.objs := by
  cases op with
  | wp_ctor => cases he; exact ⟨sharedKept_refl _, rfl⟩
  | wp_ctorCopy other =>
    simp only [exec] at he
    unfold WeakPtr.ctorCopy at he
    cases hg : w.getWeak other with
    | error e => simp [hg, bind, Except.bind] at he
    | ok o =>
      simp only [hg, bind, Except.bind, pure, Except.pure] at he
      split at he
      · rename_i b a hb ha
        cases hc : w.cell (some b) with
        | error e => simp [hc] at he
        | ok r =>
          obtain ⟨hb1, hk⟩ := cell_ok hc
          obtain ⟨rb, rk⟩ := r
          cases hb1
          simp only [hc] at he
          cases he
          exact ⟨sharedKept_setCounter _ hk rfl, rfl⟩
      · cases he; exact ⟨sharedKept_refl _, rfl⟩
  | wp_ctorMove other =>
    simp only [exec] at he
    unfold WeakPtr.ctorMove at he
    cases hg : w.getWeak other with
    | error e => simp [hg, bind, Except.bind] at he
    | ok o =>
      simp only [hg, bind, Except.bind, pure, Except.pure] at he
      cases he; exact ⟨sharedKept_refl _, rfl⟩
  | wp_ctorShared other =>
    simp only [exec] at he
    unfold WeakPtr.ctorShared at he
    cases hg : w.getShared other with
    | error e => simp [hg, bind, Except.bind] at he
    | ok o =>
      simp only [hg, SharedGet_eq hg, bind, Except.bind, pure, Except.pure] at he
      split at he
      · rename_i a b ha hb
        cases hc : w.cell (some b) with
        | error e => simp [hc] at he
        | ok r =>
          obtain ⟨hb1, hk⟩ := cell_ok hc
          obtain ⟨rb, rk⟩ := r
          cases hb1
          simp only [hc] at he
          cases he
          exact ⟨sharedKept_setCounter _ hk rfl, rfl⟩
      · cases he; exact ⟨sharedKept_refl _, rfl⟩
  | wp_assignCopy self other =>
    simp only [exec] at he
    unfold WeakPtr.assignCopy at he
    cases hg1 : w.getWeak self with
    | error e => simp [hg1, bind, Except.bind] at he
    | ok me =>
      cases hg2 : w.getWeak other with
      | error e => simp [hg1, hg2, bind, Except.bind] at he
      | ok o =>
        simp only [hg1, hg2, bind, Except.bind, pure, Except.pure] at he
        by_cases hso : self = other
        · rw [if_pos hso] at he; cases he; exact ⟨sharedKept_refl _, rfl⟩
        · rw [if_neg hso] at he
          cases hr : WeakPtr.Reset self w with
          | error e => simp [hr] at he
          | ok w1 =>
            have k1 := WeakReset_sharedKept hr
            obtain ⟨_, _, _, ho1⟩ := WeakReset_effect hr
            simp only [hr] at he
            cases hg3 : w1.getWeak other with
            | error e => simp [hg3] at he
            | ok o1 =>
              simp only [hg3] at he
              cases hc : (w1.setInst self (Inst.weak ⟨o1.ptr_, o1.cnt_⟩)).cell o1.cnt_ with
              | error e => simp [hc] at he
              | ok r =>
                obtain ⟨_, hk⟩ := cell_ok hc
                simp only [hc] at he
                cases he
                exact ⟨sharedKept_trans k1 (sharedKept_set hk rfl le_rfl), ho1⟩
  | wp_assignMove self other =>
    simp only [exec] at he
    unfold WeakPtr.assignMove at he
    cases hg2 : w.getWeak other with
    | error e => simp [hg2, bind, Except.bind] at he
    | ok o0 =>
      simp only [hg2, bind, Except.bind, pure, Except.pure] at he
      cases hr : WeakPtr.Reset self w with
      | error e => simp [hr] at he
      | ok w1 =>
        have k1 := WeakReset_sharedKept hr
        obtain ⟨_, _, _, ho1⟩ := WeakReset_effect hr
        simp only [hr] at he
        cases hg3 : w1.getWeak other with
        | error e => simp [hg3] at he
        | ok o1 =>
          simp only [hg3] at he
          cases he
          exact ⟨k1, ho1⟩
  | wp_dtor self =>
    simp only [exec] at he
    unfold WeakPtr.dtor at he
    cases hr : WeakPtr.Reset self w with
    | error e => simp [hr, bind, Except.bind] at he
    | ok w1 =>
      have k1 := WeakReset_sharedKept hr
      obtain ⟨_, _, _, ho1⟩ := WeakReset_effect hr
      simp only [hr, bind, Except.bind, pure, Except.pure] at he
      cases he
      exact ⟨k1, ho1⟩
  | wp_Reset self =>
    simp only [exec] at he
    obtain ⟨_, _, _, ho1⟩ := WeakReset_effect he
    exact ⟨WeakReset_sharedKept he, ho1⟩
  | wp_Swap self other =>
    simp only [exec] at he
    unfold WeakPtr.Swap at he
    cases hg1 : w.getWeak self with
    | error e => simp [hg1, bind, Except.bind] at he
    | ok me =>
      cases hg2 : w.getWeak other with
      | error e => simp [hg1, hg2, bind, Except.bind] at he
      | ok o =>
        simp only [hg1, hg2, bind, Except.bind, pure, Except.pure] at he
        cases he; exact ⟨sharedKept_refl _, rfl⟩
  | sp_ctor => cases hop
  | sp_ctorRaw fresh => cases hop
  | sp_ctorCopy other => cases hop
  | sp_ctorMove other => cases hop
  | sp_ctorWeak other => cases hop
  | sp_assignCopy self other => cases hop
  | sp_assignMove self other => cases hop
  | sp_dtor self => cases hop
  | sp_Reset self fresh => cases hop
  | sp_Swap self other => cases hop
  | wp_Lock self => cases hop

/-! ## A `WeakPtr` never owns -/

/-- C11: (1) in any state, a call of a `WeakPtr` member other than `Lock()` — default,
copy and move construction, construction from a `SharedPtr`, copy and move assignment,
`Reset`, `Swap`, destruction — that returns leaves every object as it was (no destructor
runs) and leaves `shared_cnt_` of every control block as it was.  (2) In a reachable
state, constructing a `WeakPtr` from the non-empty live `SharedPtr` `i` returns, raises
`weak_cnt_` of its block by exactly one, changes nothing else in the blocks and objects,
and leaves `UseCount()` of `i` as it was. -/
theorem C11_weak_never_owns :
    (∀ (op : Op) (w w' : World), op.weakOnly = true → exec op w = .ok w' →
      w'.objs = w.objs ∧
      ∀ (b : Nat) (k : CounterCell), w.cnts[b]? = some k →
        ∃ k' : CounterCell, w'.cnts[b]? = some k' ∧
          k'.val.shared_cnt_ = k.val.shared_cnt_) ∧
    (∀ (w : World) (i b : Nat) (p : SharedPtr) (c : CounterCell), Reachable w →
      w.insts[i]? = some (some (.shared p)) → p.cnt_ = some b → w.cnts[b]? = some c →
      ∃ w', WeakPtr.ctorShared i w = .ok w' ∧
        w'.cnts = w.cnts.set b ⟨⟨c.val.shared_cnt_, c.val.weak_cnt_ + 1⟩, c.deletes⟩ ∧
        w'.objs = w.objs ∧ SharedPtr.UseCount i w' = SharedPtr.UseCount i w) := by
  constructor
  · intro op w w' hop he
    obtain ⟨h1, h2⟩ := weakOnly_kept hop he
    refine ⟨h2, fun b k hk => ?_⟩
    obtain ⟨k', e, s, _⟩ := h1 b k hk
    exact ⟨k', e, s⟩
  · intro w i b p c hr hi hb hc
    have h := hr.inv
    have hmem := List.getElem?_mem hi
    obtain ⟨a, k, ha, _, hk, hd, e1, e2, hpos, _, hmax⟩ := shared_facts h hmem hb
    have hkk : c = k := by rw [hc] at hk; exact Option.some.inj hk
    subst hkk
    have hli : i < w.insts.length := (List.getElem?_eq_some.mp hi).1
    have hlb : b < w.cnts.length := (List.getElem?_eq_some.mp hc).1
    refine ⟨(w.setCounter b c ⟨c.val.shared_cnt_, c.val.weak_cnt_ + 1⟩).pushInst
      (.weak ⟨p.ptr_, p.cnt_⟩), ?_, rfl, rfl, ?_⟩
    · unfold WeakPtr.ctorShared
      simp only [getShared_eq hi, SharedGet_eq (getShared_eq hi), hb, ha, cell_eq hc, bind,
        Except.bind, pure, Except.pure]
      rw [incr_eq (by omega)]
    · rw [UseCount_eq hi hb hc]
      simp [SharedPtr.UseCount, World.getShared, World.cell, hli,
        List.getElem?_append_left, hi, hb, hlb, bind, Except.bind, pure, Except.pure]

theorem C11_weak_never_owns_witness :
    Op.weakOnly (.wp_dtor 1) = true ∧ exec (.wp_dtor 1) expiredWorld = .ok deadWorld ∧
    (∃ k' : CounterCell, deadWorld.cnts[0]? = some k' ∧ k'.val.shared_cnt_ = 0) ∧
    Reachable watchedWorld ∧
    (∃ w', WeakPtr.ctorShared 0 watchedWorld = .ok w' ∧
      w'.cnts = watchedWorld.cnts.set 0 ⟨⟨1, 2⟩, 0⟩ ∧ w'.objs = watchedWorld.objs ∧
      SharedPtr.UseCount 0 w' = SharedPtr.UseCount 0 watchedWorld) :=
  ⟨rfl, rfl,
    (C11_weak_never_owns.1 (.wp_dtor 1) expiredWorld deadWorld rfl rfl).2 0 ⟨⟨0, 1⟩, 0⟩ rfl,
    watchedWorld_reachable,
    C11_weak_never_owns.2 watchedWorld 0 0 ⟨some 0, some 0⟩ ⟨⟨1, 1⟩, 0⟩
      watchedWorld_reachable rfl rfl rfl⟩

/-! ## No revival of a control block -/

theorem ctorWeak_noRevive {w w' : World} {other : Nat} (h : Inv w)
    (he : SharedPtr.ctorWeak other w = .ok w') : noRevive w.cnts w'.cnts := by
  cases hg : w.getWeak other with
  | error e => simp [SharedPtr.ctorWeak, hg, bind, Except.bind] at he
  | ok o =>
    have ho := getWeak_ok hg
    obtain ⟨q1, q2⟩ := ctorWeak_eq h ho
    cases hc : o.cnt_ with
    | none => rw [q1 hc] at he; cases he
    | some b =>
      obtain ⟨a, k, _, _, hk, _⟩ := weak_facts h (List.getElem?_mem ho) hc
      obtain ⟨r1, r2⟩ := q2 b k hc hk
      by_cases hz : k.val.shared_cnt_ = 0
      · rw [r1 hz] at he; cases he
      · rw [r2 hz] at he; cases he
        exact noRevive_set hk le_rfl (fun e => absurd e hz)

/-- In a state with the invariant no call raises a `shared_cnt_` that is zero, and no
call undoes a `delete`. -/
theorem exec_noRevive {op : Op} {w w' : World} (h : Inv w) (he : exec op w = .ok w') :
    noRevive w.cnts w'.cnts := by
  by_cases hop : op.weakOnly = true
  · exact noRevive_of_sharedKept (weakOnly_kept hop he).1
  cases op with
  | sp_ctor => cases he; exact noRevive_refl _
  | sp_ctorRaw fresh =>
    cases fresh with
    | false => cases he; exact noRevive_refl _
    | true => cases he; exact noRevive_push _ _
  | sp_ctorCopy other =>
    simp only [exec] at he
    unfold SharedPtr.ctorCopy at he
    cases hg : w.getShared other with
    | error e => simp [hg, bind, Except.bind] at he
    | ok o =>
      cases hc : w.cell o.cnt_ with
      | error e => simp [hg, hc, bind, Except.bind] at he
      | ok r =>
        obtain ⟨hcb, hk⟩ := cell_ok hc
        obtain ⟨a, k, _, _, hk2, _, e1, _, hpos, _, _⟩ :=
          shared_facts h (List.getElem?_mem (getShared_ok hg)) hcb
        have hkk : r.2 = k := by rw [hk] at hk2; exact Option.some.inj hk2
        simp only [hg, hc, bind, Except.bind, pure, Except.pure] at he
        cases he
        exact noRevive_set hk le_rfl (fun e => by rw [hkk] at e; omega)
  | sp_ctorMove other =>
    simp only [exec] at he
    unfold SharedPtr.ctorMove at he
    cases hg : w.getShared other with
    | error e => simp [hg, bind, Except.bind] at he
    | ok o =>
      simp only [hg, bind, Except.bind, pure, Except.pure] at he
      cases he; exact noRevive_refl _
  | sp_ctorWeak other => exact ctorWeak_noRevive h he
  | sp_assignCopy self other =>
    simp only [exec] at he
    unfold SharedPtr.assignCopy at he
    cases hg1 : w.getShared self with
    | error e => simp [hg1, bind, Except.bind] at he
    | ok me =>
      cases hg2 : w.getShared other with
      | error e => simp [hg1, hg2, bind, Except.bind] at he
      | ok o =>
        simp only [hg1, hg2, bind, Except.bind, pure, Except.pure] at he
        by_cases hso : self = other
        · rw [if_pos hso] at he; cases he; exact noRevive_refl _
        · rw [if_neg hso] at he
          obtain ⟨w1, hr, h1, hins1, _, _⟩ := Reset_none_inv h (getShared_ok hg1)
          have k1 := Reset_noRevive hr
          have ho1 : w1.insts[other]? = some (some (Inst.shared o)) := by
            rw [hins1, getElem?_set_other _ _ hso]; exact getShared_ok hg2
          simp only [hr, getShared_eq ho1] at he
          cases hc : (w1.setInst self (Inst.shared ⟨o.ptr_, o.cnt_⟩)).cell o.cnt_ with
          | error e => simp [hc] at he
          | ok r =>
            obtain ⟨hcb, hk⟩ := cell_ok hc
            simp only [setInst_cnts] at hk
            obtain ⟨a, k, _, _, hk2, _, e1, _, hpos, _, _⟩ :=
              shared_facts h1 (List.getElem?_mem ho1) hcb
            have hkk : r.2 = k := by rw [hk] at hk2; exact Option.some.inj hk2
            simp only [hc] at he
            cases he
            exact noRevive_trans k1
              (noRevive_set hk le_rfl (fun e => by rw [hkk] at e; omega))
  | sp_assignMove self other =>
    simp only [exec] at he
    unfold SharedPtr.assignMove at he
    cases hg2 : w.getShared other with
    | error e => simp [hg2, bind, Except.bind] at he
    | ok o0 =>
      simp only [hg2, bind, Except.bind, pure, Except.pure] at he
      cases hr : SharedPtr.Reset self none w with
      | error e => simp [hr] at he
      | ok w1 =>
        have k1 := Reset_noRevive hr
        simp only [hr] at he
        cases hg3 : w1.getShared other with
        | error e => simp [hg3] at he
        | ok o1 =>
          simp only [hg3] at he
          cases he
          exact k1
  | sp_dtor self =>
    simp only [exec] at he
    unfold SharedPtr.dtor at he
    cases hr : SharedPtr.Reset self none w with
    | error e => simp [hr, bind, Except.bind] at he
    | ok w1 =>
      have k1 := Reset_noRevive hr
      simp only [hr, bind, Except.bind, pure, Except.pure] at he
      cases he
      exact k1
  | sp_Reset self fresh =>
    cases fresh with
    | false => exact Reset_noRevive (show SharedPtr.Reset self none w = _ from he)
    | true =>
      have k1 := Reset_noRevive
        (show SharedPtr.Reset self (some w.newObj.2) w.newObj.1 = _ from he)
      rw [newObj_cnts] at k1
      exact k1
  | sp_Swap self other =>
    simp only [exec] at he
    unfold SharedPtr.Swap at he
    cases hg1 : w.getShared self with
    | error e => simp [hg1, bind, Except.bind] at he
    | ok me =>
      cases hg2 : w.getShared other with
      | error e => simp [hg1, hg2, bind, Except.bind] at he
      | ok o =>
        simp only [hg1, hg2, bind, Except.bind, pure, Except.pure] at he
        cases he; exact noRevive_refl _
  | wp_Lock self =>
    simp only [exec] at he
    unfold WeakPtr.Lock at he
    cases hx : WeakPtr.Expired self w with
    | error e => simp [hx, bind, Except.bind] at he
    | ok e =>
      simp only [hx, bind, Except.bind] at he
      cases e with
      | true => simp only [if_true] at he; cases he; exact noRevive_refl _
      | false => exact ctorWeak_noRevive h (by simpa using he)
  | wp_ctor => exact absurd rfl hop
  | wp_ctorCopy other => exact absurd rfl hop
  | wp_ctorMove other => exact absurd rfl hop
  | wp_ctorShared other => exact absurd rfl hop
  | wp_assignCopy self other => exact absurd rfl hop
  | wp_assignMove self other => exact absurd rfl hop
  | wp_dtor self => exact absurd rfl hop
  | wp_Reset self => exact absurd rfl hop
  | wp_Swap self other => exact absurd rfl hop

/-- Over a whole program: reachability, and no revival. -/
theorem run_noRevive {ops : List Op} {w w' : World} (h : Reachable w)
    (hr : run ops w = some w') : noRevive w.cnts w'.cnts := by
  induction ops generalizing w with
  | nil => cases hr; exact noRevive_refl _
  | cons op ops ih =>
    unfold run at hr
    split_ifs at hr with hl
    cases he : exec op w with
    | error e => simp [he] at hr
    | ok w1 =>
      simp only [he] at hr
      exact noRevive_trans (exec_noRevive h.inv he) (ih (Reachable.step op w w1 h hl he) hr)

/-- In a state with the invariant the state of a block is read off its cell. -/
theorem blockState_eq {w : World} (h : Inv w) {b : Nat} {k : CounterCell}
    (hk : w.cnts[b]? = some k) :
    w.blockState b =
      some (if k.deletes ≠ 0 then .Dead else if k.val.shared_cnt_ = 0 then .Expired
        else .Live) ∧
    (k.deletes ≠ 0 → w.strong b = 0) ∧ (k.deletes = 0 → k.val.shared_cnt_ = w.strong b) := by
  unfold World.blockState
  rw [hk]
  rcases h.blk b k hk with ⟨d, e1, _, _⟩ | ⟨d, e1, _⟩
  · refine ⟨?_, fun hd => absurd d hd, fun _ => e1⟩
    simp only [d, e1, ne_eq, not_true_eq_false, if_false]
    split_ifs <;> rfl
  · refine ⟨?_, fun _ => e1, fun hd => by omega⟩
    simp [d]

/-- C19, the code at the failing inputs.  After `PushBack(1); PushBack(2); Clear();
PushBack(3)` on a default-constructed buffer the list model holds `[3]`, but the buffer
has `front_ == 0`, `back_ == 1` and cells `1, 3`: `Size()` is 1 while `operator[](0)` and
`Front()` return the stale `1`.  After `Reserve(2); PushBack(7)` the model holds `[7]`,
but `operator[](0)` and `Front()` read the cell 0 that was never written.  After
`PushBack(1); PushBack(2); Clear(); PushFront(3)` the model holds `[3]`, but `Back()`
returns the stale `1`. -/
theorem C19_clear_and_reserve_break_deque :
    (CircularBuffer.runOps 64 [.PushBack 1, .PushBack 2, .Clear, .PushBack 3]
        (CircularBuffer.ctor : CircularBuffer Nat) = some ⟨2, 1, 0, 1, [some 1, some 3]⟩ ∧
      dequeModelRun [BufOp.PushBack 1, .PushBack 2, .Clear, .PushBack 3] = [3] ∧
      CircularBuffer.Size (⟨2, 1, 0, 1, [some 1, some 3]⟩ : CircularBuffer Nat) = 1 ∧
      CircularBuffer.subscript (⟨2, 1, 0, 1, [some 1, some 3]⟩ : CircularBuffer Nat) 0
        = some (some 1) ∧
      CircularBuffer.Front (⟨2, 1, 0, 1, [some 1, some 3]⟩ : CircularBuffer Nat)
        = some (some 1)) ∧
    (CircularBuffer.runOps 64 [.Reserve 2, .PushBack 7]
        (CircularBuffer.ctor : CircularBuffer Nat) = some ⟨2, 1, 0, 1, [none, some 7]⟩ ∧
      dequeModelRun [BufOp.Reserve 2, .PushBack 7] = [7] ∧
      CircularBuffer.subscript (⟨2, 1, 0, 1, [none, some 7]⟩ : CircularBuffer Nat) 0
        = some none ∧
      CircularBuffer.Front (⟨2, 1, 0, 1, [none, some 7]⟩ : CircularBuffer Nat) = some none) ∧
    (CircularBuffer.runOps 64 [.PushBack 1, .PushBack 2, .Clear, .PushFront 3]
        (CircularBuffer.ctor : CircularBuffer Nat) = some ⟨2, 1, 1, 0, [some 1, some 3]⟩ ∧
      dequeModelRun [BufOp.PushBack 1, .PushBack 2, .Clear, .PushFront 3] = [3] ∧
      CircularBuffer.Back (⟨2, 1, 1, 0, [some 1, some 3]⟩ : CircularBuffer Nat)
        = some (some 1)) := by
  decide

/-- C20, the code at the failing input.  After `PushBack(1); PushBack(2); PopFront()` the
buffer `o` has `Size() == 1 < Capacity() == 2`, `front_ == 1` and `o[0] == 2`.  The copy
constructor copies the first `size_` cells of `buf_`, that is cell 0 only, and keeps
`front_ == 1`: in the copy `operator[](0)` reads cell 1, which was never written. -/
theorem C20_copy_ctor_loses_elements :
    CircularBuffer.runOps 64 [.PushBack 1, .PushBack 2, .PopFront]
        (CircularBuffer.ctor : CircularBuffer Nat) = some ⟨2, 1, 1, 1, [some 1, some 2]⟩ ∧
    CircularBuffer.subscript (⟨2, 1, 1, 1, [some 1, some 2]⟩ : CircularBuffer Nat) 0
      = some (some 2) ∧
    CircularBuffer.ctorCopy (⟨2, 1, 1, 1, [some 1, some 2]⟩ : CircularBuffer Nat)
      = some ⟨2, 1, 1, 1, [some 1, none]⟩ ∧
    CircularBuffer.subscript (⟨2, 1, 1, 1, [some 1, none]⟩ : CircularBuffer Nat) 0
      = some none := by
  decide

/-- C16, the code at the failing input.  For `CircularBuffer<T> t(4), o; t = o;` the
assignment returns with `back_ == 2^64 - 1`, which is not below `capacity_ == 4`: the
loop runs zero times and stores to `buf_` only, never to `back_`.  `Reallocate`, on the
same `size_ == 0`, sets `back_ = 0`.  After a following `PushFront(7)` the field is
unchanged and `Back()` reads outside the buffer. -/
theorem C16_back_underflow_survives :
    (CircularBuffer.ctorCount 4 : CircularBuffer Nat).assign CircularBuffer.ctor
      = some ⟨4, 0, 0, 2 ^ 64 - 1, [none, none, none, none]⟩ ∧
    ¬ (2 ^ 64 - 1 < (4 : Nat)) ∧
    (CircularBuffer.ctor : CircularBuffer Nat).Reallocate 4
      = some ⟨4, 0, 0, 0, [none, none, none, none]⟩ ∧
    CircularBuffer.PushFront 64
        (⟨4, 0, 0, 2 ^ 64 - 1, [none, none, none, none]⟩ : CircularBuffer Nat) 7
      = some ⟨4, 1, 3, 2 ^ 64 - 1, [none, none, none, some 7]⟩ ∧
    CircularBuffer.Back (⟨4, 1, 3, 2 ^ 64 - 1, [none, none, none, some 7]⟩ : CircularBuffer Nat)
      = none := by
  decide

/-! ## Growth of `Vector` and `CircularBuffer` on a push -/

theorem incr_of_lt {n : Nat} (h : n + 1 < SIZE_T_CARD) : incr n = n + 1 := by
  unfold incr
  exact Nat.mod_eq_of_lt h

/-- `CalculateCapacity(size_ + 1)` for `size_ ≤ capacity_`: the capacity itself when there
is room, else 1 for an empty buffer and twice the capacity otherwise; two tests of the
loop condition are enough. -/
theorem CalculateCapacity_push {fuel size cap : Nat} (hf : 2 ≤ fuel) (hs : size ≤ cap)
    (hc : 2 * cap < SIZE_T_CARD) :
    CalculateCapacity fuel cap (incr size) =
      some (if size < cap then cap else if cap = 0 then 1 else 2 * cap) := by
  have hsz : SIZE_T_CARD = 2 ^ 64 := rfl
  have hi : incr size = size + 1 := incr_of_lt (by omega)
  obtain ⟨f, rfl⟩ : ∃ f, fuel = f + 2 := ⟨fuel - 2, by omega⟩
  unfold CalculateCapacity
  rw [hi]
  by_cases h1 : size < cap
  · have h0 : cap ≠ 0 := by omega
    simp only [h0, if_false, h1, if_true]
    unfold CalculateCapacity.loop
    have : ¬ cap < size + 1 := by omega
    simp only [this, if_false]
  · have hsc : size = cap := by omega
    subst hsc
    by_cases h0 : size = 0
    · subst h0
      simp only [if_true, lt_irrefl, if_false]
      unfold CalculateCapacity.loop
      simp
    · simp only [h0, if_false, lt_irrefl]
      unfold CalculateCapacity.loop
      have h2 : size < size + 1 := by omega
      simp only [h2, if_true]
      unfold CalculateCapacity.loop
      have h3 : size * kIncreaseFactor % SIZE_T_CARD = 2 * size := by
        unfold kIncreaseFactor
        rw [Nat.mod_eq_of_lt (by omega)]
        omega
      rw [h3]
      have : ¬ 2 * size < size + 1 := by omega
      simp only [this, if_false]

theorem Copy_some {α : Type} (src : List (Option α)) (n : Nat) (dst : List (Option α))
    (h1 : n ≤ src.length) (h2 : n ≤ dst.length) :
    ∃ r, Copy src n dst = some r ∧ r.length = dst.length := by
  induction n with
  | zero => exact ⟨dst, rfl, rfl⟩
  | succ n ih =>
    obtain ⟨r, hr, hl⟩ := ih (by omega) (by omega)
    have hn : n < src.length := by omega
    unfold Copy
    rw [hr]
    simp only [List.getElem?_eq_getElem hn]
    have : n < r.length := by omega
    simp only [this, if_true]
    exact ⟨_, rfl, by simp [hl]⟩

theorem subscript_some {α : Type} (c : CircularBuffer α) (i : Nat)
    (hb : c.buf_.length = c.capacity_) (h0 : 0 < c.capacity_) :
    ∃ x, c.subscript i = some x := by
  unfold CircularBuffer.subscript CircularBuffer.index
  have hne : c.capacity_ ≠ 0 := by omega
  simp only [hne, if_false]
  have hlt : (i + c.front_) % SIZE_T_CARD % c.capacity_ < c.buf_.length := by
    rw [hb]; exact Nat.mod_lt _ h0
  exact ⟨_, List.getElem?_eq_getElem hlt⟩

theorem Reallocate_loop_some {α : Type} (c : CircularBuffer α) (n : Nat)
    (dst : List (Option α)) (hb : c.buf_.length = c.capacity_)
    (h0 : 0 < n → 0 < c.capacity_) (h2 : n ≤ dst.length) :
    ∃ r, CircularBuffer.Reallocate.loop c n dst = some r ∧ r.length = dst.length := by
  induction n with
  | zero => exact ⟨dst, rfl, rfl⟩
  | succ n ih =>
    have hc : 0 < c.capacity_ := h0 (by omega)
    obtain ⟨r, hr, hl⟩ := ih (fun _ => hc) (by omega)
    obtain ⟨x, hx⟩ := subscript_some c n hb hc
    unfold CircularBuffer.Reallocate.loop
    rw [hr]
    simp only [hx]
    have : n < r.length := by omega
    simp only [this, if_true]
    exact ⟨_, rfl, by simp [hl]⟩

/-- `Reallocate(new_cap)` of a well-formed buffer with `size_ ≤ new_cap` returns. -/
theorem Reallocate_some {α : Type} (c : CircularBuffer α) (new_cap : Nat)
    (hb : c.buf_.length = c.capacity_) (hs : c.size_ ≤ c.capacity_)
    (hn : c.size_ ≤ new_cap) :
    ∃ c', c.Reallocate new_cap = some c' ∧ c'.capacity_ = new_cap ∧ c'.size_ = c.size_ ∧
      c'.buf_.length = new_cap ∧ c'.front_ = 0 := by
  obtain ⟨r, hr, hl⟩ := Reallocate_loop_some c c.size_ (List.replicate new_cap none) hb
    (fun h => by omega) (by simpa using hn)
  unfold CircularBuffer.Reallocate
  rw [hr]
  exact ⟨_, rfl, rfl, rfl, by simpa using hl, rfl⟩

theorem VectorReallocate_some {α : Type} (v : Vector α) (cap : Nat)
    (hb : v.buf_.length = v.capacity_) (hs : v.size_ ≤ v.capacity_) (hn : v.size_ ≤ cap) :
    ∃ v', v.Reallocate cap = some v' ∧ v'.capacity_ = cap ∧ v'.size_ = v.size_ ∧
      v'.buf_.length = cap := by
  obtain ⟨r, hr, hl⟩ := Copy_some v.buf_ v.size_ (List.replicate cap none) (by omega)
    (by simpa using hn)
  unfold Vector.Reallocate
  rw [hr]
  exact ⟨_, rfl, rfl, rfl, by simpa using hl⟩

theorem Vector_PushBack_grow {α : Type} {fuel : Nat} (hf : 2 ≤ fuel) (v : Vector α) (x : α)
    (hb : v.buf_.length = v.capacity_) (hs : v.size_ ≤ v.capacity_)
    (hc : 2 * v.capacity_ < SIZE_T_CARD) :
    ∃ v', v.PushBack fuel x = some v' ∧ v'.size_ = v.size_ + 1 ∧
      v'.capacity_ = (if v.size_ < v.capacity_ then v.capacity_
        else if v.capacity_ = 0 then 1 else 2 * v.capacity_) ∧
      v'.buf_.length = v'.capacity_ := by
  have hsz : SIZE_T_CARD = 2 ^ 64 := rfl
  have hi : incr v.size_ = v.size_ + 1 := incr_of_lt (by omega)
  unfold Vector.PushBack
  rw [CalculateCapacity_push hf hs hc]
  simp only []
  by_cases h1 : v.size_ < v.capacity_
  · simp only [h1, if_true, gt_iff_lt, lt_irrefl, if_false, hb, hi]
    exact ⟨_, rfl, rfl, rfl, by simp [hb]⟩
  · obtain ⟨N, hN⟩ : ∃ N, N = (if v.capacity_ = 0 then 1 else 2 * v.capacity_) := ⟨_, rfl⟩
    have hgt : v.capacity_ < N := by
      rw [hN]; split_ifs <;> omega
    simp only [h1, if_false, ← hN, gt_iff_lt, hgt, if_true]
    obtain ⟨v1, e1, c1, s1, l1⟩ := VectorReallocate_some v N hb hs (by omega)
    rw [e1]
    simp only []
    have : v1.size_ < v1.buf_.length := by omega
    simp only [this, if_true]
    rw [incr_of_lt (by omega)]
    exact ⟨_, rfl, by simp [s1], c1, by simp [l1, c1]⟩

theorem CircularBuffer_grow {α : Type} {fuel : Nat} (hf : 2 ≤ fuel) (c : CircularBuffer α)
    (hb : c.buf_.length = c.capacity_) (hs : c.size_ ≤ c.capacity_)
    (hc : 2 * c.capacity_ < SIZE_T_CARD) :
    ∃ c1 : CircularBuffer α,
      (match CalculateCapacity fuel c.capacity_ (incr c.size_) with
        | none => none
        | some cap => (if cap > c.capacity_ then c.Reallocate cap else some c)) = some c1 ∧
      c1.size_ = c.size_ ∧
      c1.capacity_ = (if c.size_ < c.capacity_ then c.capacity_
        else if c.capacity_ = 0 then 1 else 2 * c.capacity_) ∧
      c1.buf_.length = c1.capacity_ ∧ c.size_ < c1.capacity_ := by
  rw [CalculateCapacity_push hf hs hc]
  simp only []
  by_cases h1 : c.size_ < c.capacity_
  · simp only [h1, if_true, gt_iff_lt, lt_irrefl, if_false]
    exact ⟨c, rfl, rfl, rfl, hb, by omega⟩
  · obtain ⟨N, hN⟩ : ∃ N, N = (if c.capacity_ = 0 then 1 else 2 * c.capacity_) := ⟨_, rfl⟩
    have hgt : c.capacity_ < N := by
      rw [hN]; split_ifs <;> omega
    simp only [h1, if_false, ← hN, gt_iff_lt, hgt, if_true]
    obtain ⟨c1, e1, k1, s1, l1, _⟩ := Reallocate_some c N hb hs (by omega)
    exact ⟨c1, e1, s1, k1, by rw [l1, k1], by omega⟩

theorem index_front_zero {α : Type} (c : CircularBuffer α) (i : Nat) (hf : c.front_ = 0)
    (hi : i < c.capacity_) (hc : i < SIZE_T_CARD) : c.index i = some i := by
  unfold CircularBuffer.index
  have hne : c.capacity_ ≠ 0 := by omega
  simp only [hne, if_false, hf, Nat.add_zero]
  rw [Nat.mod_eq_of_lt hc, Nat.mod_eq_of_lt hi]

theorem assign_loop_some {α : Type} (o c : CircularBuffer α) (n : Nat)
    (hob : o.buf_.length = o.capacity_) (ho0 : 0 < n → 0 < o.capacity_)
    (hf : c.front_ = 0) (hb : c.buf_.length = c.capacity_) (hn : n ≤ c.capacity_)
    (hN : n ≤ SIZE_T_CARD) :
    ∃ c', CircularBuffer.assign.loop o n c = some c' ∧ c'.capacity_ = c.capacity_ ∧
      c'.size_ = c.size_ ∧ c'.front_ = 0 ∧ c'.buf_.length = c.capacity_ ∧
      ∀ i, i < n → ∃ x, o.subscript i = some x ∧ c'.buf_[i]? = some x := by
  induction n with
  | zero => exact ⟨c, rfl, rfl, rfl, hf, hb, fun i hi => absurd hi (Nat.not_lt_zero i)⟩
  | succ n ih =>
    have hc : 0 < o.capacity_ := ho0 (by omega)
    obtain ⟨c1, e1, k1, s1, f1, l1, g1⟩ := ih (fun _ => hc) (by omega) (by omega)
    obtain ⟨x, hx⟩ := subscript_some o n hob hc
    have hidx : c1.index n = some n := index_front_zero c1 n f1 (by omega) (by omega)
    have hlen : n < c1.buf_.length := by omega
    unfold CircularBuffer.assign.loop
    rw [e1]
    simp only [hx]
    unfold CircularBuffer.assignAt
    rw [hidx]
    simp only [hlen, if_true]
    refine ⟨_, rfl, k1, s1, f1, by simp [l1], ?_⟩
    intro i hi
    by_cases hin : i = n
    · subst hin
      exact ⟨x, hx, by simp [hlen]⟩
    · obtain ⟨y, hy1, hy2⟩ := g1 i (by omega)
      refine ⟨y, hy1, ?_⟩
      simp only []
      rw [List.getElem?_set_ne (fun h => hin h.symm)]
      exact hy2

/-- C15: copy assignment `t = o` between two distinct buffers, each with `capacity_`
cells and `Size() ≤ Capacity()`.  The call returns; afterwards `t.Size() == o.Size()`,
`t[i]` is the cell `o[i]` for every `i < o.Size()`, `t.Capacity()` is at least what it
was, and it is what it was when `o.Size()` did not exceed it.  The source is read
through a reference to const and the function has no store to it. -/
theorem C15_copy_assign {α : Type} (t o : CircularBuffer α)
    (htb : t.buf_.length = t.capacity_) (hts : t.Size ≤ t.Capacity)
    (hob : o.buf_.length = o.capacity_) (hos : o.Size ≤ o.Capacity)
    (hoc : o.Size < SIZE_T_CARD) :
    ∃ t', t.assign o = some t' ∧ t'.Size = o.Size ∧
      (∀ i, i < o.Size → ∃ x, o.subscript i = some x ∧ t'.subscript i = some x) ∧
      t.Capacity ≤ t'.Capacity ∧ (o.Size ≤ t.Capacity → t'.Capacity = t.Capacity) := by
  unfold CircularBuffer.Size CircularBuffer.Capacity at *
  obtain ⟨c1, e1, b1, k1, k2, k3⟩ : ∃ c1 : CircularBuffer α,
      (if o.size_ > t.capacity_ then t.Reallocate o.capacity_ else some t) = some c1 ∧
      c1.buf_.length = c1.capacity_ ∧ o.size_ ≤ c1.capacity_ ∧
      t.capacity_ ≤ c1.capacity_ ∧ (o.size_ ≤ t.capacity_ → c1.capacity_ = t.capacity_) := by
    by_cases h : o.size_ > t.capacity_
    · obtain ⟨c1, e1, k1, _, l1, _⟩ := Reallocate_some t o.capacity_ htb hts (by omega)
      exact ⟨c1, by rw [if_pos h]; exact e1, by rw [l1, k1], by omega, by omega,
        fun h2 => by omega⟩
    · exact ⟨t, by rw [if_neg h], htb, by omega, le_rfl, fun _ => rfl⟩
  obtain ⟨t', e2, c2, s2, f2, l2, g2⟩ := assign_loop_some o
    { c1 with size_ := o.size_, front_ := 0, back_ := decr o.size_ } o.size_ hob
    (fun h => by omega) rfl b1 k1 (by omega)
  have c3 : t'.capacity_ = c1.capacity_ := c2
  have s3 : t'.size_ = o.size_ := s2
  refine ⟨t', ?_, s3, ?_, by omega, fun h => by rw [c3]; exact k3 h⟩
  · unfold CircularBuffer.assign
    rw [e1]
    exact e2
  · intro i hi
    obtain ⟨x, hx1, hx2⟩ := g2 i hi
    refine ⟨x, hx1, ?_⟩
    unfold CircularBuffer.subscript
    rw [index_front_zero t' i f2 (by omega) (by omega)]
    exact hx2

/-- C15 at `t` empty with capacity 4 and `o` holding 8, 9 from `front_ == 1`. -/
theorem C15_copy_assign_witness :
    ∃ t', (CircularBuffer.ctorCount 4 : CircularBuffer Nat).assign
        ⟨3, 2, 1, 2, [none, some 8, some 9]⟩ = some t' ∧
      t'.Size = 2 ∧
      (∀ i, i < 2 → ∃ x, (⟨3, 2, 1, 2, [none, some 8, some 9]⟩ :
        CircularBuffer Nat).subscript i = some x ∧ t'.subscript i = some x) ∧
      4 ≤ t'.Capacity ∧ (2 ≤ 4 → t'.Capacity = 4) :=
  C15_copy_assign (CircularBuffer.ctorCount 4) ⟨3, 2, 1, 2, [none, some 8, some 9]⟩
    rfl (by decide) rfl (by decide) (by decide)

/-! ## `StringView::Substr` and `StringView::At` -/

/-- C21, the code at the failing inputs.  `StringView("hello").Substr(1, 10)` has
`Size() == 3`, not `min(10, 5 - 1) == 4`: after `RemovePrefix(pos)` the size is already
`n - pos` and the function subtracts `pos` from it again.  With the default `count` the
sum `count + pos` wraps to 0 and `Substr(1)` has `Size() == 2^64 - 1`.  The view of the
first 3 chars of the same buffer gives `Substr(0, 10)` the size 5: the function builds
the result with `StringView(str_)`, whose length is `strlen(str_)`, not `size_`. -/
theorem C21_substr_wrong_size :
    StringView.ctorStr helloMem 0 = some ⟨0, 5⟩ ∧
    StringView.Substr helloMem ⟨0, 5⟩ 1 10 = some ⟨1, 3⟩ ∧
    min 10 (5 - 1) = 4 ∧
    StringView.Substr helloMem ⟨0, 5⟩ 1 (2 ^ 64 - 1) = some ⟨1, 2 ^ 64 - 1⟩ ∧
    StringView.Substr helloMem (StringView.ctorStrSize 0 3) 0 10 = some ⟨0, 5⟩ ∧
    min 10 (3 - 0) = 3 := by
  decide

/-- C22, the code at the failing input.  For `StringView s("hello")`, `s.At(5)` does not
raise although `5 >= s.Size()`: the test is `index > size_`, so the call returns the char
behind the view, here the NUL.  `s.At(6)` and `s.At(-1)` raise, and `s.At(4)` returns
`s[4]`. -/
theorem C22_At_accepts_index_Size :
    StringView.Size ⟨0, 5⟩ = 5 ∧
    StringView.At helloMem ⟨0, 5⟩ 5 = .ok (some 0) ∧
    StringView.At helloMem ⟨0, 5⟩ 6 = .error .out_of_range ∧
    StringView.At helloMem ⟨0, 5⟩ (-1) = .error .out_of_range ∧
    StringView.At helloMem ⟨0, 5⟩ 4 = .ok (StringView.subscript helloMem ⟨0, 5⟩ 4) :=
  ⟨rfl, rfl, rfl, rfl, rfl⟩

/-! ## `UniquePtr`: move assignment -/

/-- C23, the code at the failing input.  After `UniquePtr<T> a(new T), b(new T);` and
`a = std::move(b);` the object `a` owned (address 0) has no owner among the live
instances, `delete` never ran on it, and no `Release()` was called: `operator=` stores
`other.ptr_` over `ptr_` without `delete ptr_`.  After both destructors the object is
still not destroyed.  `a.Reset(nullptr)` in the same state runs `delete` on it. -/
theorem C23_move_assign_leaks :
    UniquePtr.ctorNew (UniquePtr.ctorNew ⟨[], []⟩)
      = ⟨[0, 0], [some ⟨some 0⟩, some ⟨some 1⟩]⟩ ∧
    UniquePtr.owners ⟨[0, 0], [some ⟨some 0⟩, some ⟨some 1⟩]⟩ 0 = 1 ∧
    UniquePtr.assignMove 0 1 ⟨[0, 0], [some ⟨some 0⟩, some ⟨some 1⟩]⟩
      = some ⟨[0, 0], [some ⟨some 1⟩, some ⟨none⟩]⟩ ∧
    UniquePtr.owners ⟨[0, 0], [some ⟨some 1⟩, some ⟨none⟩]⟩ 0 = 0 ∧
    (UniquePtr.dtor 1 ⟨[0, 0], [some ⟨some 1⟩, some ⟨none⟩]⟩).bind (UniquePtr.dtor 0)
      = some ⟨[0, 1], [none, none]⟩ ∧
    UniquePtr.Reset 0 none ⟨[0, 0], [some ⟨some 0⟩, some ⟨some 1⟩]⟩
      = some ⟨[1, 0], [some ⟨none⟩, some ⟨some 1⟩]⟩ := by
  decide

/-! ## `delete ptr_` of an object without sub-objects -/

theorem getShared_of_insts {w w' : World} (h : w'.insts = w.insts) (i : Nat) :
    w'.getShared i = w.getShared i := by
  unfold World.getShared
  rw [h]

theorem cell_of_cnts {w w' : World} (h : w'.cnts = w.cnts) (c : Option Nat) :
    w'.cell c = w.cell c := by
  unfold World.cell
  rw [h]

/-- For an object without sub-objects `delete ptr_` only records the destruction. -/
theorem deleteObjT_inert (members : Nat → List Nat) (fuel : Nat) (p : Option Nat)
    (w : World) (h : ∀ a, p = some a → members a = []) :
    World.deleteObjT members (fuel + 1) p w = Stop.lift (w.deleteObj p) := by
  cases p with
  | none => rfl
  | some a =>
    unfold World.deleteObjT
    simp only [h a rfl]
    cases hd : w.deleteObj (some a) with
    | error e => rfl
    | ok w0 => rfl

/-- When `delete ptr_` ends no instance, `Reset` in source order is `SharedPtr.Reset`. -/
theorem ResetT_inert {del : Option Nat → World → Except Stop World} {self : Nat}
    {ptr : Option Nat} {w : World}
    (hdel : ∀ me b k, w.getShared self = .ok me → w.cell me.cnt_ = .ok (b, k) →
      k.val.shared_cnt_ = 1 → del me.ptr_ w = Stop.lift (w.deleteObj me.ptr_)) :
    SharedPtr.ResetT del self ptr w = Stop.lift (SharedPtr.Reset self ptr w) := by
  unfold SharedPtr.ResetT SharedPtr.Reset
  cases hg : w.getShared self with
  | error e => rfl
  | ok me =>
    simp only [Stop.lift, bind, Except.bind, pure, Except.pure]
    cases hc : me.cnt_ with
    | none =>
      simp only [hg, Stop.lift]
      cases ptr <;> rfl
    | some c =>
      simp only []
      cases hcell : w.cell (some c) with
      | error e => rfl
      | ok r =>
        obtain ⟨b, k⟩ := r
        simp only []
        have gs : ∀ v : Counter, (w.setCounter b k v).getShared self = .ok me := fun v =>
          (getShared_of_insts (setCounter_insts w b k v) self).trans hg
        have hcm : w.cell me.cnt_ = .ok (b, k) := by rw [hc]; exact hcell
        by_cases h1 : k.val.shared_cnt_ = 1 ∧ k.val.weak_cnt_ = 0
        · have hd := hdel me b k hg hcm h1.1
          simp only [if_pos h1, hd]
          cases hdo : w.deleteObj me.ptr_ with
          | error e => rfl
          | ok w0 =>
            obtain ⟨d1, d2, _⟩ := deleteObj_effect hdo
            have g0 : w0.getShared self = .ok me := (getShared_of_insts d2 self).trans hg
            have c0 : w0.cell me.cnt_ = .ok (b, k) := by
              rw [cell_of_cnts d1, hc]; exact hcell
            have g1 : (w0.deleteCnt b k).getShared self = .ok me :=
              (getShared_of_insts (deleteCnt_insts w0 b k) self).trans g0
            simp only [Stop.lift, g0, c0, g1]
            cases ptr <;> rfl
        · by_cases h2 : k.val.shared_cnt_ = 1
          · have hd := hdel me b k hg hcm h2
            simp only [if_neg h1, if_pos h2, hd]
            cases hdo : w.deleteObj me.ptr_ with
            | error e => rfl
            | ok w0 =>
              obtain ⟨d1, d2, _⟩ := deleteObj_effect hdo
              have g0 : w0.getShared self = .ok me := (getShared_of_insts d2 self).trans hg
              have c0 : w0.cell me.cnt_ = .ok (b, k) := by
                rw [cell_of_cnts d1, hc]; exact hcell
              have g1 : ∀ v : Counter, (w0.setCounter b k v).getShared self = .ok me :=
                fun v => (getShared_of_insts (setCounter_insts w0 b k v) self).trans g0
              simp only [Stop.lift, g0, c0, g1]
              cases ptr <;> rfl
          · by_cases h3 : k.val.shared_cnt_ = 0
            · simp only [if_neg h1, if_neg h2, ne_eq, h3, not_true_eq_false, if_false, hg]
              cases ptr <;> rfl
            · simp only [if_neg h1, if_neg h2, ne_eq, h3, not_false_eq_true, if_true, gs]
              cases ptr <;> rfl

theorem dtorT_inert {del : Option Nat → World → Except Stop World} {self : Nat} {w : World}
    (hdel : ∀ me b k, w.getShared self = .ok me → w.cell me.cnt_ = .ok (b, k) →
      k.val.shared_cnt_ = 1 → del me.ptr_ w = Stop.lift (w.deleteObj me.ptr_)) :
    SharedPtr.dtorT del self w = Stop.lift (SharedPtr.dtor self w) := by
  unfold SharedPtr.dtorT SharedPtr.dtor
  rw [ResetT_inert hdel]
  cases SharedPtr.Reset self none w <;> rfl

theorem assignCopyT_inert {del : Option Nat → World → Except Stop World}
    {self other : Nat} {w : World}
    (hdel : ∀ me b k, w.getShared self = .ok me → w.cell me.cnt_ = .ok (b, k) →
      k.val.shared_cnt_ = 1 → del me.ptr_ w = Stop.lift (w.deleteObj me.ptr_)) :
    SharedPtr.assignCopyT del self other w =
      Stop.lift (SharedPtr.assignCopy self other w) := by
  unfold SharedPtr.assignCopyT SharedPtr.assignCopy
  rw [ResetT_inert hdel]
  cases w.getShared self with
  | error e => rfl
  | ok me =>
    cases w.getShared other with
    | error e => rfl
    | ok o =>
      simp only [Stop.lift, bind, Except.bind, pure, Except.pure]
      split_ifs
      · rfl
      · cases SharedPtr.Reset self none w with
        | error e => rfl
        | ok w1 =>
          simp only []
          cases w1.getShared other with
          | error e => rfl
          | ok o1 =>
            simp only []
            cases (w1.setInst self (Inst.shared ⟨o1.ptr_, o1.cnt_⟩)).cell o1.cnt_ <;> rfl

theorem assignMoveT_inert {del : Option Nat → World → Except Stop World}
    {self other : Nat} {w : World}
    (hdel : ∀ me b k, w.getShared self = .ok me → w.cell me.cnt_ = .ok (b, k) →
      k.val.shared_cnt_ = 1 → del me.ptr_ w = Stop.lift (w.deleteObj me.ptr_)) :
    SharedPtr.assignMoveT del self other w =
      Stop.lift (SharedPtr.assignMove self other w) := by
  unfold SharedPtr.assignMoveT SharedPtr.assignMove
  rw [ResetT_inert hdel]
  cases w.getShared other with
  | error e => rfl
  | ok o =>
    simp only [Stop.lift, bind, Except.bind, pure, Except.pure]
    cases SharedPtr.Reset self none w with
    | error e => rfl
    | ok w1 =>
      simp only []
      cases w1.getShared other <;> rfl

/-- For a `T` without `SharedPtr` and `WeakPtr` sub-objects every call is `exec`. -/
theorem execT_inert (members : Nat → List Nat) (fuel : Nat) (op : Op) (w : World)
    (h : ∀ a, members a = []) :
    execT members (fuel + 1) op w = Stop.lift (exec op w) := by
  have hdel : ∀ (v : World) (i : Nat) (me : SharedPtr) (b : Nat) (k : CounterCell),
      v.getShared i = .ok me → v.cell me.cnt_ = .ok (b, k) → k.val.shared_cnt_ = 1 →
      World.deleteObjT members (fuel + 1) me.ptr_ v = Stop.lift (v.deleteObj me.ptr_) :=
    fun v _ me _ _ _ _ _ => deleteObjT_inert members fuel me.ptr_ v (fun a _ => h a)
  cases op with
  | sp_assignCopy self other => exact assignCopyT_inert (hdel w self)
  | sp_assignMove self other => exact assignMoveT_inert (hdel w self)
  | sp_dtor self => exact dtorT_inert (hdel w self)
  | sp_Reset self fresh =>
    cases fresh with
    | false =>
      show SharedPtr.ResetT (World.deleteObjT members (fuel + 1)) self none w =
        Stop.lift (SharedPtr.Reset self none w)
      exact ResetT_inert (hdel w self)
    | true =>
      show SharedPtr.ResetT (World.deleteObjT members (fuel + 1)) self (some w.newObj.2)
        w.newObj.1 = Stop.lift (SharedPtr.Reset self (some w.newObj.2) w.newObj.1)
      exact ResetT_inert (hdel w.newObj.1 self)
  | sp_ctorRaw fresh => cases fresh <;> rfl
  | _ => rfl

/-- For a `T` without `SharedPtr` and `WeakPtr` sub-objects every program runs as in
`run`. -/
theorem runT_inert (members : Nat → List Nat) (fuel : Nat) (h : ∀ a, members a = [])
    (ops : List Op) (w : World) : runT members (fuel + 1) ops w = run ops w := by
  induction ops generalizing w with
  | nil => rfl
  | cons op ops ih =>
    unfold runT run
    rw [execT_inert members fuel op w h]
    split_ifs
    · cases exec op w with
      | error e => rfl
      | ok w1 => exact ih w1
    · rfl

/-! ## `Reset`, move and copy assignment when `~T()` ends sub-objects -/

/-- C5 as stated fails: after `SharedPtr<Node> p(new Node); p->self = p;`, where `Node`
has the member `WeakPtr<Node> self`, the block of `p` has the counts `(1, 1)`.
`p.Reset()` runs `delete ptr_`, `~Node()` ends `self`, and `~WeakPtr()` takes `weak_cnt_`
to 0 before `--cnt_->shared_cnt_` runs: the block is left with `(0, 0)`, not `(0, 1)`,
and the instance `self` has changed too.  Any fuel from 1 on gives this result. -/
theorem C5_counterexample :
    runT selfLayout 1 selfProgram World.init = some selfWorld ∧
    selfWorld.insts[1]? = some (some (.shared ⟨some 0, some 0⟩)) ∧
    selfWorld.cnts[0]? = some ⟨⟨1, 1⟩, 0⟩ ∧
    (∀ fuel, SharedPtr.ResetT (World.deleteObjT selfLayout (fuel + 1)) 1 none selfWorld =
      .ok leakedWorld) ∧
    leakedWorld.cnts[0]? = some ⟨⟨0, 0⟩, 0⟩ ∧ leakedWorld.insts[0]? = some none :=
  ⟨by decide, rfl, rfl, fun _ => rfl, rfl, rfl⟩

/-- C5, amended: let a `SharedPtr` hold the object `a` and a block with counts `(s, wk)`,
`s ≥ 1`, and let `a` have no `SharedPtr` or `WeakPtr` sub-object when `s = 1` (then
`~T()` ends no instance).  `Reset(p)`, with `~T()` run by `delete ptr_`, always returns,
and (a) for `s = 1`, `wk = 0` runs `delete` on the object and on the block; (b) for
`s = 1`, `wk > 0` runs `delete` on the object and leaves the block with `(0, wk)`; (c)
for `s > 1` destroys nothing and leaves the block with `(s - 1, wk)`.  No other block,
object or instance changes.  Afterwards the instance is empty (`Get()` null,
`UseCount()` zero) when `p` is null and holds `p` with a newly allocated block `(1, 0)`
when `p` is non-null. -/
theorem C5_reset_rule_amended (members : Nat → List Nat) (fuel : Nat) (w : World) (i : Nat)
    (me : SharedPtr) (p : Option Nat) (a b n : Nat) (c : CounterCell)
    (hi : w.insts[i]? = some (some (.shared me)))
    (hb : me.cnt_ = some b) (ha : me.ptr_ = some a) (hc : w.cnts[b]? = some c)
    (hn : w.objs[a]? = some n) (hs : 1 ≤ c.val.shared_cnt_)
    (hsz : c.val.shared_cnt_ < SIZE_T_CARD)
    (hm : c.val.shared_cnt_ = 1 → members a = []) :
    ∃ w', SharedPtr.ResetT (World.deleteObjT members (fuel + 1)) i p w = .ok w' ∧
      (c.val.shared_cnt_ = 1 ∧ c.val.weak_cnt_ = 0 →
        w'.objs = w.objs.set a (n + 1) ∧ w'.cnts[b]? = some ⟨c.val, c.deletes + 1⟩) ∧
      (c.val.shared_cnt_ = 1 ∧ 0 < c.val.weak_cnt_ →
        w'.objs = w.objs.set a (n + 1) ∧
          w'.cnts[b]? = some ⟨⟨0, c.val.weak_cnt_⟩, c.deletes⟩) ∧
      (1 < c.val.shared_cnt_ →
        w'.objs = w.objs ∧
          w'.cnts[b]? = some ⟨⟨c.val.shared_cnt_ - 1, c.val.weak_cnt_⟩, c.deletes⟩) ∧
      (∀ b', b' ≠ b → b' < w.cnts.length → w'.cnts[b']? = w.cnts[b']?) ∧
      (∀ j, j ≠ i → w'.insts[j]? = w.insts[j]?) ∧
      (p = none → w'.cnts.length = w.cnts.length ∧
        w'.insts[i]? = some (some (.shared ⟨none, none⟩)) ∧
        SharedPtr.Get i w' = .ok none ∧ SharedPtr.UseCount i w' = .ok 0) ∧
      (∀ a', p = some a' →
        w'.insts[i]? = some (some (.shared ⟨some a', some w.cnts.length⟩)) ∧
        w'.cnts[w.cnts.length]? = some ⟨⟨1, 0⟩, 0⟩ ∧
        w'.cnts.length = w.cnts.length + 1 ∧
        SharedPtr.Get i w' = .ok (some a') ∧ SharedPtr.UseCount i w' = .ok 1) := by
  obtain ⟨w', h1, rest⟩ := Reset_rule w i me p a b n c hi hb ha hc hn hs hsz
  refine ⟨w', ?_, rest⟩
  have hdel : ∀ (me' : SharedPtr) (b' : Nat) (k : CounterCell), w.getShared i = .ok me' →
      w.cell me'.cnt_ = .ok (b', k) → k.val.shared_cnt_ = 1 →
      World.deleteObjT members (fuel + 1) me'.ptr_ w = Stop.lift (w.deleteObj me'.ptr_) := by
    intro me' b' k hg hcell hk
    rw [getShared_eq hi] at hg
    cases hg
    rw [hb, cell_eq hc] at hcell
    cases hcell
    exact deleteObjT_inert members fuel me.ptr_ w
      (fun a' ha' => by rw [ha] at ha'; cases ha'; exact hm hk)
  rw [ResetT_inert hdel, h1]
  rfl

/-- C5, amended, at `Reset(p)` of the only owner of an object that a `WeakPtr` watches:
the object is destroyed and the block keeps `(0, 1)`. -/
theorem C5_reset_rule_amended_witness :
    watchedWorld.newObj.1.insts[0]? = some (some (.shared ⟨some 0, some 0⟩)) ∧
    watchedWorld.newObj.1.cnts[0]? = some ⟨⟨1, 1⟩, 0⟩ ∧
    watchedWorld.newObj.1.objs[0]? = some 0 ∧ watchedWorld.newObj.2 = 1 ∧
    ∃ w', SharedPtr.ResetT (World.deleteObjT (fun _ => []) 1) 0 (some 1)
        watchedWorld.newObj.1 = .ok w' ∧
      w'.objs = watchedWorld.newObj.1.objs.set 0 1 ∧ w'.cnts[0]? = some ⟨⟨0, 1⟩, 0⟩ ∧
      w'.insts[0]? = some (some (.shared ⟨some 1, some 1⟩)) ∧
      w'.cnts[1]? = some ⟨⟨1, 0⟩, 0⟩ := by
  obtain ⟨w', h1, _, h3, _, _, _, _, h8⟩ :=
    C5_reset_rule_amended (fun _ => []) 0 watchedWorld.newObj.1 0 ⟨some 0, some 0⟩ (some 1)
      0 0 0 ⟨⟨1, 1⟩, 0⟩ rfl rfl rfl rfl rfl (by decide) (by decide) (fun _ => rfl)
  obtain ⟨e1, e2⟩ := h3 ⟨rfl, by decide⟩
  obtain ⟨e3, e4, _⟩ := h8 1 rfl
  exact ⟨rfl, rfl, rfl, rfl, w', h1, e1, e2, e3, e4⟩

/-- C7, the code at the failing input.  After `SharedPtr<Node> p(new Node);
p->self = p; p.Reset();`, where `Node` has the member `WeakPtr<Node> self`, no live
`SharedPtr` and no live `WeakPtr` points to the block, both of its counts are 0, and
`delete` has not run on it: `~WeakPtr()`, run by `delete ptr_`, found `shared_cnt_ == 1`
and only decremented, and `SharedPtr::Reset` then only decremented too.  After the
destructor of `p` no instance is left and the block is still not deleted. -/
theorem C7_block_never_freed :
    runT selfLayout 1 (selfProgram ++ [.sp_Reset 1 false]) World.init = some leakedWorld ∧
    leakedWorld.cnts[0]? = some ⟨⟨0, 0⟩, 0⟩ ∧
    leakedWorld.strong 0 = 0 ∧ leakedWorld.weak 0 = 0 ∧
    runT selfLayout 1 (selfProgram ++ [.sp_Reset 1 false, .sp_dtor 1]) World.init =
      some ⟨[⟨⟨0, 0⟩, 0⟩], [1], [none, none, none]⟩ := by
  decide



/-- C9 as stated fails: in the reachable state `crowdWorld` the move assignment
`t = std::move(a)` takes `shared_cnt_` of the block `t` held before from 2 to 1.  No
`delete ptr_` runs in the call, so this holds whatever sub-objects the objects have. -/
theorem C9_counterexample :
    Reachable crowdWorld ∧ SharedPtr.assignMove 1 0 crowdWorld = .ok crowdMoved ∧
      crowdWorld.cnts[1]? = some ⟨⟨2, 0⟩, 0⟩ ∧ crowdMoved.cnts[1]? = some ⟨⟨1, 0⟩, 0⟩ ∧
      ∀ (members : Nat → List Nat) (fuel : Nat),
        SharedPtr.assignMoveT (World.deleteObjT members fuel) 1 0 crowdWorld =
          .ok crowdMoved :=
  ⟨crowdWorld_reachable, rfl, rfl, rfl, fun _ _ => rfl⟩

/-- C9, amended: move construction from the live `SharedPtr` `other` changes no block
and no object.  Let `self` be a distinct live `SharedPtr` that is empty or holds an
allocated object and a block with `1 ≤ shared_cnt_ < 2^64`, and whose object has no
`SharedPtr` or `WeakPtr` sub-object when `self.UseCount() == 1` (then `~T()` ends no
instance, `other` in particular).  Move assignment from `other` to `self`, with `~T()`
run by `delete ptr_`, is `self.Reset()` followed by a transfer that changes no block and
no object: only the block `self` held before can change, every other block keeps its
counts, and no block changes when `self` was empty.  In both cases the moved-from
instance then reports `UseCount() == 0` and converts to `false`. -/
theorem C9_move_amended (members : Nat → List Nat) (fuel : Nat) (w : World)
    (self other : Nat) (me o : SharedPtr)
    (hs : w.insts[self]? = some (some (.shared me)))
    (ho : w.insts[other]? = some (some (.shared o)))
    (hwf : ∀ b, me.cnt_ = some b → ∃ a c n, me.ptr_ = some a ∧ w.cnts[b]? = some c ∧
      w.objs[a]? = some n ∧ 1 ≤ c.val.shared_cnt_ ∧ c.val.shared_cnt_ < SIZE_T_CARD)
    (hm : SharedPtr.UseCount self w = .ok 1 → ∀ a, me.ptr_ = some a → members a = []) :
    (∃ w', SharedPtr.ctorMove other w = .ok w' ∧ w'.cnts = w.cnts ∧ w'.objs = w.objs ∧
      w'.insts[w.insts.length]? = some (some (.shared o)) ∧
      SharedPtr.UseCount other w' = .ok 0 ∧ SharedPtr.toBool other w' = .ok false) ∧
    (self ≠ other → ∃ w1 w',
      SharedPtr.ResetT (World.deleteObjT members (fuel + 1)) self none w = .ok w1 ∧
      SharedPtr.assignMoveT (World.deleteObjT members (fuel + 1)) self other w = .ok w' ∧
      w'.cnts = w1.cnts ∧ w'.objs = w1.objs ∧
      (∀ b, me.cnt_ ≠ some b → w'.cnts[b]? = w.cnts[b]?) ∧
      (me.cnt_ = none → w'.cnts = w.cnts) ∧
      w'.insts[self]? = some (some (.shared o)) ∧
      SharedPtr.UseCount other w' = .ok 0 ∧ SharedPtr.toBool other w' = .ok false) := by
  have hlo : other < w.insts.length := (List.getElem?_eq_some.mp ho).1
  have hls : self < w.insts.length := (List.getElem?_eq_some.mp hs).1
  constructor
  · refine ⟨(w.setInst other (.shared ⟨none, none⟩)).pushInst (.shared ⟨o.ptr_, o.cnt_⟩),
      ?_, rfl, rfl, ?_, ?_, ?_⟩
    · simp [SharedPtr.ctorMove, getShared_eq ho, bind, Except.bind, pure, Except.pure]
    · simp
    · simp [SharedPtr.UseCount, World.getShared, hlo, List.getElem?_append_left, bind,
        Except.bind, pure, Except.pure]
    · simp [SharedPtr.toBool, SharedPtr.Get, World.getShared, hlo,
        List.getElem?_append_left, bind, Except.bind, pure, Except.pure]
  · intro hso
    obtain ⟨w1, hr1⟩ : ∃ w1, SharedPtr.Reset self none w = .ok w1 := by
      cases hc : me.cnt_ with
      | none =>
        exact ⟨w.setInst self (.shared ⟨none, none⟩), by
          simp [SharedPtr.Reset, getShared_eq hs, hc, bind, Except.bind, pure, Except.pure]⟩
      | some b =>
        obtain ⟨a, c, n, ha, hcc, hn, h1, h2⟩ := hwf b hc
        obtain ⟨w1, h, _⟩ := Reset_rule w self me none a b n c hs hc ha hcc hn h1 h2
        exact ⟨w1, h⟩
    obtain ⟨me2, cc, _, hins1, _⟩ := Reset_effect hr1
    obtain ⟨k1, k2⟩ := Reset_none_cnts hs hr1
    have hlo1 : other < w1.insts.length := by rw [hins1]; simpa using hlo
    have hls1 : self < w1.insts.length := by rw [hins1]; simpa using hls
    have ho1 : w1.insts[other]? = some (some (.shared o)) := by
      rw [hins1, List.getElem?_set_ne hso]; exact ho
    have hdel : ∀ (me' : SharedPtr) (b' : Nat) (k : CounterCell),
        w.getShared self = .ok me' → w.cell me'.cnt_ = .ok (b', k) →
        k.val.shared_cnt_ = 1 →
        World.deleteObjT members (fuel + 1) me'.ptr_ w =
          Stop.lift (w.deleteObj me'.ptr_) := by
      intro me' b' k hg hcell hk
      have hu : SharedPtr.UseCount self w = .ok 1 := by
        unfold SharedPtr.UseCount
        rw [hg]
        simp only [bind, Except.bind, pure, Except.pure]
        cases hc : me'.cnt_ with
        | none => rw [hc] at hcell; cases hcell
        | some c =>
          rw [hc] at hcell
          simp only [hcell, hk]
      rw [getShared_eq hs] at hg
      cases hg
      exact deleteObjT_inert members fuel me.ptr_ w (hm hu)
    have e2 : SharedPtr.assignMove self other w = .ok ((w1.setInst self
        (.shared ⟨o.ptr_, o.cnt_⟩)).setInst other (.shared ⟨none, none⟩)) := by
      simp [SharedPtr.assignMove, getShared_eq ho, hr1, getShared_eq ho1, bind, Except.bind,
        pure, Except.pure]
    refine ⟨w1, (w1.setInst self (.shared ⟨o.ptr_, o.cnt_⟩)).setInst other
      (.shared ⟨none, none⟩), ?_, ?_, rfl, rfl, k1, k2, ?_, ?_, ?_⟩
    · rw [ResetT_inert hdel, hr1]; rfl
    · rw [assignMoveT_inert hdel, e2]; rfl
    · simp [List.getElem?_set_ne (Ne.symm hso), hls1]
    · simp [SharedPtr.UseCount, World.getShared, hlo1, bind, Except.bind, pure, Except.pure]
    · simp [SharedPtr.toBool, SharedPtr.Get, World.getShared, hlo1, bind, Except.bind, pure,
        Except.pure]

/-- C9, amended, at `t = std::move(a)` in `crowdWorld`, where `u` shares the object of
`t`: the block of `a` keeps its counts and `a` is empty afterwards. -/
theorem C9_move_amended_witness :
    ∃ w', SharedPtr.assignMoveT (World.deleteObjT (fun _ => []) 1) 1 0 crowdWorld = .ok w' ∧
      w'.cnts[0]? = crowdWorld.cnts[0]? ∧ SharedPtr.UseCount 0 w' = .ok 0 ∧
      SharedPtr.toBool 0 w' = .ok false := by
  obtain ⟨_, hmove⟩ :=
    C9_move_amended (fun _ => []) 0 crowdWorld 1 0 ⟨some 1, some 1⟩ ⟨some 0, some 0⟩ rfl rfl
      (fun b hb => ⟨1, ⟨⟨2, 0⟩, 0⟩, 0, rfl, by cases hb; rfl, rfl, by decide, by decide⟩)
      (fun _ _ _ => rfl)
  obtain ⟨w1, w', _, h2, _, _, h5, _, _, h8, h9⟩ := hmove (by decide)
  exact ⟨w', h2, h5 0 (by decide), h8, h9⟩

/-- C10, the code at the failing input.  After `SharedPtr<Node> cur(new Node);
cur->next = SharedPtr<Node>(new Node);`, where `Node` has the member
`SharedPtr<Node> next`, `cur` is the only owner of the first node and `cur->next` owns
the second.  In `cur = cur->next` the call `Reset()` runs `delete ptr_` on the first
node, `~Node()` ends `cur->next`, which destroys the second node and frees its block;
the statements `ptr_ = other.ptr_; cnt_ = other.cnt_; ++cnt_->shared_cnt_;` then read an
instance whose lifetime has ended.  Any fuel from 2 on gives this result; `cur` does not
end with the `Get()` of `cur->next`. -/
theorem C10_assign_from_member_reads_ended :
    runT listLayout 2 listProgram World.init = some listWorld ∧
    SharedPtr.UseCount 1 listWorld = .ok 1 ∧ SharedPtr.Get 0 listWorld = .ok (some 1) ∧
    SharedPtr.UseCount 0 listWorld = .ok 1 ∧
    (∀ fuel, SharedPtr.ResetT (World.deleteObjT listLayout (fuel + 2)) 1 none listWorld =
      .ok ⟨[⟨⟨1, 0⟩, 1⟩, ⟨⟨1, 0⟩, 1⟩], [1, 1],
        [none, some (.shared ⟨none, none⟩), none, none]⟩) ∧
    (∀ fuel, SharedPtr.assignCopyT (World.deleteObjT listLayout (fuel + 2)) 1 0 listWorld =
      .error (.err .wild)) :=
  ⟨by decide, rfl, rfl, rfl, fun _ => rfl, fun _ => rfl⟩

end Stl
